import Mathlib

/-!
# GraphSCC: Kosaraju's two-pass algorithm (src/C/GraphSCC.c)

Shallow embedding of `GraphSCC.c`.

* C `int` values are `Int`.  Every counter of the two passes (`t`, `sccCount`, the entries
  of `sccComponentsCount`) is bounded by the vertex count, itself an `int`, so no arithmetic
  of the passes wraps and no `% 2^32` is needed.  The one computation on the vertex count
  that can leave the range of `int` is the loop start `graph.n - 1` of `DFSLoop1` and
  `DFSLoop2`, for the count `INT_MIN`: `main` checks it, and the overflow (undefined
  behaviour in C) is the error `Err.intOverflow`.  The edge counter `m` is taken to stay
  in range (fewer than `2^31` accepted pairs).
* The `malloc`ed arrays are lists; every indexed read or write is checked, and an access
  outside the array is the error `Err.outOfBounds` (undefined behaviour in C).
* A linked list of `Node`s is the list of its `vertex` fields, head first.  The field
  `startingVertex` is only ever written (in `DFS2`) and never read, so it is not represented.
* The recursion of `DFS1` and `DFS2` is bounded by a fuel argument; running out of fuel is the
  error `Err.outOfFuel`.  The theorems show that fuel `n` always suffices.
* The globals `graph` and `graphRev` are not modified by the two passes and are passed as
  arguments; the mutable globals and `main`'s local `t` form `State`.
* `main` returns the lines it prints and its exit status.  The elapsed times are not
  represented, `malloc` is taken to succeed, and the input file is given by what `fopen`,
  `fgets`, `sscanf` and `fscanf` make of it.
* `DFS1Traced` and `DFSLoop1Traced` are `DFS1` and `DFSLoop1` with a ghost log of the calls
  of `DFS1`; erasing the log gives back the untraced functions.
-/

set_option autoImplicit false

namespace GraphSCC

/-! ## Data model -/

/-- The `struct Graph` of `GraphSCC.h`: `edges[v]` is the successor list of `v`. -/
structure Graph where
  n : Int
  m : Int
  edges : List (List Int)
deriving DecidableEq, Repr

/-- Ways in which a run of the embedding can fail. -/
inductive Err where
  | outOfBounds
  | outOfFuel
  | intOverflow
deriving DecidableEq, Repr

/-- Checked read `a[i]` with a C `int` index. -/
def readAt {α : Type} (a : List α) (i : Int) : Except Err α :=
  if i < 0 then .error .outOfBounds
  else match a[i.toNat]? with
    | some x => .ok x
    | none => .error .outOfBounds

/-- Checked write `a[i] = x` with a C `int` index. -/
def writeAt {α : Type} (a : List α) (i : Int) (x : α) : Except Err (List α) :=
  if i < 0 then .error .outOfBounds
  else if i.toNat < a.length then .ok (a.set i.toNat x)
  else .error .outOfBounds

/-- The mutable globals of `GraphSCC.c`, `main`'s local `t`, and a ghost log `calls` of the
invocations of `DFS2` as pairs `(vertex, startVertex)`, most recent first. -/
structure State where
  visited : List Int
  finishingTimes : List Int
  finishingTimesOrdered : List Int
  sccComponentsCount : List Int
  sccCount : Int
  t : Int
  calls : List (Int × Int)
deriving DecidableEq, Repr

/-! ## First pass: `DFS1`, `DFSLoop1` -/

/-- The `while (NULL != node)` loop of `DFS1`; `call` is the recursive call `DFS1(·, t)`. -/
def DFS1.loop (call : Int → State → Except Err State) : List Int → State → Except Err State
  | [], s => .ok s
  | v :: next, s =>
    match readAt s.visited v with
    | .error e => .error e
    | .ok b =>
      if b = 0 then
        match call v s with
        | .error e => .error e
        | .ok s1 => DFS1.loop call next s1
      else DFS1.loop call next s

/-- The function `DFS1(vertex, t)`, walking `graphRev`. -/
def DFS1 (graphRev : Graph) : Nat → Int → State → Except Err State
  | 0, _, _ => .error .outOfFuel
  | fuel + 1, vertex, s =>
    match readAt graphRev.edges vertex with
    | .error e => .error e
    | .ok node =>
      match writeAt s.visited vertex 1 with
      | .error e => .error e
      | .ok vis =>
        match DFS1.loop (DFS1 graphRev fuel) node { s with visited := vis } with
        | .error e => .error e
        | .ok s1 =>
          match writeAt s1.finishingTimesOrdered s1.t vertex with
          | .error e => .error e
          | .ok fto =>
            match writeAt s1.finishingTimes vertex s1.t with
            | .error e => .error e
            | .ok ft =>
              .ok { s1 with finishingTimesOrdered := fto, finishingTimes := ft, t := s1.t + 1 }

/-- The `for (i = graph.n - 1; i >= 0; i--)` loop of `DFSLoop1`; the argument `k` is `i + 1`. -/
def DFSLoop1.go (graphRev : Graph) (fuel : Nat) : Nat → State → Except Err State
  | 0, s => .ok s
  | i + 1, s =>
    match readAt s.visited (i : Int) with
    | .error e => .error e
    | .ok b =>
      if b = 0 then
        match DFS1 graphRev fuel (i : Int) s with
        | .error e => .error e
        | .ok s1 => DFSLoop1.go graphRev fuel i s1
      else DFSLoop1.go graphRev fuel i s

/-- The function `DFSLoop1(t)`. -/
def DFSLoop1 (graph graphRev : Graph) (fuel : Nat) (s : State) : Except Err State :=
  DFSLoop1.go graphRev fuel graph.n.toNat s

/-! ## Second pass: `DFS2`, `DFSLoop2` -/

/-- The `while (NULL != node)` loop of `DFS2`; `call` is the recursive call
`DFS2(·, startVertex)`. -/
def DFS2.loop (call : Int → State → Except Err State) : List Int → State → Except Err State
  | [], s => .ok s
  | v :: next, s =>
    match readAt s.finishingTimes v with
    | .error e => .error e
    | .ok f =>
      match readAt s.visited f with
      | .error e => .error e
      | .ok b =>
        if b = 0 then
          match call v s with
          | .error e => .error e
          | .ok s1 => DFS2.loop call next s1
        else DFS2.loop call next s

/-- The function `DFS2(vertex, startVertex)`, walking `graph`. -/
def DFS2 (graph : Graph) : Nat → Int → Int → State → Except Err State
  | 0, _, _, _ => .error .outOfFuel
  | fuel + 1, vertex, startVertex, s =>
    match readAt graph.edges vertex with
    | .error e => .error e
    | .ok node =>
      match readAt s.finishingTimes vertex with
      | .error e => .error e
      | .ok f =>
        match writeAt s.visited f 1 with
        | .error e => .error e
        | .ok vis =>
          match readAt s.finishingTimesOrdered startVertex with
          | .error e => .error e
          | .ok r =>
            match readAt s.sccComponentsCount r with
            | .error e => .error e
            | .ok c =>
              match writeAt s.sccComponentsCount r (c + 1) with
              | .error e => .error e
              | .ok cnt =>
                DFS2.loop (fun v => DFS2 graph fuel v startVertex) node
                  { s with visited := vis, sccComponentsCount := cnt,
                           calls := (vertex, startVertex) :: s.calls }

/-- The `for (i = graph.n - 1; i >= 0; i--)` loop of `DFSLoop2`; the argument `k` is `i + 1`. -/
def DFSLoop2.go (graph : Graph) (fuel : Nat) : Nat → State → Except Err State
  | 0, s => .ok s
  | i + 1, s =>
    match readAt s.visited (i : Int) with
    | .error e => .error e
    | .ok b =>
      if b = 0 then
        match readAt s.finishingTimesOrdered (i : Int) with
        | .error e => .error e
        | .ok r =>
          match DFS2 graph fuel r (i : Int) { s with sccCount := s.sccCount + 1 } with
          | .error e => .error e
          | .ok s1 => DFSLoop2.go graph fuel i s1
      else DFSLoop2.go graph fuel i s

/-- The function `DFSLoop2()`. -/
def DFSLoop2 (graph : Graph) (fuel : Nat) (s : State) : Except Err State :=
  DFSLoop2.go graph fuel graph.n.toNat s

/-! ## `main`: initialisation and the two passes -/

/-- The state after the initialisation loop of `main` (lines 44-53), with `sccCount = 0`
and `t = 0`. -/
def initState (graph : Graph) : State :=
  { visited := List.replicate graph.n.toNat 0
    finishingTimes := List.replicate graph.n.toNat (-1)
    finishingTimesOrdered := List.replicate graph.n.toNat (-1)
    sccComponentsCount := List.replicate graph.n.toNat 0
    sccCount := 0
    t := 0
    calls := [] }

/-- The reset loop `for (i = 0; i < graph.n; i++) visited[i] = 0;` of `main`. -/
def resetVisited (graph : Graph) (s : State) : State :=
  { s with visited := List.replicate graph.n.toNat 0 }

/-- Lines 66-77 of `main`: `DFSLoop1(&t)`, the reset of `visited`, `DFSLoop2()`. -/
def kosaraju (graph graphRev : Graph) (fuel : Nat) : Except Err State :=
  match DFSLoop1 graph graphRev fuel (initState graph) with
  | .error e => .error e
  | .ok s1 => DFSLoop2 graph fuel (resetVisited graph s1)

/-! ## Reading the graph: `readGraphFromFile` -/

/-- A whitespace-separated token of the input after the first line: either text that
`fscanf("%d")` converts to an `int`, or text that it cannot convert. -/
inductive Token where
  | int (v : Int)
  | junk
deriving DecidableEq, Repr

/-- Lines 200-207 (and 209-216): a new node holding `x` is put in front of the list
`edges[i]`. -/
def prepend (edges : List (List Int)) (i x : Int) : List (List Int) :=
  edges.set i.toNat (x :: edges.getD i.toNat [])

/-- The locals `edges`, `edgesRev` and `m` of `readGraphFromFile`. -/
structure Builder where
  edges : List (List Int)
  edgesRev : List (List Int)
  m : Int
deriving DecidableEq, Repr

/-- Lines 200-218: the nodes for the edge `tailVertex -> headVertex` (0-based) are put in
front of `edges[tailVertex]` and of `edgesRev[headVertex]`, and `m` is incremented. -/
def addEdge (b : Builder) (tailVertex headVertex : Int) : Builder :=
  { edges := prepend b.edges tailVertex headVertex
    edgesRev := prepend b.edgesRev headVertex tailVertex
    m := b.m + 1 }

/-- The edge-reading loop `while (!feof(inputFile))` (lines 188-219) over the remaining
tokens.  A call of `fscanf` fails at the end of the input and at a `junk` token. -/
def readEdges (n : Int) : List Token → Builder → Builder
  | .int tailVertex :: .int headVertex :: rest, b =>
    if tailVertex < 1 ∨ tailVertex > n then b
    else if headVertex < 1 ∨ headVertex > n then b
    else readEdges n rest (addEdge b (tailVertex - 1) (headVertex - 1))
  | _, b => b

/-- The builder before the edge-reading loop (lines 182-186): `n` empty lists in each
structure, `m = 0`. -/
def emptyBuilder (n : Int) : Builder :=
  { edges := List.replicate n.toNat [], edgesRev := List.replicate n.toNat [], m := 0 }

/-- The part of `readGraphFromFile` after the vertex count `n` has been read (lines
182-226): the pair `(graph, graphRev)`. -/
def readGraphFromFile (n : Int) (tokens : List Token) : Graph × Graph :=
  let b := readEdges n tokens (emptyBuilder n)
  ({ n := n, m := b.m, edges := b.edges }, { n := n, m := b.m, edges := b.edgesRev })

/-! ## Specification-level definitions: graphs, the abstract search, the pass invariants -/

open Relation

/-- Abstract view of a depth-first search in progress: `pre` lists the vertices on which the
search has been called (most recent first), `post` the vertices whose call has returned, in
the order of their return. -/
structure AState where
  pre : List Nat
  post : List Nat

/-- Invariant of a depth-first search over the edge relation `E` on the vertices `[0, n)`. -/
structure AInv (n : Nat) (E : Nat → Nat → Prop) (a : AState) : Prop where
  pre_nodup : a.pre.Nodup
  pre_lt : ∀ v ∈ a.pre, v < n
  post_nodup : a.post.Nodup
  post_sub : ∀ v ∈ a.post, v ∈ a.pre
  closed : ∀ u ∈ a.post, ∀ v, E u v → v ∈ a.pre
  wf : ∀ u ∈ a.post, ∀ v ∈ a.post, ReflTransGen E u v →
    (∃ z ∈ a.post, ReflTransGen E z u ∧ ReflTransGen E u z ∧
        a.post.indexOf v ≤ a.post.indexOf z) ∨
    (∃ g ∈ a.pre, g ∉ a.post ∧ ReflTransGen E u g)

/-- The state `a'` extends `a` by the calls `newpre` and the returns `new`. -/
structure Grow (a a' : AState) (newpre new : List Nat) : Prop where
  pre_eq : a'.pre = newpre ++ a.pre
  post_eq : a'.post = a.post ++ new
  perm : newpre.Perm new

/-- What a call of the search on the unvisited vertex `x` achieves. -/
structure CallPost (n : Nat) (E : Nat → Nat → Prop) (x : Nat) (a a' : AState)
    (newpre new : List Nat) : Prop where
  inv : AInv n E a'
  grow : Grow a a' newpre new
  last : ∃ new0, new = new0 ++ [x]
  reach : ∀ y ∈ new, ReflTransGen E x y

/-- What the loop over the successor list `ys` achieves. -/
structure LoopPost (n : Nat) (E : Nat → Nat → Prop) (ys : List Nat) (a a' : AState)
    (newpre new : List Nat) : Prop where
  inv : AInv n E a'
  grow : Grow a a' newpre new
  reach : ∀ y ∈ new, ∃ z ∈ ys, ReflTransGen E z y
  done : ∀ y ∈ ys, y ∈ a'.pre

/-- A well-formed Graph Store: `n >= 0`, one successor list per vertex, every successor in
`[0, n)`. -/
def Graph.WellFormed (g : Graph) : Prop :=
  0 ≤ g.n ∧ g.edges.length = g.n.toNat ∧ ∀ l ∈ g.edges, ∀ v ∈ l, 0 ≤ v ∧ v < g.n

instance (g : Graph) : Decidable g.WellFormed := by
  unfold Graph.WellFormed; infer_instance

/-- The directed graph stored in `g`: `u -> v` when `v` occurs in `edges[u]`. -/
def Graph.Edge (g : Graph) (u v : Nat) : Prop := (v : Int) ∈ g.edges.getD u []

/-- The arrays of the first pass represent the abstract state `a`; `c0` fixes the globals
that the first pass does not touch. -/
structure Rel1 (n : Nat) (c0 c : State) (a : AState) : Prop where
  len_vis : c.visited.length = n
  len_ft : c.finishingTimes.length = n
  len_fto : c.finishingTimesOrdered.length = n
  vis : ∀ v < n, c.visited[v]? = some (if v ∈ a.pre then 1 else 0)
  t_eq : c.t = a.post.length
  fto_lt : ∀ k < a.post.length, c.finishingTimesOrdered[k]? = (a.post[k]?).map Int.ofNat
  fto_ge : ∀ k < n, a.post.length ≤ k → c.finishingTimesOrdered[k]? = some (-1)
  ft_in : ∀ v ∈ a.post, c.finishingTimes[v]? = some (a.post.indexOf v : Int)
  ft_out : ∀ v < n, v ∉ a.post → c.finishingTimes[v]? = some (-1)
  count_eq : c.sccCount = c0.sccCount
  sizes_eq : c.sccComponentsCount = c0.sccComponentsCount
  calls_eq : c.calls = c0.calls

/-- Specification of one call `DFS1(y, t)` on an unvisited vertex, with `k` bounding from
below the number of visited vertices for which the fuel of the call suffices. -/
def Call1Spec (n : Nat) (E : Nat → Nat → Prop) (c0 : State) (k : Nat)
    (call : Int → State → Except Err State) : Prop :=
  ∀ (y : Nat) (c : State) (a : AState), Rel1 n c0 c a → AInv n E a → y < n → y ∉ a.pre →
    k ≤ a.pre.length →
    ∃ c' a' np nw, call (y : Int) c = .ok c' ∧ Rel1 n c0 c' a' ∧ CallPost n E y a a' np nw

instance (g : Graph) (u v : Nat) : Decidable (g.Edge u v) := by
  unfold Graph.Edge; infer_instance

/-- The well-formed pairs `(graph, graphRev)`: two well-formed Graph Stores over the same
vertex set, each edge of one being the reversed edge of the other. -/
def WellFormedPair (g gr : Graph) : Prop :=
  g.WellFormed ∧ gr.WellFormed ∧ gr.n = g.n ∧
    ∀ u < g.n.toNat, ∀ v < g.n.toNat, (g.Edge u v ↔ gr.Edge v u)

instance (g gr : Graph) : Decidable (WellFormedPair g gr) := by
  unfold WellFormedPair; infer_instance

/-- No call of the search is in progress: every visited vertex is finished. -/
def AState.Quiet (a : AState) : Prop := ∀ v ∈ a.pre, v ∈ a.post

/-- The size array `l` with `m` added to entry `r`. -/
def bump (l : List Int) (r m : Nat) : List Int := l.set r (l.getD r 0 + (m : Int))

/-- The finishing order `L` of the first pass as stored in the arrays of `c0`. -/
structure Order (n : Nat) (L : List Nat) (c0 : State) : Prop where
  nodup : L.Nodup
  mem : ∀ v, v ∈ L ↔ v < n
  ft : ∀ v < n, c0.finishingTimes[v]? = some (L.indexOf v : Int)
  fto : ∀ k < n, c0.finishingTimesOrdered[k]? = (L[k]?).map Int.ofNat

/-- The arrays of the second pass represent the abstract state `a`. -/
structure Rel2 (n : Nat) (L : List Nat) (c0 c : State) (a : AState) : Prop where
  len_vis : c.visited.length = n
  len_cnt : c.sccComponentsCount.length = n
  vis : ∀ v < n, c.visited[L.indexOf v]? = some (if v ∈ a.pre then 1 else 0)
  ft_eq : c.finishingTimes = c0.finishingTimes
  fto_eq : c.finishingTimesOrdered = c0.finishingTimesOrdered
  t_eq : c.t = c0.t
  calls_fst : c.calls.map Prod.fst = a.pre.map Int.ofNat

/-- Specification of one call `DFS2(y, i)` on an unvisited vertex, `r` being the vertex
stored at slot `i` of `finishingTimesOrdered`. -/
def Call2Spec (n : Nat) (E : Nat → Nat → Prop) (L : List Nat) (c0 : State) (i r k : Nat)
    (call : Int → State → Except Err State) : Prop :=
  ∀ (y : Nat) (c : State) (a : AState), Rel2 n L c0 c a → AInv n E a → y < n →
    y ∉ a.pre → k ≤ a.pre.length →
    ∃ c' a' np nw, call (y : Int) c = .ok c' ∧ Rel2 n L c0 c' a' ∧
      CallPost n E y a a' np nw ∧
      c'.calls = np.map (fun (v : Nat) => ((v : Int), (i : Int))) ++ c.calls ∧
      c'.sccCount = c.sccCount ∧
      c'.sccComponentsCount = bump c.sccComponentsCount r np.length

/-- Reachability in the directed graph stored in `g`. -/
def Graph.Reach (g : Graph) (u v : Nat) : Prop := ReflTransGen g.Edge u v

/-- Mutual reachability: `u` and `v` lie in the same strongly connected component. -/
def Graph.SameSCC (g : Graph) (u v : Nat) : Prop := g.Reach u v ∧ g.Reach v u

/-- Kosaraju's property of a finishing order `L` of a search over `E`: whatever a vertex `u`
reaches finishes no later than some vertex of the component of `u`. -/
def Kosaraju (E : Nat → Nat → Prop) (L : List Nat) : Prop :=
  ∀ u ∈ L, ∀ v ∈ L, ReflTransGen E u v →
    ∃ z ∈ L, ReflTransGen E z u ∧ ReflTransGen E u z ∧ L.indexOf v ≤ L.indexOf z

/-- Invariant of the loop of `DFSLoop2` before the iteration with index `k - 1`; `tr` is the
log of the calls of `DFS2` over the naturals. -/
structure Inv2 (g : Graph) (L : List Nat) (c0 : State) (k : Nat) (c : State) (a : AState)
    (tr : List (Nat × Nat)) : Prop where
  rel : Rel2 g.n.toNat L c0 c a
  inv : AInv g.n.toNat g.Edge a
  quiet : a.Quiet
  calls_eq : c.calls = tr.map (fun p => ((p.1 : Int), (p.2 : Int)))
  pre_eq : a.pre = tr.map Prod.fst
  done : ∀ j, k ≤ j → ∀ r, L[j]? = some r → r ∈ a.pre
  union : ∀ u ∈ a.pre, ∀ v, g.SameSCC u v → v ∈ a.pre
  slot : ∀ p ∈ tr, k ≤ p.2 ∧ ∃ r, L[p.2]? = some r ∧ g.SameSCC r p.1 ∧ (r, p.2) ∈ tr
  inj : ∀ p ∈ tr, ∀ q ∈ tr, g.SameSCC p.1 q.1 → p.2 = q.2
  count : c.sccCount = ((tr.map Prod.snd).dedup.length : Int)
  sizes : ∀ r < g.n.toNat,
    c.sccComponentsCount[r]? = some (((tr.map Prod.snd).count (L.indexOf r) : Nat) : Int)
  total : c.sccComponentsCount.sum = (tr.length : Int)

/-- A token that the edge-reading loop takes as a vertex id: an integer in `[1, n]`. -/
def validToken (n : Int) : Token → Bool
  | .int v => decide (1 ≤ v ∧ v ≤ n)
  | .junk => false

/-- The complete pairs of consecutive integer tokens of a token sequence, from its start. -/
def completePairs : List Token → List (Int × Int)
  | .int a :: .int b :: rest => (a, b) :: completePairs rest
  | _ => []

/-- The accepted pairs, as the specification words them: the complete (tail, head) pairs
that precede the first token which is not an integer or lies outside `[1, n]`. -/
def acceptedPairs (n : Int) (tokens : List Token) : List (Int × Int) :=
  completePairs (tokens.takeWhile (validToken n))

/-- The structures built from a sequence of accepted 1-based pairs, in input order. -/
def buildFrom (b : Builder) (pairs : List (Int × Int)) : Builder :=
  pairs.foldl (fun b p => addEdge b (p.1 - 1) (p.2 - 1)) b

/-- A pair of 1-based vertex ids in `[1, n]`. -/
def ValidPair (n : Int) (p : Int × Int) : Prop :=
  1 ≤ p.1 ∧ p.1 ≤ n ∧ 1 ≤ p.2 ∧ p.2 ≤ n

/-- The builder `b` holds exactly the edges `pairs` over `n` vertices. -/
structure Built (n : Int) (pairs : List (Int × Int)) (b : Builder) : Prop where
  len : b.edges.length = n.toNat
  lenRev : b.edgesRev.length = n.toNat
  m_eq : b.m = (pairs.length : Int)
  nodes : (b.edges.map List.length).sum = pairs.length
  nodesRev : (b.edgesRev.map List.length).sum = pairs.length
  cnt : ∀ u v : Nat,
    (b.edges.getD u []).count (v : Int) = pairs.count ((u : Int) + 1, (v : Int) + 1)
  cntRev : ∀ u v : Nat,
    (b.edgesRev.getD v []).count (u : Int) = pairs.count ((u : Int) + 1, (v : Int) + 1)
  range : ∀ l ∈ b.edges, ∀ x ∈ l, 0 ≤ x ∧ x < n
  rangeRev : ∀ l ∈ b.edgesRev, ∀ x ∈ l, 0 ≤ x ∧ x < n

/-- The mutual-reachability relation of `g` on its vertices `[0, n)`. -/
def sccSetoid (g : Graph) : Setoid (Fin g.n.toNat) where
  r u v := g.SameSCC u v
  iseqv :=
    { refl := fun _ => ⟨ReflTransGen.refl, ReflTransGen.refl⟩
      symm := fun h => ⟨h.2, h.1⟩
      trans := fun h1 h2 => ⟨ReflTransGen.trans h1.1 h2.1, ReflTransGen.trans h2.2 h1.2⟩ }

/-- A small input, the file `3`, `1 2`, `2 1`, `3 1`: vertices 0 and 1 on a cycle, and an
edge from vertex 2 into it. -/
def exampleGraph : Graph := { n := 3, m := 3, edges := [[1], [0], [0]] }

/-- The transpose of `exampleGraph`. -/
def exampleGraphRev : Graph := { n := 3, m := 3, edges := [[2, 1], [0], []] }

/-- The input text of an edge list over 0-based vertices: the 1-based ids of each pair. -/
def edgeTokens : List (Nat × Nat) → List Token
  | [] => []
  | (u, v) :: rest => .int ((u : Int) + 1) :: .int ((v : Int) + 1) :: edgeTokens rest

/-! ## Ghost trace of the calls of `DFS1` -/

/-- Ghost record of one call of `DFS1`: its vertex argument, the state at its entry and the
state at its return. -/
structure CallRec where
  vertex : Int
  entry : State
  exit : State

/-- The loop of `DFS1` (see `DFS1.loop`), also returning the records of the calls made, in
the order of their entry. -/
def DFS1Traced.loop (call : Int → State → Except Err (State × List CallRec)) :
    List Int → State → Except Err (State × List CallRec)
  | [], s => .ok (s, [])
  | v :: next, s =>
    match readAt s.visited v with
    | .error e => .error e
    | .ok b =>
      if b = 0 then
        match call v s with
        | .error e => .error e
        | .ok (s1, l1) =>
          match DFS1Traced.loop call next s1 with
          | .error e => .error e
          | .ok (s2, l2) => .ok (s2, l1 ++ l2)
      else DFS1Traced.loop call next s

/-- The function `DFS1` (see `DFS1`), also returning the records of this call and of the
calls made during it, in the order of their entry. -/
def DFS1Traced (graphRev : Graph) : Nat → Int → State → Except Err (State × List CallRec)
  | 0, _, _ => .error .outOfFuel
  | fuel + 1, vertex, s =>
    match readAt graphRev.edges vertex with
    | .error e => .error e
    | .ok node =>
      match writeAt s.visited vertex 1 with
      | .error e => .error e
      | .ok vis =>
        match DFS1Traced.loop (DFS1Traced graphRev fuel) node { s with visited := vis } with
        | .error e => .error e
        | .ok (s1, l) =>
          match writeAt s1.finishingTimesOrdered s1.t vertex with
          | .error e => .error e
          | .ok fto =>
            match writeAt s1.finishingTimes vertex s1.t with
            | .error e => .error e
            | .ok ft =>
              .ok ({ s1 with finishingTimesOrdered := fto, finishingTimes := ft, t := s1.t + 1 },
                { vertex := vertex, entry := s,
                  exit := { s1 with finishingTimesOrdered := fto, finishingTimes := ft,
                                    t := s1.t + 1 } } :: l)

/-- The loop of `DFSLoop1` (see `DFSLoop1.go`), also returning the records of all calls of
`DFS1`. -/
def DFSLoop1Traced.go (graphRev : Graph) (fuel : Nat) :
    Nat → State → Except Err (State × List CallRec)
  | 0, s => .ok (s, [])
  | i + 1, s =>
    match readAt s.visited (i : Int) with
    | .error e => .error e
    | .ok b =>
      if b = 0 then
        match DFS1Traced graphRev fuel (i : Int) s with
        | .error e => .error e
        | .ok (s1, l1) =>
          match DFSLoop1Traced.go graphRev fuel i s1 with
          | .error e => .error e
          | .ok (s2, l2) => .ok (s2, l1 ++ l2)
      else DFSLoop1Traced.go graphRev fuel i s

/-- The function `DFSLoop1` with the records of all calls of `DFS1` made during it. -/
def DFSLoop1Traced (graph graphRev : Graph) (fuel : Nat) (s : State) :
    Except Err (State × List CallRec) :=
  DFSLoop1Traced.go graphRev fuel graph.n.toNat s

/-- The state of a traced run, the records dropped. -/
def dropTrace (r : Except Err (State × List CallRec)) : Except Err State :=
  match r with
  | .error e => .error e
  | .ok (s, _) => .ok s

/-! ## Specification-level definitions for the trace, the roots and the sizes -/

/-- Finishing times, once assigned, are kept from the state `c` to the later state `c'`. -/
def Ext1 (c c' : State) : Prop :=
  c.t ≤ c'.t ∧
    ∀ (w : Nat) (f : Int), c.finishingTimes[w]? = some f → 0 ≤ f →
      c'.finishingTimes[w]? = some f

/-- The record `r` is that of a call of `DFS1` on an unvisited vertex, made in a state of the
first pass and with enough fuel. -/
def GoodCall1 (gr : Graph) (c0 : State) (r : CallRec) : Prop :=
  ∃ (u : Nat) (a : AState) (fuel : Nat), r.vertex = (u : Int) ∧ u < gr.n.toNat ∧
    Rel1 gr.n.toNat c0 r.entry a ∧ AInv gr.n.toNat gr.Edge a ∧ u ∉ a.pre ∧
    gr.n.toNat - fuel ≤ a.pre.length ∧ DFS1 gr fuel (u : Int) r.entry = .ok r.exit

/-- Specification of a traced call of `DFS1` on an unvisited vertex. -/
def Traced1Spec (gr : Graph) (c0 : State) (k : Nat)
    (callT : Int → State → Except Err (State × List CallRec)) : Prop :=
  ∀ (y : Nat) (c : State) (a : AState), Rel1 gr.n.toNat c0 c a → AInv gr.n.toNat gr.Edge a →
    y < gr.n.toNat → y ∉ a.pre → k ≤ a.pre.length →
    ∃ c' a' np nw l, callT (y : Int) c = .ok (c', l) ∧ Rel1 gr.n.toNat c0 c' a' ∧
      CallPost gr.n.toNat gr.Edge y a a' np nw ∧
      (l.map CallRec.vertex).Perm (np.map Int.ofNat) ∧
      ∀ r ∈ l, GoodCall1 gr c0 r ∧ Ext1 r.exit c'

/-- A well-formed Graph Store: two well-formed adjacency structures over the same vertex
set (nothing is asked of how their edges are related). -/
def GraphStore (g gr : Graph) : Prop := g.WellFormed ∧ gr.WellFormed ∧ gr.n = g.n

instance (g gr : Graph) : Decidable (GraphStore g gr) := by
  unfold GraphStore; infer_instance

/-- The graph read from the file `3`, `1 3`, `2 3`, `3 2`: vertices 1 and 2 on a cycle, and
an edge from vertex 0 into it. -/
def crossGraph : Graph := { n := 3, m := 3, edges := [[2], [2], [1]] }

/-- The transpose of `crossGraph`. -/
def crossGraphRev : Graph := { n := 3, m := 3, edges := [[], [2], [1, 0]] }

/-- The vertex `r` has the greatest finishing time, as stored in `s`, of its component. -/
def GreatestInSCC (g : Graph) (s : State) (r : Nat) : Prop :=
  ∀ v : Nat, g.SameSCC r v → ∃ fv fr, readAt s.finishingTimes (v : Int) = .ok fv ∧
    readAt s.finishingTimes (r : Int) = .ok fr ∧ fv ≤ fr

/-- The size array `l` over the vertices `[0, n)` holds at each vertex of `R`, one per class
of `Same`, the number of vertices of its class, and 0 elsewhere. -/
structure Sized (n : Nat) (Same : Nat → Nat → Prop) (l : List Int) (R : Nat → Prop) :
    Prop where
  len : l.length = n
  root : ∀ r < n, R r → l[r]? = some (Set.ncard {v | Same r v} : Int)
  other : ∀ r < n, ¬ R r → l[r]? = some 0
  ex : ∀ v < n, ∃ r < n, R r ∧ Same v r
  uniq : ∀ r < n, ∀ r2 < n, R r → R r2 → Same r r2 → r = r2

/-! ## The program: `main`, `err`, the whole `readGraphFromFile` -/

/-- A line that `main` prints on the standard output.  The elapsed times, printed with `%f`,
depend on the clock and are not represented; `found` is the only line that prints an
integer of the program, with `%d`. -/
inductive Line where
  | beginBanner
  | message (msg : String)
  | elapsedRead
  | found (sccCount : Int)
  | elapsedSearch
  | endBanner
deriving DecidableEq, Repr

/-- The exit status of the process: `EXIT_SUCCESS` or `EXIT_FAILURE`. -/
inductive Status where
  | success
  | failure
deriving DecidableEq, Repr

/-- What lines 174-175 of `readGraphFromFile` make of the first line of the input: `fgets`
finds no line, or `sscanf(buffer, "%d", &n)` converts nothing, or it converts `n`. -/
inductive FirstLine where
  | absent
  | unparseable
  | count (n : Int)
deriving DecidableEq, Repr

/-- An input file that `fopen` has opened: its first line, and the tokens after it. -/
structure InputFile where
  firstLine : FirstLine
  tokens : List Token
deriving DecidableEq, Repr

/-- A finished run of `main`: the lines printed and the exit status.  The ghost field
`final` holds the state after `DFSLoop2` when the two passes have run, and `none` when the
process has ended before them. -/
structure Outcome where
  output : List Line
  status : Status
  final : Option State
deriving DecidableEq, Repr

/-- The whole function `readGraphFromFile(file, err)`; `file` is `none` when `fopen` returns
`NULL`.  The result `.error msg` is the return value 0 with the message `msg` copied to
`err`, the result `.ok (graph, graphRev)` is the return value 1.  `malloc` is taken to
succeed. -/
def readGraphFromFile.whole : Option InputFile → Except String (Graph × Graph)
  | none => .error "Err. Could not open file.\n"
  | some f =>
    match f.firstLine with
    | .absent => .error "Err. Could not read number of vertices.\n"
    | .unparseable => .error "Err. Could not read number of vertices.\n"
    | .count n => .ok (readGraphFromFile n f.tokens)

/-- The function `err(msg)`, after the lines `printed` so far: it prints the message and
the end banner, and exits with `EXIT_FAILURE`. -/
def err (printed : List Line) (msg : String) : Outcome :=
  { output := printed ++ [Line.message msg, Line.endBanner]
    status := Status.failure
    final := none }

/-- The least value of a C `int`, 32 bits wide. -/
def INT_MIN : Int := -2147483648

/-- The function `main(argc, argv)`; `file` is what `fopen(argv[1], "rt")` yields.  The two
calls of `printGraph` are commented out in the source, so nothing of `graph` is printed.
The loops of `DFSLoop1` and `DFSLoop2` start at `i = graph.n - 1`, computed in `int`: when
`graph.n - 1` is below `INT_MIN` the subtraction overflows, which is undefined behaviour in
C and the error `Err.intOverflow` here.  For every other count the loops run over the
indices from `graph.n - 1` down to 0, as `DFSLoop1` and `DFSLoop2` do. -/
def main (fuel argc : Nat) (file : Option InputFile) : Except Err Outcome :=
  if argc = 1 then
    .ok (err [Line.beginBanner] "Err. The input file must be given as an argument.\n")
  else
    match readGraphFromFile.whole file with
    | .error msg => .ok (err [Line.beginBanner] msg)
    | .ok (graph, graphRev) =>
      if graph.n - 1 < INT_MIN then .error .intOverflow
      else
        match kosaraju graph graphRev fuel with
        | .error e => .error e
        | .ok s =>
          .ok { output := [Line.beginBanner, Line.elapsedRead, Line.found s.sccCount,
                  Line.elapsedSearch, Line.endBanner]
                status := Status.success
                final := some s }

/-- The input file `3`, `1 2`, `2 1`, `3 1`, from which `exampleGraph` is read. -/
def exampleFile : InputFile :=
  { firstLine := .count 3, tokens := [.int 1, .int 2, .int 2, .int 1, .int 3, .int 1] }

/-- The input file whose only line is `-2147483648`, the least `int`. -/
def leastCountFile : InputFile := { firstLine := .count (-2147483648), tokens := [] }

/-- The input file `3`, `1 2`, `2 1`, `3 1`, `3 1`: `exampleFile` with its last edge twice. -/
def exampleFileDup : InputFile :=
  { firstLine := .count 3
    tokens := [.int 1, .int 2, .int 2, .int 1, .int 3, .int 1, .int 3, .int 1] }

/-! ## Lemmas: the abstract search, the two passes, the whole run -/

/-! ### The abstract search -/

/-- A path from a finished vertex to an unfinished one passes through a vertex whose call is
still in progress. -/
theorem first_exit {n : Nat} {E : Nat → Nat → Prop} {a : AState} (h : AInv n E a)
    {u w : Nat} (hu : u ∈ a.post)
    (hr : ReflTransGen E u w) (hw : w ∉ a.post) :
    ∃ g ∈ a.pre, g ∉ a.post ∧ ReflTransGen E u g := by
  revert hu
  refine ReflTransGen.head_induction_on hr ?_ ?_
  · intro hu
    exact absurd hu hw
  · intro b c hbc _ ih hb
    by_cases hc : c ∈ a.post
    · obtain ⟨g, hg1, hg2, hg3⟩ := ih hc
      exact ⟨g, hg1, hg2, ReflTransGen.head hbc hg3⟩
    · exact ⟨c, h.closed _ hb _ hbc, hc, ReflTransGen.single hbc⟩

/-- Marking an unvisited vertex keeps the invariant. -/
theorem visit_inv {n : Nat} {E : Nat → Nat → Prop} {a : AState} (h : AInv n E a) {x : Nat}
    (hx : x < n) (hxa : x ∉ a.pre) :
    AInv n E ⟨x :: a.pre, a.post⟩ where
  pre_nodup := List.nodup_cons.mpr ⟨hxa, h.pre_nodup⟩
  pre_lt := by
    intro v hv
    rcases List.mem_cons.mp hv with rfl | hv
    · exact hx
    · exact h.pre_lt v hv
  post_nodup := h.post_nodup
  post_sub := fun v hv => List.mem_cons_of_mem _ (h.post_sub v hv)
  closed := fun u hu v huv => List.mem_cons_of_mem _ (h.closed u hu v huv)
  wf := by
    intro u hu v hv huv
    rcases h.wf u hu v hv huv with hz | ⟨g, hg1, hg2, hg3⟩
    · exact Or.inl hz
    · exact Or.inr ⟨g, List.mem_cons_of_mem _ hg1, hg2, hg3⟩

theorem loop_nil {n : Nat} {E : Nat → Nat → Prop} {a : AState} (h : AInv n E a) :
    LoopPost n E [] a a [] [] where
  inv := h
  grow := ⟨by simp, by simp, List.Perm.refl _⟩
  reach := by simp
  done := by simp

theorem Grow.pre_mono {a a' : AState} {np nw : List Nat} (h : Grow a a' np nw) {y : Nat}
    (hy : y ∈ a.pre) : y ∈ a'.pre := by
  rw [h.pre_eq]; exact List.mem_append_right _ hy

theorem loop_skip {n : Nat} {E : Nat → Nat → Prop} {a a' : AState} {np nw ys : List Nat}
    {y : Nat} (hy : y ∈ a.pre)
    (h : LoopPost n E ys a a' np nw) : LoopPost n E (y :: ys) a a' np nw where
  inv := h.inv
  grow := h.grow
  reach := by
    intro w hw
    obtain ⟨z, hz, hzw⟩ := h.reach w hw
    exact ⟨z, List.mem_cons_of_mem _ hz, hzw⟩
  done := by
    intro w hw
    rcases List.mem_cons.mp hw with rfl | hw
    · exact h.grow.pre_mono hy
    · exact h.done w hw

theorem loop_call {n : Nat} {E : Nat → Nat → Prop} {a a1 a' : AState}
    {np1 nw1 np2 nw2 ys : List Nat} {y : Nat}
    (h1 : CallPost n E y a a1 np1 nw1) (h2 : LoopPost n E ys a1 a' np2 nw2) :
    LoopPost n E (y :: ys) a a' (np2 ++ np1) (nw1 ++ nw2) where
  inv := h2.inv
  grow := by
    refine ⟨?_, ?_, ?_⟩
    · rw [h2.grow.pre_eq, h1.grow.pre_eq, List.append_assoc]
    · rw [h2.grow.post_eq, h1.grow.post_eq, List.append_assoc]
    · exact List.perm_append_comm.trans (h1.grow.perm.append h2.grow.perm)
  reach := by
    intro w hw
    rcases List.mem_append.mp hw with hw | hw
    · exact ⟨y, List.mem_cons_self _ _, h1.reach w hw⟩
    · obtain ⟨z, hz, hzw⟩ := h2.reach w hw
      exact ⟨z, List.mem_cons_of_mem _ hz, hzw⟩
  done := by
    intro w hw
    rcases List.mem_cons.mp hw with rfl | hw
    · apply h2.grow.pre_mono
      rw [h1.grow.pre_eq]
      apply List.mem_append_left
      obtain ⟨new0, hn⟩ := h1.last
      exact h1.grow.perm.mem_iff.mpr (by simp [hn])
    · exact h2.done w hw

theorem indexOf_le_snoc {l : List Nat} {x v : Nat} (hx : x ∉ l) (hv : v ∈ l ++ [x]) :
    (l ++ [x]).indexOf v ≤ (l ++ [x]).indexOf x := by
  rw [List.indexOf_append_of_not_mem hx]
  by_cases hvl : v ∈ l
  · rw [List.indexOf_append_of_mem hvl]
    exact Nat.le_add_right_of_le (List.indexOf_lt_length.mpr hvl).le
  · have : v = x := by simpa [hvl] using hv
    subst this
    rw [List.indexOf_append_of_not_mem hvl]

/-- The return of a call: once the loop over the successors `ys` of `x` is done, appending `x`
to the finished vertices re-establishes the invariant. -/
theorem call_finish {n : Nat} {E : Nat → Nat → Prop} {a a2 : AState} {np nw ys : List Nat}
    {x : Nat} (h : AInv n E a)
    (hxa : x ∉ a.pre) (hys : ∀ v, E x v ↔ v ∈ ys)
    (h2 : LoopPost n E ys ⟨x :: a.pre, a.post⟩ a2 np nw) :
    CallPost n E x a ⟨a2.pre, a2.post ++ [x]⟩ (np ++ [x]) (nw ++ [x]) := by
  have hpre : a2.pre = np ++ x :: a.pre := h2.grow.pre_eq
  have hpost : a2.post = a.post ++ nw := h2.grow.post_eq
  have hnd : (np ++ x :: a.pre).Nodup := hpre ▸ h2.inv.pre_nodup
  have hxnp : x ∉ np := fun hm =>
    (List.nodup_append.mp hnd).2.2 hm (List.mem_cons_self _ _)
  have hdisj : ∀ g ∈ a.pre, g ∉ nw := fun g hg hm =>
    (List.nodup_append.mp hnd).2.2 (h2.grow.perm.mem_iff.mpr hm) (List.mem_cons_of_mem _ hg)
  have hxpost : x ∉ a2.post := by
    rw [hpost, List.mem_append]
    rintro (hm | hm)
    · exact hxa (h.post_sub x hm)
    · exact hxnp (h2.grow.perm.mem_iff.mpr hm)
  have hreach : ∀ y ∈ nw, ReflTransGen E x y := by
    intro y hy
    obtain ⟨z, hz, hzy⟩ := h2.reach y hy
    exact ReflTransGen.head ((hys z).mpr hz) hzy
  have hx2 : x ∈ a2.pre := by rw [hpre]; simp
  have key : ∀ u ∈ a2.post, ReflTransGen E u x →
      ReflTransGen E x u ∨ ∃ g ∈ a2.pre, g ∉ a2.post ++ [x] ∧ ReflTransGen E u g := by
    intro u hu hux
    rw [hpost, List.mem_append] at hu
    rcases hu with hu | hu
    · obtain ⟨g, hg1, hg2, hg3⟩ := first_exit h hu hux (fun hm => hxa (h.post_sub x hm))
      refine Or.inr ⟨g, ?_, ?_, hg3⟩
      · rw [hpre]; exact List.mem_append_right _ (List.mem_cons_of_mem _ hg1)
      · rw [hpost]
        simp only [List.mem_append, List.mem_singleton, not_or]
        exact ⟨⟨hg2, hdisj g hg1⟩, fun hgx => hxa (hgx ▸ hg1)⟩
    · exact Or.inl (hreach u hu)
  refine ⟨?_, ?_, ⟨nw, rfl⟩, ?_⟩
  · refine ⟨h2.inv.pre_nodup, h2.inv.pre_lt, ?_, ?_, ?_, ?_⟩
    · exact List.nodup_append.mpr ⟨h2.inv.post_nodup, List.nodup_singleton x, by
        intro y hy hy2
        rw [List.mem_singleton] at hy2
        exact hxpost (hy2 ▸ hy)⟩
    · intro v hv
      rcases List.mem_append.mp hv with hv | hv
      · exact h2.inv.post_sub v hv
      · rw [List.mem_singleton] at hv
        exact hv ▸ hx2
    · intro u hu v huv
      rcases List.mem_append.mp hu with hu | hu
      · exact h2.inv.closed u hu v huv
      · rw [List.mem_singleton] at hu
        subst hu
        exact h2.done v ((hys v).mp huv)
    · intro u hu v hv huv
      show (∃ z ∈ a2.post ++ [x], _ ∧ _ ∧
          (a2.post ++ [x]).indexOf v ≤ (a2.post ++ [x]).indexOf z) ∨
        (∃ g ∈ a2.pre, g ∉ a2.post ++ [x] ∧ _)
      have viaX : ReflTransGen E x u →  ReflTransGen E u x →
          ∃ z ∈ a2.post ++ [x], ReflTransGen E z u ∧ ReflTransGen E u z ∧
            (a2.post ++ [x]).indexOf v ≤ (a2.post ++ [x]).indexOf z := fun h1 h2 =>
        ⟨x, by simp, h1, h2, indexOf_le_snoc hxpost hv⟩
      rcases List.mem_append.mp hu with hu | hu
      · have viaKey : ReflTransGen E u x → _ := fun hux =>
          (key u hu hux).imp (fun hxu => viaX hxu hux) id
        rcases List.mem_append.mp hv with hv2 | hv2
        · rcases h2.inv.wf u hu v hv2 huv with ⟨z, hz1, hz2, hz3, hz4⟩ | ⟨g, hg1, hg2, hg3⟩
          · refine Or.inl ⟨z, List.mem_append_left _ hz1, hz2, hz3, ?_⟩
            rw [List.indexOf_append_of_mem hv2, List.indexOf_append_of_mem hz1]
            exact hz4
          · by_cases hgx : g = x
            · exact viaKey (hgx ▸ hg3)
            · refine Or.inr ⟨g, hg1, ?_, hg3⟩
              simp only [List.mem_append, List.mem_singleton, not_or]
              exact ⟨hg2, hgx⟩
        · rw [List.mem_singleton] at hv2
          exact viaKey (hv2 ▸ huv)
      · rw [List.mem_singleton] at hu
        subst hu
        exact Or.inl (viaX ReflTransGen.refl ReflTransGen.refl)
  · refine ⟨?_, ?_, ?_⟩
    · show a2.pre = (np ++ [x]) ++ a.pre
      rw [hpre]; simp
    · show a2.post ++ [x] = a.post ++ (nw ++ [x])
      rw [hpost]; simp
    · exact h2.grow.perm.append_right [x]
  · intro y hy
    rcases List.mem_append.mp hy with hy | hy
    · exact hreach y hy
    · rw [List.mem_singleton] at hy
      exact hy ▸ ReflTransGen.refl

/-! ### Checked array accesses and counting -/

theorem readAt_ok {α : Type} {l : List α} {i : Int} {x : α} (hi : 0 ≤ i)
    (h : l[i.toNat]? = some x) : readAt l i = .ok x := by
  unfold readAt
  rw [if_neg (not_lt.mpr hi), h]

theorem readAt_nat {α : Type} {l : List α} {k : Nat} {x : α}
    (h : l[k]? = some x) : readAt l (k : Int) = .ok x :=
  readAt_ok (Int.ofNat_nonneg k) (by simpa using h)

theorem writeAt_ok {α : Type} {l : List α} {i : Int} (x : α) (hi : 0 ≤ i)
    (h : i.toNat < l.length) : writeAt l i x = .ok (l.set i.toNat x) := by
  unfold writeAt
  rw [if_neg (not_lt.mpr hi), if_pos h]

theorem writeAt_nat {α : Type} {l : List α} {k : Nat} (x : α)
    (h : k < l.length) : writeAt l (k : Int) x = .ok (l.set k x) := by
  have := writeAt_ok (l := l) (i := (k : Int)) x (Int.ofNat_nonneg k) (by simpa using h)
  simpa using this

theorem nodup_length_le {l : List Nat} {n : Nat} (hnd : l.Nodup) (hlt : ∀ v ∈ l, v < n) :
    l.length ≤ n := by
  have hsub : l ⊆ List.range n := fun v hv => List.mem_range.mpr (hlt v hv)
  have := (List.subperm_of_subset hnd hsub).length_le
  simpa using this

theorem AInv.pre_length_le {n : Nat} {E : Nat → Nat → Prop} {a : AState} (h : AInv n E a) :
    a.pre.length ≤ n := nodup_length_le h.pre_nodup h.pre_lt

theorem AInv.post_length_le {n : Nat} {E : Nat → Nat → Prop} {a : AState} (h : AInv n E a) :
    a.post.length ≤ n :=
  nodup_length_le h.post_nodup (fun v hv => h.pre_lt v (h.post_sub v hv))

theorem AInv.pre_length_lt {n : Nat} {E : Nat → Nat → Prop} {a : AState} (h : AInv n E a)
    {x : Nat} (hx : x < n) (hxa : x ∉ a.pre) : a.pre.length < n := by
  have := nodup_length_le (l := x :: a.pre) (n := n) (List.nodup_cons.mpr ⟨hxa, h.pre_nodup⟩)
    (by
      intro v hv
      rcases List.mem_cons.mp hv with rfl | hv
      · exact hx
      · exact h.pre_lt v hv)
  simpa using this

/-! ### First pass -/

/-- The loop of `DFS1` over a successor list, given the specification of the recursive
call. -/
theorem DFS1_loop_spec {n : Nat} {E : Nat → Nat → Prop} {c0 : State} {k : Nat}
    {call : Int → State → Except Err State} (hcall : Call1Spec n E c0 k call) :
    ∀ (node : List Int), (∀ v ∈ node, 0 ≤ v ∧ v < (n : Int)) →
    ∀ (c : State) (a : AState), Rel1 n c0 c a → AInv n E a → k ≤ a.pre.length →
    ∃ c' a' np nw, DFS1.loop call node c = .ok c' ∧ Rel1 n c0 c' a' ∧
      LoopPost n E (node.map Int.toNat) a a' np nw := by
  intro node
  induction node with
  | nil =>
    intro _ c a hrel hinv _
    exact ⟨c, a, [], [], rfl, hrel, loop_nil hinv⟩
  | cons v next ih =>
    intro hnode c a hrel hinv hk
    have hv := hnode v (List.mem_cons_self _ _)
    have hnext : ∀ w ∈ next, 0 ≤ w ∧ w < (n : Int) :=
      fun w hw => hnode w (List.mem_cons_of_mem _ hw)
    have hvn : v.toNat < n := by omega
    have hvc : ((v.toNat : Nat) : Int) = v := Int.toNat_of_nonneg hv.1
    have hread := readAt_ok hv.1 (hrel.vis v.toNat hvn)
    by_cases hmem : v.toNat ∈ a.pre
    · obtain ⟨c', a', np, nw, hrun, hrel', hpost⟩ := ih hnext c a hrel hinv hk
      refine ⟨c', a', np, nw, ?_, hrel', loop_skip hmem hpost⟩
      simp only [DFS1.loop, hread, if_pos hmem]
      simpa using hrun
    · obtain ⟨c1, a1, np1, nw1, hrun1, hrel1, hpost1⟩ :=
        hcall v.toNat c a hrel hinv hvn hmem hk
      have hk1 : k ≤ a1.pre.length := by
        rw [hpost1.grow.pre_eq, List.length_append]; omega
      obtain ⟨c', a', np, nw, hrun, hrel', hpost⟩ := ih hnext c1 a1 hrel1 hpost1.inv hk1
      refine ⟨c', a', np ++ np1, nw1 ++ nw, ?_, hrel', loop_call hpost1 hpost⟩
      rw [hvc] at hrun1
      simp only [DFS1.loop, hread, if_neg hmem]
      simpa [hrun1] using hrun

theorem Graph.WellFormed.node {g : Graph} (h : g.WellFormed) {y : Nat} (hy : y < g.n.toNat) :
    ∃ node, g.edges[y]? = some node ∧ g.edges.getD y [] = node ∧
      ∀ v ∈ node, 0 ≤ v ∧ v < ((g.n.toNat : Nat) : Int) := by
  have hlen : y < g.edges.length := h.2.1 ▸ hy
  refine ⟨g.edges[y], List.getElem?_eq_getElem hlen, ?_, ?_⟩
  · simp [List.getD, List.getElem?_eq_getElem hlen]
  · intro v hv
    have := h.2.2 _ (List.getElem_mem hlen) v hv
    rw [Int.toNat_of_nonneg h.1]
    exact this

theorem Graph.edge_iff_of_node {g : Graph} {y : Nat} {node : List Int}
    (hnode : g.edges.getD y [] = node) (hpos : ∀ v ∈ node, 0 ≤ v) (v : Nat) :
    g.Edge y v ↔ v ∈ node.map Int.toNat := by
  unfold Graph.Edge
  rw [hnode, List.mem_map]
  constructor
  · intro h
    exact ⟨(v : Int), h, by simp⟩
  · rintro ⟨w, hw, rfl⟩
    rw [Int.toNat_of_nonneg (hpos w hw)]
    exact hw

/-- Every call of `DFS1` on an unvisited vertex with enough fuel returns, and its effect on
the arrays is that of a call of the abstract search. -/
theorem DFS1_spec {gr : Graph} (hwf : gr.WellFormed) (c0 : State) :
    ∀ fuel, Call1Spec gr.n.toNat gr.Edge c0 (gr.n.toNat - fuel) (DFS1 gr fuel) := by
  intro fuel
  induction fuel with
  | zero =>
    intro y c a _ hinv hy hya hk
    have := hinv.pre_length_lt hy hya
    omega
  | succ fuel ih =>
    intro y c a hrel hinv hy hya hk
    obtain ⟨node, hnode1, hnode2, hnode3⟩ := hwf.node hy
    have hread := readAt_nat hnode1
    have hwrite := writeAt_nat (l := c.visited) (1 : Int) (hrel.len_vis ▸ hy)
    have hrel1 : Rel1 gr.n.toNat c0 { c with visited := c.visited.set y 1 }
        ⟨y :: a.pre, a.post⟩ := by
      refine { hrel with len_vis := ?_, vis := ?_ }
      · simp [hrel.len_vis]
      · intro v hv
        show (c.visited.set y 1)[v]? = _
        rw [List.getElem?_set]
        by_cases hyv : y = v
        · subst hyv
          simp [hrel.len_vis, hy]
        · rw [if_neg hyv, hrel.vis v hv]
          simp [List.mem_cons, Ne.symm hyv]
    have hk1 : gr.n.toNat - fuel ≤ (⟨y :: a.pre, a.post⟩ : AState).pre.length := by
      simp only [List.length_cons]; omega
    obtain ⟨c2, a2, np, nw, hrun, hrel2, hpost2⟩ :=
      DFS1_loop_spec ih node hnode3 _ _ hrel1 (visit_inv hinv hy hya) hk1
    have hfin := call_finish hinv hya
      (Graph.edge_iff_of_node hnode2 (fun v hv => (hnode3 v hv).1)) hpost2
    have hlen : a2.post.length < gr.n.toNat := by
      have := hfin.inv.post_length_le
      simp only [List.length_append, List.length_singleton] at this
      omega
    have hyp : y ∉ a2.post := by
      have := hfin.inv.post_nodup
      simp only [List.nodup_append] at this
      exact fun hm => this.2.2 hm (List.mem_singleton_self y)
    have hw1 := writeAt_nat (l := c2.finishingTimesOrdered) (y : Int) (hrel2.len_fto ▸ hlen)
    have hw2 := writeAt_nat (l := c2.finishingTimes) (a2.post.length : Int) (hrel2.len_ft ▸ hy)
    refine ⟨{ c2 with
        finishingTimesOrdered := c2.finishingTimesOrdered.set a2.post.length (y : Int)
        finishingTimes := c2.finishingTimes.set y (a2.post.length : Int)
        t := c2.t + 1 }, ⟨a2.pre, a2.post ++ [y]⟩, np ++ [y], nw ++ [y], ?_, ?_, hfin⟩
    · simp only [DFS1, hread, hwrite, hrun, hrel2.t_eq, hw1, hw2]
    · refine { hrel2 with len_ft := ?_, len_fto := ?_, t_eq := ?_, fto_lt := ?_, fto_ge := ?_,
                          ft_in := ?_, ft_out := ?_ }
      · simp [hrel2.len_ft]
      · simp [hrel2.len_fto]
      · simp [hrel2.t_eq]
      · intro k hk
        show (c2.finishingTimesOrdered.set _ _)[k]? = ((a2.post ++ [y])[k]?).map Int.ofNat
        rw [List.getElem?_set]
        by_cases hkl : a2.post.length = k
        · subst hkl
          simp [hrel2.len_fto, hlen]
        · have hk' : k < a2.post.length := by
            simp only [List.length_append, List.length_singleton] at hk; omega
          rw [if_neg hkl, hrel2.fto_lt k hk', List.getElem?_append_left hk']
      · intro k hk hkl
        show (c2.finishingTimesOrdered.set _ _)[k]? = _
        simp only [List.length_append, List.length_singleton] at hkl
        rw [List.getElem?_set_ne (by omega)]
        exact hrel2.fto_ge k hk (by omega)
      · intro v hv
        show (c2.finishingTimes.set _ _)[v]? = some ((a2.post ++ [y]).indexOf v : Int)
        rw [List.getElem?_set]
        by_cases hyv : y = v
        · subst hyv
          simp [hrel2.len_ft, hy, List.indexOf_append_of_not_mem hyp]
        · have hv' : v ∈ a2.post := by
            simpa [Ne.symm hyv] using hv
          rw [if_neg hyv, hrel2.ft_in v hv', List.indexOf_append_of_mem hv']
      · intro v hv hvp
        show (c2.finishingTimes.set _ _)[v]? = _
        simp only [List.mem_append, List.mem_singleton, not_or] at hvp
        rw [List.getElem?_set_ne (Ne.symm hvp.2)]
        exact hrel2.ft_out v hv hvp.1

theorem CallPost.quiet {n : Nat} {E : Nat → Nat → Prop} {x : Nat} {a a' : AState}
    {np nw : List Nat} (h : CallPost n E x a a' np nw) (hq : a.Quiet) : a'.Quiet := by
  intro v hv
  rw [h.grow.pre_eq] at hv
  rw [h.grow.post_eq]
  rcases List.mem_append.mp hv with hv | hv
  · exact List.mem_append_right _ (h.grow.perm.mem_iff.mp hv)
  · exact List.mem_append_left _ (hq v hv)

theorem CallPost.root_mem {n : Nat} {E : Nat → Nat → Prop} {x : Nat} {a a' : AState}
    {np nw : List Nat} (h : CallPost n E x a a' np nw) : x ∈ a'.pre := by
  rw [h.grow.pre_eq]
  obtain ⟨new0, hn⟩ := h.last
  exact List.mem_append_left _ (h.grow.perm.mem_iff.mpr (by simp [hn]))

theorem rel1_init (g : Graph) : Rel1 g.n.toNat (initState g) (initState g) ⟨[], []⟩ where
  len_vis := by simp [initState]
  len_ft := by simp [initState]
  len_fto := by simp [initState]
  vis := by intro v hv; simp [initState, hv]
  t_eq := by simp [initState]
  fto_lt := by intro k hk; simp at hk
  fto_ge := by intro k hk _; simp [initState, hk]
  ft_in := by intro v hv; simp at hv
  ft_out := by intro v hv _; simp [initState, hv]
  count_eq := rfl
  sizes_eq := rfl
  calls_eq := rfl

theorem ainv_init (n : Nat) (E : Nat → Nat → Prop) : AInv n E ⟨[], []⟩ where
  pre_nodup := List.nodup_nil
  pre_lt := by simp
  post_nodup := List.nodup_nil
  post_sub := by simp
  closed := by simp
  wf := by simp

/-- The loop of `DFSLoop1` from index `k - 1` down to 0. -/
theorem DFSLoop1_go_spec {gr : Graph} (hwf : gr.WellFormed) (c0 : State) {fuel : Nat}
    (hfuel : gr.n.toNat ≤ fuel) :
    ∀ (k : Nat), k ≤ gr.n.toNat → ∀ (c : State) (a : AState),
    Rel1 gr.n.toNat c0 c a → AInv gr.n.toNat gr.Edge a → a.Quiet →
    (∀ v < gr.n.toNat, k ≤ v → v ∈ a.pre) →
    ∃ c' a', DFSLoop1.go gr fuel k c = .ok c' ∧ Rel1 gr.n.toNat c0 c' a' ∧
      AInv gr.n.toNat gr.Edge a' ∧ a'.Quiet ∧ (∀ v < gr.n.toNat, v ∈ a'.pre) ∧
      ∃ np nw, Grow a a' np nw := by
  intro k
  induction k with
  | zero =>
    intro _ c a hrel hinv hq hall
    exact ⟨c, a, rfl, hrel, hinv, hq, fun v hv => hall v hv (Nat.zero_le _), [], [],
      ⟨by simp, by simp, List.Perm.refl _⟩⟩
  | succ i ih =>
    intro hk c a hrel hinv hq hall
    have hi : i < gr.n.toNat := hk
    have hread := readAt_nat (hrel.vis i hi)
    by_cases hmem : i ∈ a.pre
    · have hall' : ∀ v < gr.n.toNat, i ≤ v → v ∈ a.pre := by
        intro v hv hiv
        rcases Nat.eq_or_lt_of_le hiv with rfl | hlt
        · exact hmem
        · exact hall v hv hlt
      obtain ⟨c', a', hrun, hrest⟩ := ih (Nat.le_of_lt hi) c a hrel hinv hq hall'
      refine ⟨c', a', ?_, hrest⟩
      simp only [DFSLoop1.go, hread, if_pos hmem]
      simpa using hrun
    · obtain ⟨c1, a1, np1, nw1, hrun1, hrel1, hpost1⟩ :=
        DFS1_spec hwf c0 fuel i c a hrel hinv hi hmem (by omega)
      have hall' : ∀ v < gr.n.toNat, i ≤ v → v ∈ a1.pre := by
        intro v hv hiv
        rcases Nat.eq_or_lt_of_le hiv with rfl | hlt
        · exact hpost1.root_mem
        · exact hpost1.grow.pre_mono (hall v hv hlt)
      obtain ⟨c', a', hrun, hrel', hinv', hq', hall2, np, nw, hgrow⟩ :=
        ih (Nat.le_of_lt hi) c1 a1 hrel1 hpost1.inv (hpost1.quiet hq) hall'
      refine ⟨c', a', ?_, hrel', hinv', hq', hall2, np ++ np1, nw1 ++ nw, ?_⟩
      · simp only [DFSLoop1.go, hread, if_neg hmem]
        simpa [hrun1] using hrun
      · refine ⟨?_, ?_, ?_⟩
        · rw [hgrow.pre_eq, hpost1.grow.pre_eq, List.append_assoc]
        · rw [hgrow.post_eq, hpost1.grow.post_eq, List.append_assoc]
        · exact List.perm_append_comm.trans (hpost1.grow.perm.append hgrow.perm)

/-! ### Second pass -/

theorem bump_length (l : List Int) (r m : Nat) : (bump l r m).length = l.length := by
  simp [bump]

theorem getElem?_bump (l : List Int) (r m j : Nat) :
    (bump l r m)[j]? = if r = j then (l[j]?).map (· + (m : Int)) else l[j]? := by
  unfold bump
  rw [List.getElem?_set]
  by_cases hrj : r = j
  · subst hrj
    by_cases h : r < l.length
    · simp [h, List.getD, List.getElem?_eq_getElem h]
    · simp [h, List.getElem?_eq_none (not_lt.mp h)]
  · simp [hrj]

theorem bump_zero (l : List Int) (r : Nat) : bump l r 0 = l := by
  apply List.ext_getElem?
  intro j
  rw [getElem?_bump]
  split
  · cases l[j]? <;> simp
  · rfl

theorem bump_bump (l : List Int) (r m1 m2 : Nat) :
    bump (bump l r m1) r m2 = bump l r (m1 + m2) := by
  apply List.ext_getElem?
  intro j
  rw [getElem?_bump, getElem?_bump, getElem?_bump]
  split
  · cases l[j]? <;> simp [add_assoc]
  · rfl

theorem Order.length {n : Nat} {L : List Nat} {c0 : State} (h : Order n L c0) :
    L.length = n := by
  have h1 : L.Perm (List.range n) :=
    (List.perm_ext_iff_of_nodup h.nodup (List.nodup_range n)).mpr
      (fun v => by rw [h.mem, List.mem_range])
  simpa using h1.length_eq

theorem Order.indexOf_lt {n : Nat} {L : List Nat} {c0 : State} (h : Order n L c0) {v : Nat}
    (hv : v < n) : L.indexOf v < n := by
  have := List.indexOf_lt_length.mpr ((h.mem v).mpr hv)
  rwa [h.length] at this

/-- The loop of `DFS2` over a successor list, given the specification of the recursive
call. -/
theorem DFS2_loop_spec {n : Nat} {E : Nat → Nat → Prop} {L : List Nat} {c0 : State}
    {i r k : Nat} {call : Int → State → Except Err State} (hL : Order n L c0)
    (hcall : Call2Spec n E L c0 i r k call) :
    ∀ (node : List Int), (∀ v ∈ node, 0 ≤ v ∧ v < (n : Int)) →
    ∀ (c : State) (a : AState), Rel2 n L c0 c a → AInv n E a → k ≤ a.pre.length →
    ∃ c' a' np nw, DFS2.loop call node c = .ok c' ∧ Rel2 n L c0 c' a' ∧
      LoopPost n E (node.map Int.toNat) a a' np nw ∧
      c'.calls = np.map (fun (v : Nat) => ((v : Int), (i : Int))) ++ c.calls ∧
      c'.sccCount = c.sccCount ∧
      c'.sccComponentsCount = bump c.sccComponentsCount r np.length := by
  intro node
  induction node with
  | nil =>
    intro _ c a hrel hinv _
    exact ⟨c, a, [], [], rfl, hrel, loop_nil hinv, by simp, rfl, (bump_zero _ _).symm⟩
  | cons v next ih =>
    intro hnode c a hrel hinv hk
    have hv := hnode v (List.mem_cons_self _ _)
    have hnext : ∀ w ∈ next, 0 ≤ w ∧ w < (n : Int) :=
      fun w hw => hnode w (List.mem_cons_of_mem _ hw)
    have hvn : v.toNat < n := by omega
    have hvc : ((v.toNat : Nat) : Int) = v := Int.toNat_of_nonneg hv.1
    have hread1 : readAt c.finishingTimes v = .ok (L.indexOf v.toNat : Int) :=
      readAt_ok hv.1 (hrel.ft_eq ▸ hL.ft v.toNat hvn)
    have hread2 := readAt_nat (hrel.vis v.toNat hvn)
    by_cases hmem : v.toNat ∈ a.pre
    · obtain ⟨c', a', np, nw, hrun, hrel', hpost, hrest⟩ := ih hnext c a hrel hinv hk
      refine ⟨c', a', np, nw, ?_, hrel', loop_skip hmem hpost, hrest⟩
      simp only [DFS2.loop, hread1, hread2, if_pos hmem]
      simpa using hrun
    · obtain ⟨c1, a1, np1, nw1, hrun1, hrel1, hpost1, hc1, hs1, hb1⟩ :=
        hcall v.toNat c a hrel hinv hvn hmem hk
      have hk1 : k ≤ a1.pre.length := by
        rw [hpost1.grow.pre_eq, List.length_append]; omega
      obtain ⟨c', a', np, nw, hrun, hrel', hpost, hc, hs, hb⟩ :=
        ih hnext c1 a1 hrel1 hpost1.inv hk1
      refine ⟨c', a', np ++ np1, nw1 ++ nw, ?_, hrel', loop_call hpost1 hpost, ?_, ?_, ?_⟩
      · rw [hvc] at hrun1
        simp only [DFS2.loop, hread1, hread2, if_neg hmem]
        simpa [hrun1] using hrun
      · rw [hc, hc1]; simp
      · rw [hs, hs1]
      · rw [hb, hb1, bump_bump, List.length_append, Nat.add_comm]

/-- Every call of `DFS2` on an unvisited vertex with enough fuel returns; it logs the calls
`np`, all with the same `startVertex`, and adds their number to the entry of the root. -/
theorem DFS2_spec {g : Graph} (hwf : g.WellFormed) {L : List Nat} {c0 : State}
    (hL : Order g.n.toNat L c0) {i r : Nat} (hi : i < g.n.toNat) (hr : L[i]? = some r) :
    ∀ fuel, Call2Spec g.n.toNat g.Edge L c0 i r (g.n.toNat - fuel)
      (fun v => DFS2 g fuel v (i : Int)) := by
  intro fuel
  induction fuel with
  | zero =>
    intro y c a _ hinv hy hya hk
    have := hinv.pre_length_lt hy hya
    omega
  | succ fuel ih =>
    intro y c a hrel hinv hy hya hk
    obtain ⟨node, hnode1, hnode2, hnode3⟩ := hwf.node hy
    have hrn : r < g.n.toNat := (hL.mem r).mp (List.getElem?_mem hr)
    have hread_e := readAt_nat hnode1
    have hread_ft : readAt c.finishingTimes (y : Int) = .ok (L.indexOf y : Int) :=
      readAt_nat (hrel.ft_eq ▸ hL.ft y hy)
    have hwrite_v := writeAt_nat (l := c.visited) (1 : Int)
      (hrel.len_vis ▸ hL.indexOf_lt hy)
    have hread_fto : readAt c.finishingTimesOrdered (i : Int) = .ok (r : Int) :=
      readAt_nat (by rw [hrel.fto_eq, hL.fto i hi, hr]; rfl)
    have hrc : r < c.sccComponentsCount.length := hrel.len_cnt ▸ hrn
    have hread_c : readAt c.sccComponentsCount (r : Int) = .ok c.sccComponentsCount[r] :=
      readAt_nat (List.getElem?_eq_getElem hrc)
    have hwrite_c := writeAt_nat (l := c.sccComponentsCount) (c.sccComponentsCount[r] + 1) hrc
    have hbump1 : c.sccComponentsCount.set r (c.sccComponentsCount[r] + 1)
        = bump c.sccComponentsCount r 1 := by
      simp [bump, List.getD, List.getElem?_eq_getElem hrc]
    have hrel1 : Rel2 g.n.toNat L c0
        { c with visited := c.visited.set (L.indexOf y) 1,
                 sccComponentsCount := c.sccComponentsCount.set r (c.sccComponentsCount[r] + 1),
                 calls := ((y : Int), (i : Int)) :: c.calls }
        ⟨y :: a.pre, a.post⟩ := by
      refine { hrel with len_vis := ?_, len_cnt := ?_, vis := ?_, calls_fst := ?_ }
      · simp [hrel.len_vis]
      · simp [hrel.len_cnt]
      · intro v hv
        show (c.visited.set (L.indexOf y) 1)[L.indexOf v]? = _
        rw [List.getElem?_set]
        by_cases hyv : y = v
        · subst hyv
          simp [hrel.len_vis, hL.indexOf_lt hy]
        · have hne : L.indexOf y ≠ L.indexOf v := fun h =>
            hyv ((List.indexOf_inj ((hL.mem y).mpr hy) ((hL.mem v).mpr hv)).mp h)
          rw [if_neg hne, hrel.vis v hv]
          simp [List.mem_cons, Ne.symm hyv]
      · show List.map Prod.fst (((y : Int), (i : Int)) :: c.calls) = _
        simp [hrel.calls_fst]
    have hk1 : g.n.toNat - fuel ≤ (⟨y :: a.pre, a.post⟩ : AState).pre.length := by
      simp only [List.length_cons]; omega
    obtain ⟨c2, a2, np, nw, hrun, hrel2, hpost2, hc2, hs2, hb2⟩ :=
      DFS2_loop_spec hL ih node hnode3 _ _ hrel1 (visit_inv hinv hy hya) hk1
    have hfin := call_finish hinv hya
      (Graph.edge_iff_of_node hnode2 (fun v hv => (hnode3 v hv).1)) hpost2
    refine ⟨c2, ⟨a2.pre, a2.post ++ [y]⟩, np ++ [y], nw ++ [y], ?_, ?_, hfin, ?_, ?_, ?_⟩
    · simp only [DFS2, hread_e, hread_ft, hwrite_v, hread_fto, hread_c, hwrite_c]
      exact hrun
    · exact { hrel2 with }
    · rw [hc2]; simp
    · rw [hs2]
    · rw [hb2]
      show bump (c.sccComponentsCount.set r (c.sccComponentsCount[r] + 1)) r np.length = _
      rw [hbump1, bump_bump, List.length_append, Nat.add_comm]
      rfl

/-! ### Reachability and components -/

theorem Graph.SameSCC.refl (g : Graph) (u : Nat) : g.SameSCC u u :=
  ⟨ReflTransGen.refl, ReflTransGen.refl⟩

theorem Graph.SameSCC.symm {g : Graph} {u v : Nat} (h : g.SameSCC u v) : g.SameSCC v u :=
  ⟨h.2, h.1⟩

theorem Graph.SameSCC.trans {g : Graph} {u v w : Nat} (h1 : g.SameSCC u v)
    (h2 : g.SameSCC v w) : g.SameSCC u w :=
  ⟨ReflTransGen.trans h1.1 h2.1, ReflTransGen.trans h2.2 h1.2⟩

theorem Graph.WellFormed.edge_lt {g : Graph} (h : g.WellFormed) {u v : Nat}
    (he : g.Edge u v) : u < g.n.toNat ∧ v < g.n.toNat := by
  unfold Graph.Edge at he
  have hu : u < g.n.toNat := by
    by_contra hu
    have hlen : g.edges.length ≤ u := by rw [h.2.1]; omega
    simp [List.getD, List.getElem?_eq_none hlen] at he
  obtain ⟨node, _, hnode2, hnode3⟩ := h.node hu
  rw [hnode2] at he
  have := (hnode3 _ he).2
  exact ⟨hu, by omega⟩

theorem WellFormedPair.edge_iff {g gr : Graph} (h : WellFormedPair g gr) (u v : Nat) :
    g.Edge u v ↔ gr.Edge v u := by
  constructor
  · intro he
    obtain ⟨hu, hv⟩ := h.1.edge_lt he
    exact (h.2.2.2 u hu v hv).mp he
  · intro he
    obtain ⟨hv, hu⟩ := h.2.1.edge_lt he
    rw [h.2.2.1] at hv hu
    exact (h.2.2.2 u hu v hv).mpr he

theorem WellFormedPair.reach_iff {g gr : Graph} (h : WellFormedPair g gr) (u v : Nat) :
    g.Reach u v ↔ gr.Reach v u := by
  have hswap : g.Edge = Function.swap gr.Edge := by
    funext a b
    exact propext (h.edge_iff a b)
  unfold Graph.Reach
  rw [hswap]
  exact reflTransGen_swap

theorem Graph.WellFormed.reach_lt {g : Graph} (h : g.WellFormed) {u v : Nat}
    (hr : g.Reach u v) (hu : u < g.n.toNat) : v < g.n.toNat := by
  induction hr with
  | refl => exact hu
  | tail _ he _ => exact (h.edge_lt he).2

theorem reach_closed {E : Nat → Nat → Prop} {S : Nat → Prop}
    (hS : ∀ u, S u → ∀ w, E u w → S w) {u v : Nat} (hu : S u) (hr : ReflTransGen E u v) :
    S v := by
  induction hr with
  | refl => exact hu
  | tail _ he ih => exact hS _ ih _ he

theorem sum_set (l : List Int) (r : Nat) (x : Int) (h : r < l.length) :
    (l.set r x).sum = l.sum - l[r] + x := by
  induction l generalizing r with
  | nil => simp at h
  | cons a l ih =>
    cases r with
    | zero => simp only [List.set_cons_zero, List.sum_cons, List.getElem_cons_zero]; omega
    | succ r =>
      simp only [List.set_cons_succ, List.sum_cons, List.getElem_cons_succ]
      rw [ih r (by simpa using h)]
      ring

theorem sum_bump (l : List Int) (r m : Nat) (h : r < l.length) :
    (bump l r m).sum = l.sum + (m : Int) := by
  unfold bump
  rw [sum_set l r _ h]
  rw [List.getD_eq_getElem _ _ h]
  omega

theorem dedup_replicate_append {α : Type} [DecidableEq α] (x : α) (m : Nat) (l : List α)
    (hx : x ∉ l) : (List.replicate (m + 1) x ++ l).dedup = x :: l.dedup := by
  induction m with
  | zero =>
    simp only [zero_add, List.replicate_one, List.singleton_append]
    exact List.dedup_cons_of_not_mem hx
  | succ m ih =>
    rw [List.replicate_succ, List.cons_append, List.dedup_cons_of_mem, ih]
    simp [List.replicate_succ]

theorem indexOf_of_getElem? {L : List Nat} (hnd : L.Nodup) {i r : Nat} (hr : L[i]? = some r) :
    L.indexOf r = i := by
  obtain ⟨hi, rfl⟩ := List.getElem?_eq_some_iff.mp hr
  exact List.indexOf_getElem hnd i hi

theorem getElem?_indexOf {L : List Nat} {r : Nat} (hr : r ∈ L) : L[L.indexOf r]? = some r := by
  rw [List.getElem?_eq_getElem (List.indexOf_lt_length.mpr hr)]
  simp

/-- The exploration started at the root `r` of slot `i` visits exactly the component of `r`. -/
theorem component_of_root {g gr : Graph} (hp : WellFormedPair g gr) {L : List Nat} {c0 : State}
    (hL : Order g.n.toNat L c0) (hK : Kosaraju gr.Edge L) {i r : Nat}
    (hr : L[i]? = some r) {a a1 : AState} {np nw : List Nat}
    (hinv : AInv g.n.toNat g.Edge a) (hq : a.Quiet)
    (hdone : ∀ j, i + 1 ≤ j → ∀ r, L[j]? = some r → r ∈ a.pre)
    (hunion : ∀ u ∈ a.pre, ∀ v, g.SameSCC u v → v ∈ a.pre)
    (hmem : r ∉ a.pre) (hpost : CallPost g.n.toNat g.Edge r a a1 np nw) (v : Nat) :
    v ∈ np ↔ g.SameSCC r v := by
  have hrL : r ∈ L := List.getElem?_mem hr
  have hnd : (np ++ a.pre).Nodup := hpost.grow.pre_eq ▸ hpost.inv.pre_nodup
  constructor
  · intro hv
    have hvw : v ∈ nw := hpost.grow.perm.mem_iff.mp hv
    have hrv : g.Reach r v := hpost.reach v hvw
    refine ⟨hrv, ?_⟩
    have hva : v ∉ a.pre := fun hm => (List.nodup_append.mp hnd).2.2 hv hm
    have hvn : v < g.n.toNat := hp.1.reach_lt hrv ((hL.mem r).mp hrL)
    have hvL : v ∈ L := (hL.mem v).mpr hvn
    obtain ⟨z, hz, hzv, hvz, hidx⟩ := hK v hvL r hrL ((hp.reach_iff r v).mp hrv)
    have hzv' : g.SameSCC z v := ⟨(hp.reach_iff z v).mpr hvz, (hp.reach_iff v z).mpr hzv⟩
    have hza : z ∉ a.pre := fun hm => hva (hunion z hm v hzv')
    have hzi : L.indexOf z = i := by
      rw [indexOf_of_getElem? hL.nodup hr] at hidx
      rcases Nat.eq_or_lt_of_le hidx with h | h
      · exact h.symm
      · exact absurd (hdone _ h z (getElem?_indexOf hz)) hza
    have hzr : z = r := by
      have h1 := getElem?_indexOf hz
      rw [hzi, hr] at h1
      exact (Option.some.inj h1).symm
    rw [hzr] at hzv'
    exact hzv'.2
  · intro hv
    have hclosed : ∀ u, u ∈ a1.post → ∀ w, g.Edge u w → w ∈ a1.post :=
      fun u hu w he => hpost.quiet hq w (hpost.inv.closed u hu w he)
    have hr1 : r ∈ a1.post := hpost.quiet hq r hpost.root_mem
    have hv1 : v ∈ a1.post := reach_closed (S := fun u => u ∈ a1.post) hclosed hr1 hv.1
    rw [hpost.grow.post_eq] at hv1
    rcases List.mem_append.mp hv1 with h | h
    · exact absurd (hunion v (hinv.post_sub v h) r hv.symm) hmem
    · exact hpost.grow.perm.mem_iff.mpr h

theorem map_snd_tag (np : List Nat) (i : Nat) :
    (np.map (fun v => (v, i))).map Prod.snd = List.replicate np.length i := by
  induction np with
  | nil => rfl
  | cons x xs ih => simp [List.replicate_succ, ih]

/-- An iteration of `DFSLoop2` that starts an exploration keeps the loop invariant. -/
theorem Inv2.step {g gr : Graph} (hp : WellFormedPair g gr) {L : List Nat} {c0 : State}
    (hL : Order g.n.toNat L c0) (hK : Kosaraju gr.Edge L) {i r : Nat}
    (hr : L[i]? = some r) {c c1 : State} {a a1 : AState} {tr : List (Nat × Nat)}
    {np nw : List Nat} (h : Inv2 g L c0 (i + 1) c a tr) (hmem : r ∉ a.pre)
    (hrel1 : Rel2 g.n.toNat L c0 c1 a1) (hpost : CallPost g.n.toNat g.Edge r a a1 np nw)
    (hc : c1.calls = np.map (fun (v : Nat) => ((v : Int), (i : Int))) ++ c.calls)
    (hs : c1.sccCount = c.sccCount + 1)
    (hb : c1.sccComponentsCount = bump c.sccComponentsCount r np.length) :
    Inv2 g L c0 i c1 a1 (np.map (fun v => (v, i)) ++ tr) := by
  have hcomp := component_of_root hp hL hK hr h.inv h.quiet h.done h.union hmem hpost
  have hrL : r ∈ L := List.getElem?_mem hr
  have hrn : r < g.n.toNat := (hL.mem r).mp hrL
  have hrnp : r ∈ np := (hcomp r).mpr (Graph.SameSCC.refl g r)
  have hnd : (np ++ a.pre).Nodup := hpost.grow.pre_eq ▸ hpost.inv.pre_nodup
  have hdisj : ∀ v ∈ np, v ∉ a.pre := fun v hv hm => (List.nodup_append.mp hnd).2.2 hv hm
  have htr_pre : ∀ q ∈ tr, q.1 ∈ a.pre := by
    intro q hq
    rw [h.pre_eq]
    exact List.mem_map_of_mem _ hq
  have hislot : i ∉ tr.map Prod.snd := by
    intro hm
    obtain ⟨q, hq, hqi⟩ := List.mem_map.mp hm
    have := (h.slot q hq).1
    omega
  refine ⟨hrel1, hpost.inv, hpost.quiet h.quiet, ?_, ?_, ?_, ?_, ?_, ?_, ?_, ?_, ?_⟩
  · rw [hc, h.calls_eq]
    simp [List.map_map, Function.comp_def]
  · rw [hpost.grow.pre_eq, h.pre_eq]
    simp [List.map_map, Function.comp_def]
  · intro j hj r' hr'
    rcases Nat.eq_or_lt_of_le hj with rfl | hlt
    · rw [hr] at hr'
      exact (Option.some.inj hr') ▸ hpost.root_mem
    · exact hpost.grow.pre_mono (h.done j hlt r' hr')
  · intro u hu v huv
    rw [hpost.grow.pre_eq] at hu ⊢
    rcases List.mem_append.mp hu with hu | hu
    · exact List.mem_append_left _ ((hcomp v).mpr (((hcomp u).mp hu).trans huv))
    · exact List.mem_append_right _ (h.union u hu v huv)
  · intro p hp'
    rcases List.mem_append.mp hp' with hp' | hp'
    · obtain ⟨v, hv, rfl⟩ := List.mem_map.mp hp'
      refine ⟨le_refl _, r, hr, (hcomp v).mp hv, ?_⟩
      exact List.mem_append_left _ (List.mem_map.mpr ⟨r, hrnp, rfl⟩)
    · obtain ⟨h1, r', h2, h3, h4⟩ := h.slot p hp'
      exact ⟨by omega, r', h2, h3, List.mem_append_right _ h4⟩
  · intro p hp' q hq' hpq
    rcases List.mem_append.mp hp' with hp' | hp' <;>
      rcases List.mem_append.mp hq' with hq' | hq'
    · obtain ⟨v, _, rfl⟩ := List.mem_map.mp hp'
      obtain ⟨w, _, rfl⟩ := List.mem_map.mp hq'
      rfl
    · obtain ⟨v, hv, rfl⟩ := List.mem_map.mp hp'
      exact absurd (h.union q.1 (htr_pre q hq') v hpq.symm) (hdisj v hv)
    · obtain ⟨w, hw, rfl⟩ := List.mem_map.mp hq'
      exact absurd (h.union p.1 (htr_pre p hp') w hpq) (hdisj w hw)
    · exact h.inj p hp' q hq' hpq
  · rw [hs, h.count, List.map_append, map_snd_tag]
    obtain ⟨m, hm⟩ : ∃ m, np.length = m + 1 := by
      cases np with
      | nil => simp at hrnp
      | cons x xs => exact ⟨xs.length, rfl⟩
    rw [hm, dedup_replicate_append i m _ hislot]
    simp
  · intro r' hr'
    rw [hb, getElem?_bump, h.sizes r' hr', List.map_append, map_snd_tag, List.count_append,
      List.count_replicate]
    by_cases hrr : r = r'
    · subst hrr
      simp [indexOf_of_getElem? hL.nodup hr, add_comm]
    · have hne : ¬ (i = L.indexOf r') := by
        intro hi
        have h1 := getElem?_indexOf ((hL.mem r').mpr hr')
        rw [← hi, hr] at h1
        exact hrr (Option.some.inj h1)
      simp [hrr, hne]
  · rw [hb, sum_bump _ _ _ (h.rel.len_cnt ▸ hrn), h.total]
    simp [add_comm]

theorem Inv2.skip {g : Graph} {L : List Nat} {c0 : State} {i r : Nat} {c : State}
    {a : AState} {tr : List (Nat × Nat)} (hr : L[i]? = some r)
    (h : Inv2 g L c0 (i + 1) c a tr) (hmem : r ∈ a.pre) : Inv2 g L c0 i c a tr := by
  refine { h with done := ?_, slot := ?_ }
  · intro j hj r' hr'
    rcases Nat.eq_or_lt_of_le hj with rfl | hlt
    · rw [hr] at hr'
      exact (Option.some.inj hr') ▸ hmem
    · exact h.done j hlt r' hr'
  · intro p hp
    obtain ⟨h1, h2⟩ := h.slot p hp
    exact ⟨by omega, h2⟩

/-- The loop of `DFSLoop2` from index `k - 1` down to 0. -/
theorem DFSLoop2_go_spec {g gr : Graph} (hp : WellFormedPair g gr) {L : List Nat} {c0 : State}
    (hL : Order g.n.toNat L c0) (hK : Kosaraju gr.Edge L) {fuel : Nat}
    (hfuel : g.n.toNat ≤ fuel) :
    ∀ (k : Nat), k ≤ g.n.toNat → ∀ (c : State) (a : AState) (tr : List (Nat × Nat)),
    Inv2 g L c0 k c a tr →
    ∃ c' a' tr', DFSLoop2.go g fuel k c = .ok c' ∧ Inv2 g L c0 0 c' a' tr' := by
  intro k
  induction k with
  | zero =>
    intro _ c a tr h
    exact ⟨c, a, tr, rfl, h⟩
  | succ i ih =>
    intro hk c a tr h
    have hi : i < g.n.toNat := hk
    have hiL : i < L.length := hL.length.symm ▸ hi
    have hr : L[i]? = some L[i] := List.getElem?_eq_getElem hiL
    have hrn : L[i] < g.n.toNat := (hL.mem _).mp (List.getElem_mem hiL)
    have hidx : L.indexOf L[i] = i := indexOf_of_getElem? hL.nodup hr
    have hread : readAt c.visited (i : Int) = .ok (if L[i] ∈ a.pre then 1 else 0) :=
      readAt_nat (by have := h.rel.vis L[i] hrn; rwa [hidx] at this)
    by_cases hmem : L[i] ∈ a.pre
    · obtain ⟨c', a', tr', hrun, hinv'⟩ := ih (Nat.le_of_lt hi) c a tr (h.skip hr hmem)
      refine ⟨c', a', tr', ?_, hinv'⟩
      simp only [DFSLoop2.go, hread, if_pos hmem]
      simpa using hrun
    · have hread2 : readAt c.finishingTimesOrdered (i : Int) = .ok (L[i] : Int) :=
        readAt_nat (by rw [h.rel.fto_eq, hL.fto i hi, hr]; rfl)
      have hrel_ : Rel2 g.n.toNat L c0 { c with sccCount := c.sccCount + 1 } a :=
        { h.rel with }
      obtain ⟨c1, a1, np, nw, hrun1, hrel1, hpost1, hc1, hs1, hb1⟩ :=
        DFS2_spec hp.1 hL hi hr fuel L[i] _ a hrel_ h.inv hrn hmem (by omega)
      have hstep := Inv2.step hp hL hK hr h hmem hrel1 hpost1 hc1 hs1 hb1
      obtain ⟨c', a', tr', hrun, hinv'⟩ := ih (Nat.le_of_lt hi) c1 a1 _ hstep
      refine ⟨c', a', tr', ?_, hinv'⟩
      simp only [DFSLoop2.go, hread, if_neg hmem, hread2]
      simpa [hrun1] using hrun

/-- The finishing order recorded by the first pass. -/
theorem Rel1.order {n : Nat} {E : Nat → Nat → Prop} {c0 c : State} {a : AState}
    (hrel : Rel1 n c0 c a) (hinv : AInv n E a) (hq : a.Quiet) (hall : ∀ v < n, v ∈ a.pre) :
    Order n a.post c ∧ Kosaraju E a.post := by
  have hmem : ∀ v, v ∈ a.post ↔ v < n :=
    fun v => ⟨fun h => hinv.pre_lt v (hinv.post_sub v h), fun h => hq v (hall v h)⟩
  have hlen : a.post.length = n := by
    have h1 : a.post.Perm (List.range n) :=
      (List.perm_ext_iff_of_nodup hinv.post_nodup (List.nodup_range n)).mpr
        (fun v => by rw [hmem, List.mem_range])
    simpa using h1.length_eq
  refine ⟨⟨hinv.post_nodup, hmem, ?_, ?_⟩, ?_⟩
  · intro v hv
    exact hrel.ft_in v ((hmem v).mpr hv)
  · intro k hk
    exact hrel.fto_lt k (hlen.symm ▸ hk)
  · intro u hu v hv huv
    rcases hinv.wf u hu v hv huv with h | ⟨g, hg1, hg2, _⟩
    · exact h
    · exact absurd (hq g hg1) hg2

theorem inv2_init {g : Graph} {L : List Nat} {c1 : State}
    (hL : Order g.n.toNat L c1) (hcount : c1.sccCount = 0)
    (hsizes : c1.sccComponentsCount = List.replicate g.n.toNat 0) (hcalls : c1.calls = []) :
    Inv2 g L (resetVisited g c1) g.n.toNat (resetVisited g c1) ⟨[], []⟩ [] := by
  refine ⟨⟨?_, ?_, ?_, rfl, rfl, rfl, ?_⟩, ainv_init _ _, ?_, ?_, rfl, ?_, ?_, ?_, ?_,
    ?_, ?_, ?_⟩
  · simp [resetVisited]
  · simp [resetVisited, hsizes]
  · intro v hv
    simp [resetVisited, hL.indexOf_lt hv]
  · simp [resetVisited, hcalls]
  · intro v hv; simp at hv
  · simp [resetVisited, hcalls]
  · intro j hj r hr
    have : j < L.length := (List.getElem?_eq_some_iff.mp hr).1
    rw [hL.length] at this
    omega
  · intro u hu; simp at hu
  · intro p hp; simp at hp
  · intro p hp; simp at hp
  · simp [resetVisited, hcount]
  · intro r hr
    simp [resetVisited, hsizes, hr]
  · simp [resetVisited, hsizes]

theorem Order.reset {n : Nat} {L : List Nat} {c1 : State} (g : Graph) (h : Order n L c1) :
    Order n L (resetVisited g c1) :=
  ⟨h.nodup, h.mem, h.ft, h.fto⟩

/-- The run of both passes on a well-formed pair: it succeeds with fuel `n`, the first pass
records a finishing order `L` with Kosaraju's property, and the second pass ends in a state
satisfying its loop invariant at index 0. -/
theorem kosaraju_run {g gr : Graph} (hp : WellFormedPair g gr) {fuel : Nat}
    (hfuel : g.n.toNat ≤ fuel) :
    ∃ s c0 L a tr, kosaraju g gr fuel = .ok s ∧ Order g.n.toNat L c0 ∧ Kosaraju gr.Edge L ∧
      c0.t = (g.n.toNat : Int) ∧ Inv2 g L c0 0 s a tr := by
  have hn : gr.n.toNat = g.n.toNat := by rw [hp.2.2.1]
  obtain ⟨c1, a1, hrun1, hrel1, hinv1, hq1, hall1, _⟩ :=
    DFSLoop1_go_spec hp.2.1 (initState g) (hn ▸ hfuel) gr.n.toNat (le_refl _)
      (initState g) ⟨[], []⟩ (hn ▸ rel1_init g) (ainv_init _ _) (by intro v hv; simp at hv)
      (by intro v hv hle; omega)
  rw [hn] at hrun1 hrel1 hinv1 hall1
  obtain ⟨hL, hK⟩ := hrel1.order hinv1 hq1 hall1
  have hinit := inv2_init (g := g) hL (by rw [hrel1.count_eq]; rfl)
    (by rw [hrel1.sizes_eq]; rfl) (by rw [hrel1.calls_eq]; rfl)
  obtain ⟨s, a, tr, hrun2, hinv2⟩ :=
    DFSLoop2_go_spec hp (hL.reset g) hK hfuel g.n.toNat (le_refl _) _ _ _ hinit
  refine ⟨s, resetVisited g c1, a1.post, a, tr, ?_, hL.reset g, hK, ?_, hinv2⟩
  · simp only [kosaraju, DFSLoop1, hrun1]
    exact hrun2
  · show c1.t = _
    rw [hrel1.t_eq, hL.length]

/-! ### Reading the graph -/

/-- The edge-reading loop adds the accepted pairs, in input order. -/
theorem readEdges_eq_buildFrom (n : Int) (tokens : List Token) (b : Builder) :
    readEdges n tokens b = buildFrom b (acceptedPairs n tokens) := by
  induction tokens, b using readEdges.induct n with
  | case1 t h rest b ht =>
    have hv : validToken n (.int t) = false := by
      simp only [validToken, decide_eq_false_iff_not]; omega
    simp [readEdges, ht, acceptedPairs, List.takeWhile, hv, completePairs, buildFrom]
  | case2 t h rest b ht hh =>
    have hv : validToken n (.int t) = true := by
      simp only [validToken, decide_eq_true_eq]; omega
    have hv2 : validToken n (.int h) = false := by
      simp only [validToken, decide_eq_false_iff_not]; omega
    simp [readEdges, ht, hh, acceptedPairs, List.takeWhile, hv, hv2, completePairs, buildFrom]
  | case3 t h rest b ht hh ih =>
    have hv : validToken n (.int t) = true := by
      simp only [validToken, decide_eq_true_eq]; omega
    have hv2 : validToken n (.int h) = true := by
      simp only [validToken, decide_eq_true_eq]; omega
    rw [readEdges, if_neg ht, if_neg hh, ih]
    simp [acceptedPairs, List.takeWhile, hv, hv2, completePairs, buildFrom]
  | case4 tokens b hne =>
    have hr : readEdges n tokens b = b := by
      unfold readEdges
      split
      · exact absurd rfl (hne _ _ _)
      · rfl
    rw [hr]
    have : completePairs (tokens.takeWhile (validToken n)) = [] := by
      match tokens, hne with
      | [], _ => rfl
      | [.junk], _ => rfl
      | [.int a], _ =>
        simp only [List.takeWhile]
        split <;> rfl
      | .junk :: _ :: _, _ => rfl
      | .int a :: .junk :: rest, _ =>
        simp only [List.takeWhile, validToken]
        split <;> rfl
      | .int a :: .int c :: rest, h => exact absurd rfl (h _ _ _)
    simp [acceptedPairs, this, buildFrom]

theorem completePairs_mem {ts : List Token} {p : Int × Int} (h : p ∈ completePairs ts) :
    Token.int p.1 ∈ ts ∧ Token.int p.2 ∈ ts := by
  induction ts using completePairs.induct with
  | case1 a b rest ih =>
    simp only [completePairs, List.mem_cons] at h
    rcases h with rfl | h
    · simp
    · have := ih h
      simp [this.1, this.2]
  | case2 ts hne =>
    have : completePairs ts = [] := by
      unfold completePairs
      split
      · exact absurd rfl (hne _ _ _)
      · rfl
    rw [this] at h
    simp at h

theorem acceptedPairs_valid (n : Int) (tokens : List Token) :
    ∀ p ∈ acceptedPairs n tokens, ValidPair n p := by
  intro p hp
  obtain ⟨h1, h2⟩ := completePairs_mem hp
  have v1 := List.mem_takeWhile_imp h1
  have v2 := List.mem_takeWhile_imp h2
  simp only [validToken, decide_eq_true_eq] at v1 v2
  exact ⟨v1.1, v1.2, v2.1, v2.2⟩

theorem sum_length_prepend (l : List (List Int)) (i : Nat) (x : Int) (h : i < l.length) :
    ((l.set i (x :: l.getD i [])).map List.length).sum = (l.map List.length).sum + 1 := by
  induction l generalizing i with
  | nil => simp at h
  | cons a l ih =>
    cases i with
    | zero => simp; omega
    | succ i =>
      have := ih i (by simpa using h)
      simp only [List.set_cons_succ, List.map_cons, List.sum_cons, List.getD_cons_succ]
      omega

theorem getD_prepend (l : List (List Int)) (i : Nat) (x : Int) (h : i < l.length) (u : Nat) :
    (l.set i (x :: l.getD i [])).getD u [] = if u = i then x :: l.getD i [] else l.getD u [] := by
  simp only [List.getD_eq_getElem?_getD, List.getElem?_set]
  by_cases hu : i = u
  · subst hu
    simp [h]
  · simp [hu, Ne.symm hu]

theorem Built.empty (n : Int) : Built n [] (emptyBuilder n) where
  len := by simp [emptyBuilder]
  lenRev := by simp [emptyBuilder]
  m_eq := by simp [emptyBuilder]
  nodes := by simp [emptyBuilder]
  nodesRev := by simp [emptyBuilder]
  cnt := by
    intro u v
    simp only [emptyBuilder, List.getD_eq_getElem?_getD, List.getElem?_replicate]
    split <;> simp
  cntRev := by
    intro u v
    simp only [emptyBuilder, List.getD_eq_getElem?_getD, List.getElem?_replicate]
    split <;> simp
  range := by
    intro l hl x hx
    simp only [emptyBuilder] at hl
    rw [List.eq_of_mem_replicate hl] at hx
    simp at hx
  rangeRev := by
    intro l hl x hx
    simp only [emptyBuilder] at hl
    rw [List.eq_of_mem_replicate hl] at hx
    simp at hx

theorem range_prepend {n : Int} {l : List (List Int)} {i : Nat} {x : Int}
    (hr : ∀ r ∈ l, ∀ y ∈ r, 0 ≤ y ∧ y < n) (hx : 0 ≤ x ∧ x < n) :
    ∀ r ∈ l.set i (x :: l.getD i []), ∀ y ∈ r, 0 ≤ y ∧ y < n := by
  intro r hrm y hy
  rcases List.mem_or_eq_of_mem_set hrm with h | h
  · exact hr r h y hy
  · subst h
    rcases List.mem_cons.mp hy with rfl | hy
    · exact hx
    · by_cases hi : i < l.length
      · rw [List.getD_eq_getElem _ _ hi] at hy
        exact hr _ (List.getElem_mem hi) y hy
      · rw [List.getD_eq_default _ _ (not_lt.mp hi)] at hy
        simp at hy

theorem Built.add {n : Int} {pairs : List (Int × Int)} {b : Builder} (h : Built n pairs b)
    {p : Int × Int} (hp : ValidPair n p) :
    Built n (pairs ++ [p]) (addEdge b (p.1 - 1) (p.2 - 1)) := by
  obtain ⟨a, c⟩ := p
  obtain ⟨ha1, ha2, hc1, hc2⟩ := hp
  simp only at ha1 ha2 hc1 hc2
  have hai : (a - 1).toNat < b.edges.length := by rw [h.len]; omega
  have hci : (c - 1).toNat < b.edgesRev.length := by rw [h.lenRev]; omega
  refine ⟨?_, ?_, ?_, ?_, ?_, ?_, ?_, ?_, ?_⟩
  · simp [addEdge, prepend, h.len]
  · simp [addEdge, prepend, h.lenRev]
  · simp [addEdge, h.m_eq]
  · simp only [addEdge, prepend]
    rw [sum_length_prepend _ _ _ hai, h.nodes]
    simp
  · simp only [addEdge, prepend]
    rw [sum_length_prepend _ _ _ hci, h.nodesRev]
    simp
  · intro u v
    simp only [addEdge, prepend]
    rw [getD_prepend _ _ _ hai, List.count_append, ← h.cnt u v]
    by_cases hu : u = (a - 1).toNat
    · rw [if_pos hu, List.count_cons, ← hu]
      by_cases hv : (c - 1) = (v : Int)
      · have : (a, c) = ((u : Int) + 1, (v : Int) + 1) := by
          rw [Prod.mk.injEq]; omega
        rw [this, List.count_singleton_self]
        simp [hv]
      · have : ((u : Int) + 1, (v : Int) + 1) ∉ [(a, c)] := by
          rw [List.mem_singleton, Prod.mk.injEq]; omega
        rw [List.count_eq_zero.mpr this]
        simp [hv]
    · have : ((u : Int) + 1, (v : Int) + 1) ∉ [(a, c)] := by
        rw [List.mem_singleton, Prod.mk.injEq]; omega
      rw [if_neg hu, List.count_eq_zero.mpr this]
      rfl
  · intro u v
    simp only [addEdge, prepend]
    rw [getD_prepend _ _ _ hci, List.count_append, ← h.cntRev u v]
    by_cases hv : v = (c - 1).toNat
    · rw [if_pos hv, List.count_cons, ← hv]
      by_cases hu : (a - 1) = (u : Int)
      · have : (a, c) = ((u : Int) + 1, (v : Int) + 1) := by
          rw [Prod.mk.injEq]; omega
        rw [this, List.count_singleton_self]
        simp [hu]
      · have : ((u : Int) + 1, (v : Int) + 1) ∉ [(a, c)] := by
          rw [List.mem_singleton, Prod.mk.injEq]; omega
        rw [List.count_eq_zero.mpr this]
        simp [hu]
    · have : ((u : Int) + 1, (v : Int) + 1) ∉ [(a, c)] := by
        rw [List.mem_singleton, Prod.mk.injEq]; omega
      rw [if_neg hv, List.count_eq_zero.mpr this]
      rfl
  · exact range_prepend h.range ⟨by omega, by omega⟩
  · exact range_prepend h.rangeRev ⟨by omega, by omega⟩

theorem Built.buildFrom {n : Int} {rest : List (Int × Int)}
    (hrest : ∀ p ∈ rest, ValidPair n p) :
    ∀ {done : List (Int × Int)} {b : Builder}, Built n done b →
      Built n (done ++ rest) (buildFrom b rest) := by
  induction rest with
  | nil =>
    intro done b h
    simpa [GraphSCC.buildFrom] using h
  | cons p rest ih =>
    intro done b h
    have h1 := h.add (hrest p (List.mem_cons_self _ _))
    have h2 := ih (fun q hq => hrest q (List.mem_cons_of_mem _ hq)) h1
    simpa [GraphSCC.buildFrom] using h2

theorem readEdges_built (n : Int) (tokens : List Token) :
    Built n (acceptedPairs n tokens) (readEdges n tokens (emptyBuilder n)) := by
  rw [readEdges_eq_buildFrom]
  have := Built.buildFrom (acceptedPairs_valid n tokens) (Built.empty n)
  simpa using this

theorem readGraphFromFile_wellFormed (n : Int) (tokens : List Token) (hn : 0 ≤ n) :
    WellFormedPair (readGraphFromFile n tokens).1 (readGraphFromFile n tokens).2 := by
  have hb := readEdges_built n tokens
  refine ⟨⟨hn, hb.len, hb.range⟩, ⟨hn, hb.lenRev, hb.rangeRev⟩, rfl, ?_⟩
  intro u _ v _
  show (v : Int) ∈ (readEdges n tokens (emptyBuilder n)).edges.getD u [] ↔
    (u : Int) ∈ (readEdges n tokens (emptyBuilder n)).edgesRev.getD v []
  rw [← List.count_pos_iff, ← List.count_pos_iff, hb.cnt u v, hb.cntRev u v]

/-! ### The final state -/

/-- A quotient with a system of `m` pairwise inequivalent representatives has `m` classes. -/
theorem card_quotient_of_reps {α : Type} (s : Setoid α) (m : Nat) (f : Fin m → α)
    (hinj : ∀ i j, s.r (f i) (f j) → i = j) (hsurj : ∀ x, ∃ i, s.r (f i) x) :
    Nat.card (Quotient s) = m := by
  have hbij : Function.Bijective (fun i : Fin m => (Quotient.mk s (f i))) := by
    constructor
    · intro i j hij
      exact hinj i j (Quotient.exact hij)
    · intro q
      induction q using Quotient.inductionOn with
      | _ x =>
        obtain ⟨i, hi⟩ := hsurj x
        exact ⟨i, Quotient.sound hi⟩
  have := Nat.card_eq_of_bijective _ hbij
  simpa using this.symm

/-- Facts about the final state of a run, read off the loop invariant at index 0. -/
theorem Inv2.final_pre {g : Graph} {L : List Nat} {c0 s : State} {a : AState}
    {tr : List (Nat × Nat)} (hL : Order g.n.toNat L c0) (h : Inv2 g L c0 0 s a tr) :
    (tr.map Prod.fst).Perm (List.range g.n.toNat) := by
  rw [← h.pre_eq]
  refine (List.perm_ext_iff_of_nodup h.inv.pre_nodup (List.nodup_range _)).mpr ?_
  intro v
  rw [List.mem_range]
  constructor
  · exact h.inv.pre_lt v
  · intro hv
    exact h.done _ (Nat.zero_le _) v (getElem?_indexOf ((hL.mem v).mpr hv))

theorem Inv2.mem_calls {g : Graph} {L : List Nat} {c0 s : State} {a : AState}
    {tr : List (Nat × Nat)} {k : Nat} (h : Inv2 g L c0 k s a tr) (v i : Nat) :
    ((v : Int), (i : Int)) ∈ s.calls ↔ (v, i) ∈ tr := by
  rw [h.calls_eq, List.mem_map]
  constructor
  · rintro ⟨⟨v', i'⟩, hp, heq⟩
    simp only [Prod.mk.injEq, Nat.cast_inj] at heq
    rw [← heq.1, ← heq.2]
    exact hp
  · intro hp
    exact ⟨(v, i), hp, rfl⟩

theorem Inv2.mem_calls_int {g : Graph} {L : List Nat} {c0 s : State} {a : AState}
    {tr : List (Nat × Nat)} {k : Nat} (h : Inv2 g L c0 k s a tr) {v : Nat} {j : Int}
    (hm : ((v : Int), j) ∈ s.calls) : ∃ i : Nat, j = (i : Int) ∧ (v, i) ∈ tr := by
  rw [h.calls_eq, List.mem_map] at hm
  obtain ⟨⟨v', i'⟩, hp, heq⟩ := hm
  simp only [Prod.mk.injEq, Nat.cast_inj] at heq
  exact ⟨i', heq.2.symm, heq.1 ▸ hp⟩

theorem Inv2.fto_read {g : Graph} {L : List Nat} {c0 s : State} {a : AState}
    {tr : List (Nat × Nat)} {k : Nat} (hL : Order g.n.toNat L c0) (h : Inv2 g L c0 k s a tr)
    {i r : Nat} (hr : L[i]? = some r) :
    readAt s.finishingTimesOrdered (i : Int) = .ok (r : Int) := by
  have hi : i < g.n.toNat := hL.length ▸ (List.getElem?_eq_some_iff.mp hr).1
  exact readAt_nat (by rw [h.rel.fto_eq, hL.fto i hi, hr]; rfl)

theorem Inv2.vertex_slot {g : Graph} {L : List Nat} {c0 s : State} {a : AState}
    {tr : List (Nat × Nat)} (hL : Order g.n.toNat L c0) (h : Inv2 g L c0 0 s a tr) {v : Nat}
    (hv : v < g.n.toNat) : ∃ i, (v, i) ∈ tr := by
  have : v ∈ tr.map Prod.fst := (h.final_pre hL).mem_iff.mpr (List.mem_range.mpr hv)
  obtain ⟨⟨v', i⟩, hp, rfl⟩ := List.mem_map.mp this
  exact ⟨i, hp⟩

theorem scc_card_eq {g : Graph} {L : List Nat} {c0 s : State} {a : AState}
    {tr : List (Nat × Nat)} (hL : Order g.n.toNat L c0) (h : Inv2 g L c0 0 s a tr) :
    Nat.card (Quotient (sccSetoid g)) = (tr.map Prod.snd).dedup.length := by
  have hroot : ∀ i ∈ (tr.map Prod.snd).dedup, ∃ r, L[i]? = some r ∧ (r, i) ∈ tr := by
    intro i hi
    obtain ⟨p, hp, rfl⟩ := List.mem_map.mp (List.mem_dedup.mp hi)
    obtain ⟨_, r, hr, _, hm⟩ := h.slot p hp
    exact ⟨r, hr, hm⟩
  have hlt : ∀ k : Fin (tr.map Prod.snd).dedup.length,
      L.getD ((tr.map Prod.snd).dedup.get k) 0 < g.n.toNat := by
    intro k
    obtain ⟨r, hr, _⟩ := hroot _ (List.get_mem _ _ _)
    rw [List.getD_eq_getElem?_getD, hr]
    exact (hL.mem r).mp (List.getElem?_mem hr)
  refine card_quotient_of_reps (sccSetoid g) _ (fun k => ⟨_, hlt k⟩) ?_ ?_
  · intro i j hij
    obtain ⟨ri, hri, hmi⟩ := hroot _ (List.get_mem _ i.1 i.2)
    obtain ⟨rj, hrj, hmj⟩ := hroot _ (List.get_mem _ j.1 j.2)
    have hij' : g.SameSCC (L.getD ((tr.map Prod.snd).dedup.get i) 0)
        (L.getD ((tr.map Prod.snd).dedup.get j) 0) := hij
    rw [List.getD_eq_getElem?_getD, List.getD_eq_getElem?_getD, hri, hrj] at hij'
    have := h.inj _ hmi _ hmj hij'
    exact (List.nodup_iff_injective_get.mp (List.nodup_dedup _)) this
  · intro x
    obtain ⟨i, hi⟩ := h.vertex_slot hL x.2
    obtain ⟨_, r, hr, hrx, _⟩ := h.slot _ hi
    have him : i ∈ (tr.map Prod.snd).dedup :=
      List.mem_dedup.mpr (List.mem_map.mpr ⟨(x.1, i), hi, rfl⟩)
    obtain ⟨k, hk⟩ := List.get_of_mem him
    refine ⟨k, ?_⟩
    show g.SameSCC (L.getD ((tr.map Prod.snd).dedup.get k) 0) x
    rw [hk, List.getD_eq_getElem?_getD, hr]
    exact hrx

theorem DFSLoop1_run {g gr : Graph} (hp : WellFormedPair g gr) {fuel : Nat}
    (hfuel : g.n.toNat ≤ fuel) :
    ∃ s a, DFSLoop1 g gr fuel (initState g) = .ok s ∧ Rel1 g.n.toNat (initState g) s a ∧
      AInv g.n.toNat gr.Edge a ∧ a.Quiet ∧ ∀ v < g.n.toNat, v ∈ a.pre := by
  have hn : gr.n.toNat = g.n.toNat := by rw [hp.2.2.1]
  obtain ⟨c1, a1, hrun1, hrel1, hinv1, hq1, hall1, _⟩ :=
    DFSLoop1_go_spec hp.2.1 (initState g) (hn ▸ hfuel) gr.n.toNat (le_refl _)
      (initState g) ⟨[], []⟩ (hn ▸ rel1_init g) (ainv_init _ _) (by intro v hv; simp at hv)
      (by intro v hv hle; omega)
  rw [hn] at hrun1 hrel1 hinv1 hall1
  exact ⟨c1, a1, hrun1, hrel1, hinv1, hq1, hall1⟩

theorem Order.indexOf_perm {n : Nat} {L : List Nat} {c0 : State} (h : Order n L c0) :
    ((List.range n).map (fun v => L.indexOf v)).Perm (List.range n) := by
  have hnd : ((List.range n).map (fun v => L.indexOf v)).Nodup := by
    refine (List.nodup_map_iff_inj_on (List.nodup_range n)).mpr ?_
    intro x hx y hy hxy
    exact (List.indexOf_inj ((h.mem x).mpr (List.mem_range.mp hx))
      ((h.mem y).mpr (List.mem_range.mp hy))).mp hxy
  refine (List.perm_ext_iff_of_nodup hnd (List.nodup_range n)).mpr ?_
  intro k
  rw [List.mem_map, List.mem_range]
  constructor
  · rintro ⟨v, hv, rfl⟩
    exact h.indexOf_lt (List.mem_range.mp hv)
  · intro hk
    have hkL : k < L.length := h.length.symm ▸ hk
    refine ⟨L[k], List.mem_range.mpr ((h.mem _).mp (List.getElem_mem hkL)), ?_⟩
    exact List.indexOf_getElem h.nodup k hkL

theorem Inv2.count_slot {g : Graph} {L : List Nat} {c0 s : State} {a : AState}
    {tr : List (Nat × Nat)} {k : Nat} (h : Inv2 g L c0 k s a tr) (i : Nat) :
    (s.calls.map Prod.snd).count (i : Int) = (tr.map Prod.snd).count i := by
  have : s.calls.map Prod.snd = (tr.map Prod.snd).map (fun (j : Nat) => (j : Int)) := by
    rw [h.calls_eq]
    simp [List.map_map, Function.comp_def]
  rw [this]
  exact List.count_map_of_injective _ _ (fun x y hxy => Int.ofNat.inj hxy) i

theorem reach_eq_of_no_edge {E : Nat → Nat → Prop} (hE : ∀ u v, ¬ E u v) {u v : Nat}
    (h : ReflTransGen E u v) : u = v := by
  induction h with
  | refl => rfl
  | tail _ he _ => exact absurd he (hE _ _)

/-- When every component is a single vertex, the run counts `n` components of size 1. -/
theorem singletons_result {g : Graph} {L : List Nat} {c0 s : State} {a : AState}
    {tr : List (Nat × Nat)} (hL : Order g.n.toNat L c0) (h : Inv2 g L c0 0 s a tr)
    (hsingle : ∀ u v, g.SameSCC u v → u = v) :
    s.sccCount = (g.n.toNat : Int) ∧ s.sccComponentsCount = List.replicate g.n.toNat 1 := by
  have hsnd : tr.map Prod.snd = (tr.map Prod.fst).map (fun v => L.indexOf v) := by
    rw [List.map_map]
    apply List.map_congr_left
    intro p hp
    obtain ⟨_, r, hr, hrp, _⟩ := h.slot p hp
    have := hsingle _ _ hrp
    subst this
    exact (indexOf_of_getElem? hL.nodup hr).symm
  have hperm : (tr.map Prod.snd).Perm (List.range g.n.toNat) := by
    rw [hsnd]
    exact ((h.final_pre hL).map _).trans hL.indexOf_perm
  have hnd : (tr.map Prod.snd).Nodup := hperm.nodup_iff.mpr (List.nodup_range _)
  constructor
  · rw [h.count, hnd.dedup, hperm.length_eq, List.length_range]
  · apply List.ext_getElem?
    intro r
    by_cases hr : r < g.n.toNat
    · rw [h.sizes r hr, List.getElem?_replicate, if_pos hr]
      have hm : L.indexOf r ∈ tr.map Prod.snd :=
        hperm.mem_iff.mpr (List.mem_range.mpr (hL.indexOf_lt hr))
      rw [List.count_eq_one_of_mem hnd hm]
      rfl
    · rw [List.getElem?_eq_none (by rw [h.rel.len_cnt]; omega),
        List.getElem?_eq_none (by simp; omega)]

theorem acceptedPairs_edgeTokens (n : Nat) (pairs : List (Nat × Nat))
    (h : ∀ p ∈ pairs, p.1 < n ∧ p.2 < n) :
    acceptedPairs (n : Int) (edgeTokens pairs)
      = pairs.map (fun p => ((p.1 : Int) + 1, (p.2 : Int) + 1)) := by
  induction pairs with
  | nil => rfl
  | cons p rest ih =>
    obtain ⟨u, v⟩ := p
    have huv := h (u, v) (List.mem_cons_self _ _)
    simp only at huv
    have hv1 : validToken (n : Int) (.int ((u : Int) + 1)) = true := by
      simp only [validToken, decide_eq_true_eq]; omega
    have hv2 : validToken (n : Int) (.int ((v : Int) + 1)) = true := by
      simp only [validToken, decide_eq_true_eq]; omega
    have ih2 := ih (fun q hq => h q (List.mem_cons_of_mem _ hq))
    unfold acceptedPairs at ih2 ⊢
    simp only [edgeTokens, List.takeWhile, hv1, hv2, completePairs, List.map_cons, ih2]

theorem edge_edgeTokens (n : Nat) (pairs : List (Nat × Nat))
    (h : ∀ p ∈ pairs, p.1 < n ∧ p.2 < n) (u v : Nat) :
    (readGraphFromFile (n : Int) (edgeTokens pairs)).1.Edge u v ↔ (u, v) ∈ pairs := by
  have hc := (readEdges_built (n : Int) (edgeTokens pairs)).cnt u v
  rw [acceptedPairs_edgeTokens n pairs h] at hc
  show (v : Int) ∈ (readEdges (n : Int) (edgeTokens pairs) (emptyBuilder n)).edges.getD u [] ↔ _
  rw [← List.count_pos_iff, hc, List.count_pos_iff, List.mem_map]
  constructor
  · rintro ⟨⟨a, b⟩, hp, heq⟩
    simp only [Prod.mk.injEq] at heq
    have ha : a = u := by omega
    have hb : b = v := by omega
    rw [← ha, ← hb]
    exact hp
  · intro hp
    exact ⟨(u, v), hp, rfl⟩

/-- On a directed cycle through all `n` vertices every vertex reaches every other. -/
theorem cycle_reach {E : Nat → Nat → Prop} {n : Nat} {cyc : List Nat}
    (hc : cyc.Perm (List.range n))
    (hE : ∀ p ∈ cyc.zip (cyc.rotate 1), E p.1 p.2) (u v : Nat) (hu : u < n) (hv : v < n) :
    ReflTransGen E u v := by
  have hlen : cyc.length = n := by simpa using hc.length_eq
  have hget : ∀ k, k < n → cyc[k]? = some (cyc.getD k 0) := by
    intro k hk
    rw [List.getD_eq_getElem?_getD, List.getElem?_eq_getElem (hlen.symm ▸ hk)]
    rfl
  have hn : 0 < n := Nat.lt_of_le_of_lt (Nat.zero_le _) hu
  have hstep : ∀ k, k < n → E (cyc.getD k 0) (cyc.getD ((k + 1) % n) 0) := by
    intro k hk
    apply hE (cyc.getD k 0, cyc.getD ((k + 1) % n) 0)
    apply List.getElem?_mem (n := k)
    rw [List.getElem?_zip_eq_some]
    refine ⟨hget k hk, ?_⟩
    rw [List.getElem?_rotate (hlen.symm ▸ hk), hlen]
    exact hget _ (Nat.mod_lt _ hn)
  have hwalk : ∀ k, k < n → ∀ j,
      ReflTransGen E (cyc.getD k 0) (cyc.getD ((k + j) % n) 0) := by
    intro k hk j
    induction j with
    | zero =>
      rw [Nat.add_zero, Nat.mod_eq_of_lt hk]
    | succ j ih =>
      have := hstep ((k + j) % n) (Nat.mod_lt _ hn)
      rw [Nat.mod_add_mod] at this
      exact ReflTransGen.tail ih this
  have hidx : ∀ x, x < n → ∃ k, k < n ∧ cyc.getD k 0 = x := by
    intro x hx
    have hm : x ∈ cyc := hc.mem_iff.mpr (List.mem_range.mpr hx)
    obtain ⟨k, hk, hkx⟩ := List.getElem_of_mem hm
    refine ⟨k, hlen ▸ hk, ?_⟩
    rw [List.getD_eq_getElem _ _ hk, hkx]
  obtain ⟨a, ha, rfl⟩ := hidx u hu
  obtain ⟨b, hb, rfl⟩ := hidx v hv
  have := hwalk a ha (b + n - a)
  have hab : (a + (b + n - a)) % n = b := by
    rw [show a + (b + n - a) = b + n by omega, Nat.add_mod_right, Nat.mod_eq_of_lt hb]
  rwa [hab] at this

/-- When all vertices are mutually reachable, the run counts one component of size `n`. -/
theorem strongly_connected_result {g : Graph} {L : List Nat} {c0 s : State} {a : AState}
    {tr : List (Nat × Nat)} (hL : Order g.n.toNat L c0) (h : Inv2 g L c0 0 s a tr)
    (hn : 0 < g.n.toNat)
    (hconn : ∀ u v, u < g.n.toNat → v < g.n.toNat → g.SameSCC u v) :
    s.sccCount = 1 ∧ ∃ r, r < g.n.toNat ∧
      s.sccComponentsCount = (List.replicate g.n.toNat 0).set r (g.n.toNat : Int) := by
  obtain ⟨i0, hi0⟩ := h.vertex_slot hL hn
  obtain ⟨_, r0, hr0, _, _⟩ := h.slot _ hi0
  have hr0n : r0 < g.n.toNat := (hL.mem r0).mp (List.getElem?_mem hr0)
  have hlen : tr.length = g.n.toNat := by
    have := (h.final_pre hL).length_eq
    simpa using this
  have hsnd : tr.map Prod.snd = List.replicate g.n.toNat i0 := by
    rw [List.eq_replicate_iff]
    refine ⟨by simp [hlen], ?_⟩
    intro j hj
    obtain ⟨p, hp, rfl⟩ := List.mem_map.mp hj
    have hpn : p.1 < g.n.toNat :=
      h.inv.pre_lt _ (by rw [h.pre_eq]; exact List.mem_map_of_mem _ hp)
    exact h.inj p hp _ hi0 (hconn _ _ hpn hn)
  refine ⟨?_, r0, hr0n, ?_⟩
  · rw [h.count, hsnd]
    obtain ⟨m, hm⟩ : ∃ m, g.n.toNat = m + 1 := ⟨g.n.toNat - 1, by omega⟩
    rw [hm]
    have := dedup_replicate_append i0 m [] (by simp)
    simp only [List.append_nil] at this
    rw [this]
    rfl
  · apply List.ext_getElem?
    intro r
    by_cases hr : r < g.n.toNat
    · rw [h.sizes r hr, hsnd, List.count_replicate, List.getElem?_set]
      by_cases hrr : r0 = r
      · subst hrr
        simp [indexOf_of_getElem? hL.nodup hr0, hr]
      · have hne : ¬ (i0 = L.indexOf r) := by
          intro hi
          have h1 := getElem?_indexOf ((hL.mem r).mpr hr)
          rw [← hi, hr0] at h1
          exact hrr (Option.some.inj h1)
        simp [hrr, hne, hr]
    · rw [List.getElem?_eq_none (by rw [h.rel.len_cnt]; omega),
        List.getElem?_eq_none (by simp; omega)]

theorem buildFrom_edges_order {n : Int} (pairs : List (Int × Int))
    (hv : ∀ p ∈ pairs, ValidPair n p) (u : Nat) :
    ∀ b : Builder, b.edges.length = n.toNat →
      (buildFrom b pairs).edges.getD u [] =
        ((pairs.filter (fun p => decide (p.1 - 1 = (u : Int)))).map (fun p => p.2 - 1)).reverse
          ++ b.edges.getD u [] := by
  induction pairs with
  | nil => intro b _; simp [buildFrom]
  | cons p rest ih =>
    intro b hlen
    obtain ⟨h1, h2, _, _⟩ := hv p (List.mem_cons_self _ _)
    have hai : (p.1 - 1).toNat < b.edges.length := by rw [hlen]; omega
    have hlen2 : (addEdge b (p.1 - 1) (p.2 - 1)).edges.length = n.toNat := by
      simp [addEdge, prepend, hlen]
    have hstep : buildFrom b (p :: rest) = buildFrom (addEdge b (p.1 - 1) (p.2 - 1)) rest := rfl
    rw [hstep, ih (fun q hq => hv q (List.mem_cons_of_mem _ hq)) _ hlen2]
    have hget : (addEdge b (p.1 - 1) (p.2 - 1)).edges.getD u [] =
        if u = (p.1 - 1).toNat then (p.2 - 1) :: b.edges.getD (p.1 - 1).toNat []
        else b.edges.getD u [] := getD_prepend _ _ _ hai u
    rw [hget]
    by_cases hu : p.1 - 1 = (u : Int)
    · have hu2 : u = (p.1 - 1).toNat := by omega
      rw [List.filter_cons_of_pos (by simpa using hu), if_pos hu2, ← hu2]
      simp
    · have hu2 : ¬ (u = (p.1 - 1).toNat) := by omega
      rw [List.filter_cons_of_neg (by simpa using hu), if_neg hu2]

theorem buildFrom_edgesRev_order {n : Int} (pairs : List (Int × Int))
    (hv : ∀ p ∈ pairs, ValidPair n p) (v : Nat) :
    ∀ b : Builder, b.edgesRev.length = n.toNat →
      (buildFrom b pairs).edgesRev.getD v [] =
        ((pairs.filter (fun p => decide (p.2 - 1 = (v : Int)))).map (fun p => p.1 - 1)).reverse
          ++ b.edgesRev.getD v [] := by
  induction pairs with
  | nil => intro b _; simp [buildFrom]
  | cons p rest ih =>
    intro b hlen
    obtain ⟨_, _, h1, h2⟩ := hv p (List.mem_cons_self _ _)
    have hai : (p.2 - 1).toNat < b.edgesRev.length := by rw [hlen]; omega
    have hlen2 : (addEdge b (p.1 - 1) (p.2 - 1)).edgesRev.length = n.toNat := by
      simp [addEdge, prepend, hlen]
    have hstep : buildFrom b (p :: rest) = buildFrom (addEdge b (p.1 - 1) (p.2 - 1)) rest := rfl
    rw [hstep, ih (fun q hq => hv q (List.mem_cons_of_mem _ hq)) _ hlen2]
    have hget : (addEdge b (p.1 - 1) (p.2 - 1)).edgesRev.getD v [] =
        if v = (p.2 - 1).toNat then (p.1 - 1) :: b.edgesRev.getD (p.2 - 1).toNat []
        else b.edgesRev.getD v [] := getD_prepend _ _ _ hai v
    rw [hget]
    by_cases hu : p.2 - 1 = (v : Int)
    · have hu2 : v = (p.2 - 1).toNat := by omega
      rw [List.filter_cons_of_pos (by simpa using hu), if_pos hu2, ← hu2]
      simp
    · have hu2 : ¬ (v = (p.2 - 1).toNat) := by omega
      rw [List.filter_cons_of_neg (by simpa using hu), if_neg hu2]

/-! ### The traced first pass -/

theorem DFS1Traced_loop_drop {call : Int → State → Except Err State}
    {callT : Int → State → Except Err (State × List CallRec)}
    (h : ∀ v s, dropTrace (callT v s) = call v s) :
    ∀ (node : List Int) (s : State),
      dropTrace (DFS1Traced.loop callT node s) = DFS1.loop call node s := by
  intro node
  induction node with
  | nil => intro s; rfl
  | cons v next ih =>
    intro s
    simp only [DFS1Traced.loop, DFS1.loop]
    cases hread : readAt s.visited v with
    | error e => rfl
    | ok b =>
      simp only []
      by_cases hb : b = 0
      · rw [if_pos hb, if_pos hb, ← h v s]
        cases hc : callT v s with
        | error e => rfl
        | ok p =>
          obtain ⟨s1, l1⟩ := p
          simp only [dropTrace]
          rw [← ih s1]
          cases hl : DFS1Traced.loop callT next s1 with
          | error e => rfl
          | ok q => rfl
      · rw [if_neg hb, if_neg hb]
        exact ih s

theorem DFS1Traced_drop (gr : Graph) :
    ∀ (fuel : Nat) (v : Int) (s : State), dropTrace (DFS1Traced gr fuel v s) = DFS1 gr fuel v s := by
  intro fuel
  induction fuel with
  | zero => intro v s; rfl
  | succ fuel ih =>
    intro v s
    simp only [DFS1Traced, DFS1]
    cases hread : readAt gr.edges v with
    | error e => rfl
    | ok node =>
      simp only []
      cases hw : writeAt s.visited v 1 with
      | error e => rfl
      | ok vis =>
        simp only []
        rw [← DFS1Traced_loop_drop ih node]
        cases hl : DFS1Traced.loop (DFS1Traced gr fuel) node { s with visited := vis } with
        | error e => rfl
        | ok p =>
          obtain ⟨s1, l⟩ := p
          simp only [dropTrace]
          cases hw1 : writeAt s1.finishingTimesOrdered s1.t v with
          | error e => rfl
          | ok fto =>
            simp only []
            cases hw2 : writeAt s1.finishingTimes v s1.t with
            | error e => rfl
            | ok ft => rfl

theorem DFSLoop1Traced_go_drop (gr : Graph) (fuel : Nat) :
    ∀ (k : Nat) (s : State),
      dropTrace (DFSLoop1Traced.go gr fuel k s) = DFSLoop1.go gr fuel k s := by
  intro k
  induction k with
  | zero => intro s; rfl
  | succ i ih =>
    intro s
    simp only [DFSLoop1Traced.go, DFSLoop1.go]
    cases hread : readAt s.visited (i : Int) with
    | error e => rfl
    | ok b =>
      simp only []
      by_cases hb : b = 0
      · rw [if_pos hb, if_pos hb, ← DFS1Traced_drop gr fuel]
        cases hc : DFS1Traced gr fuel (i : Int) s with
        | error e => rfl
        | ok p =>
          obtain ⟨s1, l1⟩ := p
          simp only [dropTrace]
          rw [← ih s1]
          cases hl : DFSLoop1Traced.go gr fuel i s1 with
          | error e => rfl
          | ok q => rfl
      · rw [if_neg hb, if_neg hb]
        exact ih s

theorem ext1_refl (c : State) : Ext1 c c := ⟨le_refl _, fun _ _ h _ => h⟩

theorem ext1_trans {c1 c2 c3 : State} (h1 : Ext1 c1 c2) (h2 : Ext1 c2 c3) : Ext1 c1 c3 :=
  ⟨le_trans h1.1 h2.1, fun w f hf h0 => h2.2 w f (h1.2 w f hf h0) h0⟩

theorem Rel1.ext1 {n : Nat} {c0 c c' : State} {a a' : AState} (h : Rel1 n c0 c a)
    (h' : Rel1 n c0 c' a') {nw : List Nat} (hpost : a'.post = a.post ++ nw) : Ext1 c c' := by
  constructor
  · rw [h.t_eq, h'.t_eq, hpost, List.length_append]
    omega
  · intro w f hf h0
    have hw : w < n := by
      have := (List.getElem?_eq_some_iff.mp hf).1
      rwa [h.len_ft] at this
    by_cases hm : w ∈ a.post
    · rw [h.ft_in w hm] at hf
      rw [h'.ft_in w (by rw [hpost]; exact List.mem_append_left _ hm), hpost,
        List.indexOf_append_of_mem hm]
      exact hf
    · rw [h.ft_out w hw hm] at hf
      have := Option.some.inj hf
      omega

theorem DFS1Traced_loop_spec {gr : Graph} {c0 : State} {k : Nat}
    {callT : Int → State → Except Err (State × List CallRec)}
    (hcall : Traced1Spec gr c0 k callT) :
    ∀ (node : List Int), (∀ v ∈ node, 0 ≤ v ∧ v < (gr.n.toNat : Int)) →
    ∀ (c : State) (a : AState), Rel1 gr.n.toNat c0 c a → AInv gr.n.toNat gr.Edge a →
    k ≤ a.pre.length →
    ∃ c' a' np nw l, DFS1Traced.loop callT node c = .ok (c', l) ∧ Rel1 gr.n.toNat c0 c' a' ∧
      LoopPost gr.n.toNat gr.Edge (node.map Int.toNat) a a' np nw ∧
      (l.map CallRec.vertex).Perm (np.map Int.ofNat) ∧
      ∀ r ∈ l, GoodCall1 gr c0 r ∧ Ext1 r.exit c' := by
  intro node
  induction node with
  | nil =>
    intro _ c a hrel hinv _
    exact ⟨c, a, [], [], [], rfl, hrel, loop_nil hinv, List.Perm.refl _, by simp⟩
  | cons v next ih =>
    intro hnode c a hrel hinv hk
    have hv := hnode v (List.mem_cons_self _ _)
    have hnext : ∀ w ∈ next, 0 ≤ w ∧ w < (gr.n.toNat : Int) :=
      fun w hw => hnode w (List.mem_cons_of_mem _ hw)
    have hvn : v.toNat < gr.n.toNat := by omega
    have hvc : ((v.toNat : Nat) : Int) = v := Int.toNat_of_nonneg hv.1
    have hread := readAt_ok hv.1 (hrel.vis v.toNat hvn)
    by_cases hmem : v.toNat ∈ a.pre
    · obtain ⟨c', a', np, nw, l, hrun, hrel', hpost, hperm, hgood⟩ :=
        ih hnext c a hrel hinv hk
      refine ⟨c', a', np, nw, l, ?_, hrel', loop_skip hmem hpost, hperm, hgood⟩
      simp only [DFS1Traced.loop, hread, if_pos hmem]
      simpa using hrun
    · obtain ⟨c1, a1, np1, nw1, l1, hrun1, hrel1, hpost1, hperm1, hgood1⟩ :=
        hcall v.toNat c a hrel hinv hvn hmem hk
      have hk1 : k ≤ a1.pre.length := by
        rw [hpost1.grow.pre_eq, List.length_append]; omega
      obtain ⟨c', a', np, nw, l, hrun, hrel', hpost, hperm, hgood⟩ :=
        ih hnext c1 a1 hrel1 hpost1.inv hk1
      have hext : Ext1 c1 c' := hrel1.ext1 hrel' hpost.grow.post_eq
      refine ⟨c', a', np ++ np1, nw1 ++ nw, l1 ++ l, ?_, hrel', loop_call hpost1 hpost, ?_, ?_⟩
      · rw [hvc] at hrun1
        simp only [DFS1Traced.loop, hread, if_neg hmem, hrun1, hrun]
        simp
      · rw [List.map_append, List.map_append]
        exact (hperm1.append hperm).trans List.perm_append_comm
      · intro r hr
        rcases List.mem_append.mp hr with hr | hr
        · exact ⟨(hgood1 r hr).1, ext1_trans (hgood1 r hr).2 hext⟩
        · exact hgood r hr

/-- The three assignments at the end of `DFS1`, for the abstract state after the loop. -/
theorem DFS1_finish_rel {n : Nat} {E : Nat → Nat → Prop} {c0 c2 : State} {a a2 : AState}
    {y : Nat} {np nw : List Nat} (hrel2 : Rel1 n c0 c2 a2) (hy : y < n)
    (hfin : CallPost n E y a ⟨a2.pre, a2.post ++ [y]⟩ np nw) :
    a2.post.length < n ∧
    Rel1 n c0 { c2 with
        finishingTimesOrdered := c2.finishingTimesOrdered.set a2.post.length (y : Int)
        finishingTimes := c2.finishingTimes.set y (a2.post.length : Int)
        t := c2.t + 1 } ⟨a2.pre, a2.post ++ [y]⟩ := by
  have hlen : a2.post.length < n := by
    have := hfin.inv.post_length_le
    simp only [List.length_append, List.length_singleton] at this
    omega
  have hyp : y ∉ a2.post := by
    have := hfin.inv.post_nodup
    simp only [List.nodup_append] at this
    exact fun hm => this.2.2 hm (List.mem_singleton_self y)
  refine ⟨hlen, ?_⟩
  refine { hrel2 with len_ft := ?_, len_fto := ?_, t_eq := ?_, fto_lt := ?_, fto_ge := ?_,
                      ft_in := ?_, ft_out := ?_ }
  · simp [hrel2.len_ft]
  · simp [hrel2.len_fto]
  · simp [hrel2.t_eq]
  · intro k hk
    show (c2.finishingTimesOrdered.set _ _)[k]? = ((a2.post ++ [y])[k]?).map Int.ofNat
    rw [List.getElem?_set]
    by_cases hkl : a2.post.length = k
    · subst hkl
      simp [hrel2.len_fto, hlen]
    · have hk2 : k < a2.post.length := by
        simp only [List.length_append, List.length_singleton] at hk; omega
      rw [if_neg hkl, hrel2.fto_lt k hk2, List.getElem?_append_left hk2]
  · intro k hk hkl
    show (c2.finishingTimesOrdered.set _ _)[k]? = _
    simp only [List.length_append, List.length_singleton] at hkl
    rw [List.getElem?_set_ne (by omega)]
    exact hrel2.fto_ge k hk (by omega)
  · intro v hv
    show (c2.finishingTimes.set _ _)[v]? = some ((a2.post ++ [y]).indexOf v : Int)
    rw [List.getElem?_set]
    by_cases hyv : y = v
    · subst hyv
      simp [hrel2.len_ft, hy, List.indexOf_append_of_not_mem hyp]
    · have hv2 : v ∈ a2.post := by
        simpa [Ne.symm hyv] using hv
      rw [if_neg hyv, hrel2.ft_in v hv2, List.indexOf_append_of_mem hv2]
  · intro v hv hvp
    show (c2.finishingTimes.set _ _)[v]? = _
    simp only [List.mem_append, List.mem_singleton, not_or] at hvp
    rw [List.getElem?_set_ne (Ne.symm hvp.2)]
    exact hrel2.ft_out v hv hvp.1

theorem Rel1.visit {n : Nat} {c0 c : State} {a : AState} (hrel : Rel1 n c0 c a) {y : Nat}
    (hy : y < n) :
    Rel1 n c0 { c with visited := c.visited.set y 1 } ⟨y :: a.pre, a.post⟩ := by
  refine { hrel with len_vis := ?_, vis := ?_ }
  · simp [hrel.len_vis]
  · intro v hv
    show (c.visited.set y 1)[v]? = _
    rw [List.getElem?_set]
    by_cases hyv : y = v
    · subst hyv
      simp [hrel.len_vis, hy]
    · rw [if_neg hyv, hrel.vis v hv]
      simp [List.mem_cons, Ne.symm hyv]

theorem dropTrace_ok {r : Except Err (State × List CallRec)} {s : State} {l : List CallRec}
    (h : r = .ok (s, l)) : dropTrace r = .ok s := by
  rw [h]; rfl

/-- Every traced call of `DFS1` on an unvisited vertex with enough fuel returns; its records
are those of calls on distinct unvisited vertices, the vertices it newly visits. -/
theorem DFS1Traced_spec {gr : Graph} (hwf : gr.WellFormed) (c0 : State) :
    ∀ fuel, Traced1Spec gr c0 (gr.n.toNat - fuel) (DFS1Traced gr fuel) := by
  intro fuel
  induction fuel with
  | zero =>
    intro y c a _ hinv hy hya hk
    have := hinv.pre_length_lt hy hya
    omega
  | succ fuel ih =>
    intro y c a hrel hinv hy hya hk
    obtain ⟨node, hnode1, hnode2, hnode3⟩ := hwf.node hy
    have hread := readAt_nat hnode1
    have hwrite := writeAt_nat (l := c.visited) (1 : Int) (hrel.len_vis ▸ hy)
    have hk1 : gr.n.toNat - fuel ≤ (⟨y :: a.pre, a.post⟩ : AState).pre.length := by
      simp only [List.length_cons]; omega
    obtain ⟨c2, a2, np, nw, l, hrun, hrel2, hpost2, hperm, hgood⟩ :=
      DFS1Traced_loop_spec ih node hnode3 _ _ (hrel.visit hy) (visit_inv hinv hy hya) hk1
    have hfin := call_finish hinv hya
      (Graph.edge_iff_of_node hnode2 (fun v hv => (hnode3 v hv).1)) hpost2
    obtain ⟨hlen, hrel3⟩ := DFS1_finish_rel hrel2 hy hfin
    have hw1 := writeAt_nat (l := c2.finishingTimesOrdered) (y : Int) (hrel2.len_fto ▸ hlen)
    have hw2 := writeAt_nat (l := c2.finishingTimes) (a2.post.length : Int) (hrel2.len_ft ▸ hy)
    have hrunT : DFS1Traced gr (fuel + 1) (y : Int) c = .ok
        ({ c2 with
            finishingTimesOrdered := c2.finishingTimesOrdered.set a2.post.length (y : Int)
            finishingTimes := c2.finishingTimes.set y (a2.post.length : Int)
            t := c2.t + 1 },
         { vertex := (y : Int), entry := c,
           exit := { c2 with
            finishingTimesOrdered := c2.finishingTimesOrdered.set a2.post.length (y : Int)
            finishingTimes := c2.finishingTimes.set y (a2.post.length : Int)
            t := c2.t + 1 } } :: l) := by
      simp only [DFS1Traced, hread, hwrite, hrun, hrel2.t_eq, hw1, hw2]
    have hrunD := dropTrace_ok hrunT
    rw [DFS1Traced_drop] at hrunD
    refine ⟨_, ⟨a2.pre, a2.post ++ [y]⟩, np ++ [y], nw ++ [y], _, hrunT, hrel3, hfin, ?_, ?_⟩
    · rw [List.map_cons, List.map_append]
      exact (List.Perm.cons _ hperm).trans (List.perm_append_singleton _ _).symm
    · intro r hr
      rcases List.mem_cons.mp hr with rfl | hr
      · exact ⟨⟨y, a, fuel + 1, rfl, hy, hrel, hinv, hya, hk, hrunD⟩, ext1_refl _⟩
      · exact ⟨(hgood r hr).1, ext1_trans (hgood r hr).2 (hrel2.ext1 hrel3 rfl)⟩

/-- The traced loop of `DFSLoop1` from index `k - 1` down to 0. -/
theorem DFSLoop1Traced_go_spec {gr : Graph} (hwf : gr.WellFormed) (c0 : State) {fuel : Nat}
    (hfuel : gr.n.toNat ≤ fuel) :
    ∀ (k : Nat), k ≤ gr.n.toNat → ∀ (c : State) (a : AState),
    Rel1 gr.n.toNat c0 c a → AInv gr.n.toNat gr.Edge a → a.Quiet →
    (∀ v < gr.n.toNat, k ≤ v → v ∈ a.pre) →
    ∃ c' a' np nw l, DFSLoop1Traced.go gr fuel k c = .ok (c', l) ∧ Rel1 gr.n.toNat c0 c' a' ∧
      AInv gr.n.toNat gr.Edge a' ∧ a'.Quiet ∧ (∀ v < gr.n.toNat, v ∈ a'.pre) ∧
      Grow a a' np nw ∧ (l.map CallRec.vertex).Perm (np.map Int.ofNat) ∧
      ∀ r ∈ l, GoodCall1 gr c0 r ∧ Ext1 r.exit c' := by
  intro k
  induction k with
  | zero =>
    intro _ c a hrel hinv hq hall
    exact ⟨c, a, [], [], [], rfl, hrel, hinv, hq, fun v hv => hall v hv (Nat.zero_le _),
      ⟨by simp, by simp, List.Perm.refl _⟩, List.Perm.refl _, by simp⟩
  | succ i ih =>
    intro hk c a hrel hinv hq hall
    have hi : i < gr.n.toNat := hk
    have hread := readAt_nat (hrel.vis i hi)
    by_cases hmem : i ∈ a.pre
    · have hall2 : ∀ v < gr.n.toNat, i ≤ v → v ∈ a.pre := by
        intro v hv hiv
        rcases Nat.eq_or_lt_of_le hiv with rfl | hlt
        · exact hmem
        · exact hall v hv hlt
      obtain ⟨c', a', np, nw, l, hrun, hrest⟩ := ih (Nat.le_of_lt hi) c a hrel hinv hq hall2
      refine ⟨c', a', np, nw, l, ?_, hrest⟩
      simp only [DFSLoop1Traced.go, hread, if_pos hmem]
      simpa using hrun
    · obtain ⟨c1, a1, np1, nw1, l1, hrun1, hrel1, hpost1, hperm1, hgood1⟩ :=
        DFS1Traced_spec hwf c0 fuel i c a hrel hinv hi hmem (by omega)
      have hall2 : ∀ v < gr.n.toNat, i ≤ v → v ∈ a1.pre := by
        intro v hv hiv
        rcases Nat.eq_or_lt_of_le hiv with rfl | hlt
        · exact hpost1.root_mem
        · exact hpost1.grow.pre_mono (hall v hv hlt)
      obtain ⟨c', a', np, nw, l, hrun, hrel', hinv', hq', hall3, hgrow, hperm, hgood⟩ :=
        ih (Nat.le_of_lt hi) c1 a1 hrel1 hpost1.inv (hpost1.quiet hq) hall2
      have hext : Ext1 c1 c' := hrel1.ext1 hrel' hgrow.post_eq
      refine ⟨c', a', np ++ np1, nw1 ++ nw, l1 ++ l, ?_, hrel', hinv', hq', hall3, ?_, ?_, ?_⟩
      · simp only [DFSLoop1Traced.go, hread, if_neg hmem, hrun1, hrun]
        simp
      · refine ⟨?_, ?_, ?_⟩
        · rw [hgrow.pre_eq, hpost1.grow.pre_eq, List.append_assoc]
        · rw [hgrow.post_eq, hpost1.grow.post_eq, List.append_assoc]
        · exact List.perm_append_comm.trans (hpost1.grow.perm.append hgrow.perm)
      · rw [List.map_append, List.map_append]
        exact (hperm1.append hperm).trans List.perm_append_comm
      · intro r hr
        rcases List.mem_append.mp hr with hr | hr
        · exact ⟨(hgood1 r hr).1, ext1_trans (hgood1 r hr).2 hext⟩
        · exact hgood r hr

/-- What a call of `DFS1` made in a state of the first pass does to the arrays. -/
theorem GoodCall1.facts {gr : Graph} (hwf : gr.WellFormed) {c0 : State} {r : CallRec}
    (hg : GoodCall1 gr c0 r) :
    ∃ u : Nat, u < gr.n.toNat ∧ r.vertex = (u : Int) ∧
      r.entry.visited[u]? = some 0 ∧ r.entry.finishingTimes[u]? = some (-1) ∧
      r.exit.finishingTimes[u]? = some (r.exit.t - 1) ∧ 0 ≤ r.entry.t ∧
      r.entry.t ≤ r.exit.t - 1 ∧ r.exit.t ≤ (gr.n.toNat : Int) ∧
      (∀ w : Nat, w < gr.n.toNat → w ≠ u → r.entry.visited[w]? = some 0 →
        r.exit.visited[w]? = some 1 →
        ∃ fw, r.exit.finishingTimes[w]? = some fw ∧ r.entry.t ≤ fw ∧ fw < r.exit.t - 1) ∧
      (∀ v : Nat, gr.Edge u v → r.exit.visited[v]? = some 1) := by
  obtain ⟨u, a, fuel, hvert, hu, hrel, hinv, hua, hk, hrun⟩ := hg
  obtain ⟨c', a', np, nw, hrun2, hrel', hpost⟩ := DFS1_spec hwf c0 fuel u r.entry a hrel hinv hu hua hk
  rw [hrun] at hrun2
  have hc : r.exit = c' := Except.ok.inj hrun2
  rw [← hc] at hrel'
  obtain ⟨new0, hnew⟩ := hpost.last
  have hpost_eq : a'.post = a.post ++ (new0 ++ [u]) := hnew ▸ hpost.grow.post_eq
  have hnd : (a.post ++ (new0 ++ [u])).Nodup := hpost_eq ▸ hpost.inv.post_nodup
  have hu_not : u ∉ a.post ++ new0 := by
    rw [← List.append_assoc] at hnd
    intro hm
    exact (List.nodup_append.mp hnd).2.2 hm (List.mem_singleton_self u)
  have hu_post : u ∉ a.post := fun hm => hua (hinv.post_sub u hm)
  have hidx_u : a'.post.indexOf u = a.post.length + new0.length := by
    rw [hpost_eq, ← List.append_assoc, List.indexOf_append_of_not_mem hu_not]
    simp
  have hlen : a'.post.length = a.post.length + new0.length + 1 := by
    rw [hpost_eq]; simp; omega
  have hu_in : u ∈ a'.post := by rw [hpost_eq]; simp
  refine ⟨u, hu, hvert, ?_, ?_, ?_, ?_, ?_, ?_, ?_, ?_⟩
  · rw [hrel.vis u hu, if_neg hua]
  · exact hrel.ft_out u hu hu_post
  · rw [hrel'.ft_in u hu_in, hidx_u, hrel'.t_eq, hlen]
    congr 1
    push_cast
    omega
  · rw [hrel.t_eq]; omega
  · rw [hrel.t_eq, hrel'.t_eq, hlen]
    push_cast
    omega
  · rw [hrel'.t_eq]
    exact_mod_cast hpost.inv.post_length_le
  · intro w hw hwu hv0 hv1
    have hw_pre : w ∉ a.pre := by
      intro hm
      rw [hrel.vis w hw, if_pos hm] at hv0
      exact absurd (Option.some.inj hv0) (by decide)
    have hw_pre' : w ∈ a'.pre := by
      by_contra hm
      rw [hrel'.vis w hw, if_neg hm] at hv1
      exact absurd (Option.some.inj hv1) (by decide)
    have hw_new : w ∈ new0 := by
      rw [hpost.grow.pre_eq] at hw_pre'
      rcases List.mem_append.mp hw_pre' with h | h
      · have := hpost.grow.perm.mem_iff.mp h
        rw [hnew] at this
        simpa [hwu] using this
      · exact absurd h hw_pre
    have hw_post : w ∉ a.post := fun hm => hw_pre (hinv.post_sub w hm)
    have hidx_w : a'.post.indexOf w = a.post.length + new0.indexOf w := by
      rw [hpost_eq, List.indexOf_append_of_not_mem hw_post, List.indexOf_append_of_mem hw_new]
    have hlt := List.indexOf_lt_length.mpr hw_new
    refine ⟨_, hrel'.ft_in w (by rw [hpost_eq]; simp [hw_new]), ?_, ?_⟩
    · rw [hidx_w, hrel.t_eq]; push_cast; omega
    · rw [hidx_w, hrel'.t_eq, hlen]; push_cast; omega
  · intro v huv
    have hv_pre := hpost.inv.closed u hu_in v huv
    rw [hrel'.vis v (hpost.inv.pre_lt v hv_pre), if_pos hv_pre]

theorem WellFormedPair.store {g gr : Graph} (h : WellFormedPair g gr) : GraphStore g gr :=
  ⟨h.1, h.2.1, h.2.2.1⟩

/-- The traced first pass on a well-formed Graph Store. -/
theorem DFSLoop1Traced_run {g gr : Graph} (hs : GraphStore g gr) {fuel : Nat}
    (hfuel : g.n.toNat ≤ fuel) :
    ∃ s a l, DFSLoop1Traced g gr fuel (initState g) = .ok (s, l) ∧
      DFSLoop1 g gr fuel (initState g) = .ok s ∧
      Rel1 g.n.toNat (initState g) s a ∧ AInv g.n.toNat gr.Edge a ∧ a.Quiet ∧
      (∀ v < g.n.toNat, v ∈ a.pre) ∧
      (l.map CallRec.vertex).Perm ((List.range g.n.toNat).map Int.ofNat) ∧
      ∀ r ∈ l, GoodCall1 gr (initState g) r ∧ Ext1 r.exit s := by
  have hn : gr.n.toNat = g.n.toNat := by rw [hs.2.2]
  obtain ⟨c1, a1, np, nw, l, hrun1, hrel1, hinv1, hq1, hall1, hgrow, hperm, hgood⟩ :=
    DFSLoop1Traced_go_spec hs.2.1 (initState g) (hn ▸ hfuel) gr.n.toNat (le_refl _)
      (initState g) ⟨[], []⟩ (hn ▸ rel1_init g) (ainv_init _ _) (by intro v hv; simp at hv)
      (by intro v hv hle; omega)
  have hdrop := dropTrace_ok hrun1
  rw [DFSLoop1Traced_go_drop] at hdrop
  have hpre : a1.pre = np := by simpa using hgrow.pre_eq
  have hnp : np.Perm (List.range gr.n.toNat) := by
    rw [← hpre]
    refine (List.perm_ext_iff_of_nodup hinv1.pre_nodup (List.nodup_range _)).mpr ?_
    intro v
    rw [List.mem_range]
    exact ⟨hinv1.pre_lt v, hall1 v⟩
  have hperm2 := hperm.trans (hnp.map Int.ofNat)
  rw [hn] at hrun1 hdrop hrel1 hinv1 hall1 hperm2
  exact ⟨c1, a1, l, hrun1, hdrop, hrel1, hinv1, hq1, hall1, hperm2, hgood⟩

/-! ### Runs on a Graph Store -/

/-- The loop of `DFSLoop2` runs to its end on a well-formed graph, whatever the order `L`
recorded by the first pass. -/
theorem DFSLoop2_go_safe {g : Graph} (hwf : g.WellFormed) {L : List Nat} {c0 : State}
    (hL : Order g.n.toNat L c0) {fuel : Nat} (hfuel : g.n.toNat ≤ fuel) :
    ∀ (k : Nat), k ≤ g.n.toNat → ∀ (c : State) (a : AState),
    Rel2 g.n.toNat L c0 c a → AInv g.n.toNat g.Edge a →
    ∃ c' a', DFSLoop2.go g fuel k c = .ok c' ∧ Rel2 g.n.toNat L c0 c' a' ∧
      AInv g.n.toNat g.Edge a' := by
  intro k
  induction k with
  | zero =>
    intro _ c a hrel hinv
    exact ⟨c, a, rfl, hrel, hinv⟩
  | succ i ih =>
    intro hk c a hrel hinv
    have hi : i < g.n.toNat := hk
    have hiL : i < L.length := hL.length.symm ▸ hi
    have hr : L[i]? = some L[i] := List.getElem?_eq_getElem hiL
    have hrn : L[i] < g.n.toNat := (hL.mem _).mp (List.getElem_mem hiL)
    have hidx : L.indexOf L[i] = i := indexOf_of_getElem? hL.nodup hr
    have hread : readAt c.visited (i : Int) = .ok (if L[i] ∈ a.pre then 1 else 0) :=
      readAt_nat (by have := hrel.vis L[i] hrn; rwa [hidx] at this)
    by_cases hmem : L[i] ∈ a.pre
    · obtain ⟨c', a', hrun, hrest⟩ := ih (Nat.le_of_lt hi) c a hrel hinv
      refine ⟨c', a', ?_, hrest⟩
      simp only [DFSLoop2.go, hread, if_pos hmem]
      simpa using hrun
    · have hread2 : readAt c.finishingTimesOrdered (i : Int) = .ok (L[i] : Int) :=
        readAt_nat (by rw [hrel.fto_eq, hL.fto i hi, hr]; rfl)
      have hrel2 : Rel2 g.n.toNat L c0 { c with sccCount := c.sccCount + 1 } a :=
        { hrel with }
      obtain ⟨c1, a1, np, nw, hrun1, hrel1, hpost1, _, _, _⟩ :=
        DFS2_spec hwf hL hi hr fuel L[i] _ a hrel2 hinv hrn hmem (by omega)
      obtain ⟨c', a', hrun, hrest⟩ := ih (Nat.le_of_lt hi) c1 a1 hrel1 hpost1.inv
      refine ⟨c', a', ?_, hrest⟩
      simp only [DFSLoop2.go, hread, if_neg hmem, hread2]
      simpa [hrun1] using hrun

theorem readAt_ok_iff {α : Type} (l : List α) (i : Int) :
    (∃ x, readAt l i = .ok x) ↔ (0 ≤ i ∧ i < (l.length : Int)) := by
  unfold readAt
  by_cases hi : i < 0
  · rw [if_pos hi]
    constructor
    · rintro ⟨x, hx⟩; cases hx
    · intro h; omega
  · rw [if_neg hi]
    by_cases hl : i.toNat < l.length
    · rw [List.getElem?_eq_getElem hl]
      exact ⟨fun _ => ⟨by omega, by omega⟩, fun _ => ⟨_, rfl⟩⟩
    · rw [List.getElem?_eq_none (by omega)]
      constructor
      · rintro ⟨x, hx⟩; cases hx
      · intro h; omega

theorem writeAt_ok_iff {α : Type} (l : List α) (i : Int) (x : α) :
    (∃ m, writeAt l i x = .ok m) ↔ (0 ≤ i ∧ i < (l.length : Int)) := by
  unfold writeAt
  by_cases hi : i < 0
  · rw [if_pos hi]
    constructor
    · rintro ⟨m, hm⟩; cases hm
    · intro h; omega
  · rw [if_neg hi]
    by_cases hl : i.toNat < l.length
    · rw [if_pos hl]
      exact ⟨fun _ => ⟨by omega, by omega⟩, fun _ => ⟨_, rfl⟩⟩
    · rw [if_neg hl]
      constructor
      · rintro ⟨m, hm⟩; cases hm
      · intro h; omega

/-- Both passes on a well-formed Graph Store run to their end. -/
theorem kosaraju_store {g gr : Graph} (hs : GraphStore g gr) {fuel : Nat}
    (hfuel : g.n.toNat ≤ fuel) :
    ∃ s1 s a1 a log, DFSLoop1Traced g gr fuel (initState g) = .ok (s1, log) ∧
      DFSLoop1 g gr fuel (initState g) = .ok s1 ∧
      DFSLoop2 g fuel (resetVisited g s1) = .ok s ∧ kosaraju g gr fuel = .ok s ∧
      Rel1 g.n.toNat (initState g) s1 a1 ∧ Order g.n.toNat a1.post s1 ∧
      Rel2 g.n.toNat a1.post (resetVisited g s1) s a ∧ AInv g.n.toNat g.Edge a ∧
      ∀ r ∈ log, GoodCall1 gr (initState g) r := by
  obtain ⟨s1, a1, log, hrunT, hrun1, hrel1, hinv1, hq1, hall1, _, hgood⟩ :=
    DFSLoop1Traced_run hs hfuel
  obtain ⟨hL, _⟩ := hrel1.order hinv1 hq1 hall1
  have hinit := inv2_init (g := g) hL (by rw [hrel1.count_eq]; rfl)
    (by rw [hrel1.sizes_eq]; rfl) (by rw [hrel1.calls_eq]; rfl)
  obtain ⟨s, a, hrun2, hrel2, hinv2⟩ :=
    DFSLoop2_go_safe hs.1 (hL.reset g) hfuel g.n.toNat (le_refl _) _ _ hinit.rel hinit.inv
  refine ⟨s1, s, a1, a, log, hrunT, hrun1, hrun2, ?_, hrel1, hL, hrel2, hinv2,
    fun r hr => (hgood r hr).1⟩
  simp only [kosaraju, hrun1]
  exact hrun2

/-! ### The finishing order and the components -/

/-- The first pass on a well-formed pair: it succeeds with fuel `n` and stores a finishing
order `L` with Kosaraju's property. -/
theorem first_pass_order {g gr : Graph} (hp : WellFormedPair g gr) {fuel : Nat}
    (hfuel : g.n.toNat ≤ fuel) :
    ∃ s L, DFSLoop1 g gr fuel (initState g) = .ok s ∧ Order g.n.toNat L s ∧
      Kosaraju gr.Edge L := by
  obtain ⟨s, a, hrun, hrel, hinv, hq, hall⟩ := DFSLoop1_run hp hfuel
  obtain ⟨hL, hK⟩ := hrel.order hinv hq hall
  exact ⟨s, a.post, hrun, hL, hK⟩

theorem Order.ft_read {n : Nat} {L : List Nat} {c0 : State} (h : Order n L c0) {v : Nat}
    (hv : v < n) : readAt c0.finishingTimes (v : Int) = .ok ((L.indexOf v : Nat) : Int) :=
  readAt_nat (h.ft v hv)

/-- In the finishing order of the walk of `graphRev`, whatever reaches `u` in `graph`
finishes no later than some vertex of the component of `u`. -/
theorem Kosaraju.graph_form {g gr : Graph} (hp : WellFormedPair g gr) {L : List Nat}
    {c0 : State} (hL : Order g.n.toNat L c0) (hK : Kosaraju gr.Edge L) {u v : Nat}
    (hu : u < g.n.toNat) (hvu : g.Reach v u) :
    ∃ z, g.SameSCC u z ∧ L.indexOf v ≤ L.indexOf z := by
  have hv : v < g.n.toNat := by
    have := (hp.reach_iff v u).mp hvu
    exact hp.2.2.1 ▸ hp.2.1.reach_lt this (hp.2.2.1.symm ▸ hu)
  obtain ⟨z, _, hzu, huz, hle⟩ := hK u ((hL.mem u).mpr hu) v ((hL.mem v).mpr hv)
    ((hp.reach_iff v u).mp hvu)
  exact ⟨z, ⟨(hp.reach_iff u z).mpr hzu, (hp.reach_iff z u).mpr huz⟩, hle⟩

/-- A component has a vertex of greatest finishing time. -/
theorem exists_max_in_scc {g : Graph} (hwf : g.WellFormed) (L : List Nat) {d : Nat}
    (hd : d < g.n.toNat) :
    ∃ z, g.SameSCC d z ∧ ∀ w, g.SameSCC d w → L.indexOf w ≤ L.indexOf z := by
  have hfin : {w | g.SameSCC d w}.Finite :=
    (Set.finite_lt_nat g.n.toNat).subset (fun w hw => hwf.reach_lt hw.1 hd)
  obtain ⟨z, hz, hmax⟩ := Set.exists_max_image {w | g.SameSCC d w} (fun w => L.indexOf w)
    hfin ⟨d, Graph.SameSCC.refl g d⟩
  exact ⟨z, hz, hmax⟩

/-! ### The first exploration -/

/-- The first exploration of `DFSLoop1`: the call of `DFS1` on the last vertex `m = n - 1`
from the initial state finishes exactly the vertices that `m` reaches, `m` last. -/
theorem DFS1_first_call {g gr : Graph} (hs : GraphStore g gr) {fuel m : Nat}
    (hm : g.n.toNat = m + 1) (hfuel : g.n.toNat ≤ fuel) :
    ∃ s1 a1, DFS1 gr fuel (m : Int) (initState g) = .ok s1 ∧
      Rel1 g.n.toNat (initState g) s1 a1 ∧ AInv g.n.toNat gr.Edge a1 ∧ a1.Quiet ∧
      (∀ v, v ∈ a1.post ↔ gr.Reach m v) ∧ m ∈ a1.pre ∧
      a1.post.indexOf m + 1 = a1.post.length := by
  have hn : gr.n.toNat = g.n.toNat := by rw [hs.2.2]
  have hspec := DFS1_spec hs.2.1 (initState g) fuel
  rw [hn] at hspec
  obtain ⟨s1, a1, np, nw, hrun, hrel, hpost⟩ :=
    hspec m (initState g) ⟨[], []⟩ (rel1_init g) (ainv_init _ _) (by omega) (by simp)
      (by omega)
  have hq : a1.Quiet := hpost.quiet (by intro v hv; simp at hv)
  have hpe : a1.post = nw := by simpa using hpost.grow.post_eq
  have hmpre : m ∈ a1.pre := hpost.root_mem
  have hmpost : m ∈ a1.post := hq m hmpre
  refine ⟨s1, a1, hrun, hrel, hpost.inv, hq, ?_, hmpre, ?_⟩
  · intro v
    constructor
    · intro hv
      exact hpost.reach v (hpe ▸ hv)
    · intro hv
      exact reach_closed (S := fun u => u ∈ a1.post)
        (fun u hu w he => hq w (hpost.inv.closed u hu w he)) hmpost hv
  · obtain ⟨new0, hnew⟩ := hpost.last
    have hnd : (new0 ++ [m]).Nodup := by
      have := hpost.inv.post_nodup
      rwa [hpe, hnew] at this
    have hm0 : m ∉ new0 := by
      intro h
      exact (List.nodup_append.mp hnd).2.2 h (List.mem_singleton_self m)
    rw [hpe, hnew, List.indexOf_append_of_not_mem hm0]
    simp

/-- On a graph without edges the loop of `DFSLoop1` finishes the vertices below `k` in
descending order. -/
theorem DFSLoop1_go_no_edges {gr : Graph} (hwf : gr.WellFormed) (hE : ∀ u v, ¬ gr.Edge u v)
    (c0 : State) {fuel : Nat} (hfuel : gr.n.toNat ≤ fuel) :
    ∀ (k : Nat), k ≤ gr.n.toNat → ∀ (c : State) (a : AState),
    Rel1 gr.n.toNat c0 c a → AInv gr.n.toNat gr.Edge a →
    (∀ v, v ∈ a.pre ↔ k ≤ v ∧ v < gr.n.toNat) →
    ∃ c' a', DFSLoop1.go gr fuel k c = .ok c' ∧ Rel1 gr.n.toNat c0 c' a' ∧
      a'.post = a.post ++ (List.range k).reverse := by
  intro k
  induction k with
  | zero =>
    intro _ c a hrel _ _
    exact ⟨c, a, rfl, hrel, by simp⟩
  | succ i ih =>
    intro hk c a hrel hinv hpre
    have hi : i < gr.n.toNat := hk
    have hmem : i ∉ a.pre := by
      intro h
      have := ((hpre i).mp h).1
      omega
    have hread := readAt_nat (hrel.vis i hi)
    obtain ⟨c1, a1, np1, nw1, hrun1, hrel1, hpost1⟩ :=
      DFS1_spec hwf c0 fuel i c a hrel hinv hi hmem (by omega)
    obtain ⟨new0, hnew⟩ := hpost1.last
    have hnd : (new0 ++ [i]).Nodup := by
      have := hpost1.inv.post_nodup
      rw [hpost1.grow.post_eq, hnew] at this
      exact (List.nodup_append.mp this).2.1
    have hnil : new0 = [] := by
      cases new0 with
      | nil => rfl
      | cons y ys =>
        have hy : y ∈ nw1 := by rw [hnew]; simp
        have hiy : i = y := reach_eq_of_no_edge hE (hpost1.reach y hy)
        have hin : i ∈ y :: ys := hiy ▸ List.mem_cons_self y ys
        exact absurd (List.mem_singleton_self i) ((List.nodup_append.mp hnd).2.2 hin)
    have hnw : nw1 = [i] := by rw [hnew, hnil]; rfl
    have hnp : np1 = [i] := List.perm_singleton.mp (hnw ▸ hpost1.grow.perm)
    have hpre1 : ∀ v, v ∈ a1.pre ↔ i ≤ v ∧ v < gr.n.toNat := by
      intro v
      rw [hpost1.grow.pre_eq, hnp, List.mem_append, List.mem_singleton, hpre v]
      omega
    obtain ⟨c', a', hrun, hrel', hpost'⟩ :=
      ih (Nat.le_of_lt hi) c1 a1 hrel1 hpost1.inv hpre1
    refine ⟨c', a', ?_, hrel', ?_⟩
    · simp only [DFSLoop1.go, hread, if_neg hmem]
      simpa [hrun1] using hrun
    · rw [hpost', hpost1.grow.post_eq, hnw, List.range_succ, List.reverse_append]
      simp

theorem indexOf_reverse_range {n v : Nat} (hv : v < n) :
    (List.range n).reverse.indexOf v = n - 1 - v := by
  refine indexOf_of_getElem? (List.nodup_reverse.mpr (List.nodup_range n)) ?_
  rw [List.getElem?_reverse (by simp; omega)]
  simp only [List.length_range]
  rw [List.getElem?_range (by omega)]
  congr 1
  omega

/-! ### Roots and sizes -/

/-- The loop of `DFSLoop2` from index `k - 1` down to 0, with the order of the slots: a
vertex is logged with a slot no smaller than its own finishing time. -/
theorem DFSLoop2_go_ord {g gr : Graph} (hp : WellFormedPair g gr) {L : List Nat} {c0 : State}
    (hL : Order g.n.toNat L c0) (hK : Kosaraju gr.Edge L) {fuel : Nat}
    (hfuel : g.n.toNat ≤ fuel) :
    ∀ (k : Nat), k ≤ g.n.toNat → ∀ (c : State) (a : AState) (tr : List (Nat × Nat)),
    Inv2 g L c0 k c a tr → (∀ p ∈ tr, L.indexOf p.1 ≤ p.2) →
    ∃ c' a' tr', DFSLoop2.go g fuel k c = .ok c' ∧ Inv2 g L c0 0 c' a' tr' ∧
      ∀ p ∈ tr', L.indexOf p.1 ≤ p.2 := by
  intro k
  induction k with
  | zero =>
    intro _ c a tr h hord
    exact ⟨c, a, tr, rfl, h, hord⟩
  | succ i ih =>
    intro hk c a tr h hord
    have hi : i < g.n.toNat := hk
    have hiL : i < L.length := hL.length.symm ▸ hi
    have hr : L[i]? = some L[i] := List.getElem?_eq_getElem hiL
    have hrn : L[i] < g.n.toNat := (hL.mem _).mp (List.getElem_mem hiL)
    have hidx : L.indexOf L[i] = i := indexOf_of_getElem? hL.nodup hr
    have hread : readAt c.visited (i : Int) = .ok (if L[i] ∈ a.pre then 1 else 0) :=
      readAt_nat (by have := h.rel.vis L[i] hrn; rwa [hidx] at this)
    by_cases hmem : L[i] ∈ a.pre
    · obtain ⟨c', a', tr', hrun, hinv'⟩ := ih (Nat.le_of_lt hi) c a tr (h.skip hr hmem) hord
      refine ⟨c', a', tr', ?_, hinv'⟩
      simp only [DFSLoop2.go, hread, if_pos hmem]
      simpa using hrun
    · have hread2 : readAt c.finishingTimesOrdered (i : Int) = .ok (L[i] : Int) :=
        readAt_nat (by rw [h.rel.fto_eq, hL.fto i hi, hr]; rfl)
      have hrel_ : Rel2 g.n.toNat L c0 { c with sccCount := c.sccCount + 1 } a :=
        { h.rel with }
      obtain ⟨c1, a1, np, nw, hrun1, hrel1, hpost1, hc1, hs1, hb1⟩ :=
        DFS2_spec hp.1 hL hi hr fuel L[i] _ a hrel_ h.inv hrn hmem (by omega)
      have hstep := Inv2.step hp hL hK hr h hmem hrel1 hpost1 hc1 hs1 hb1
      have hord1 : ∀ p ∈ np.map (fun v => (v, i)) ++ tr, L.indexOf p.1 ≤ p.2 := by
        intro p hp'
        rcases List.mem_append.mp hp' with hp' | hp'
        · obtain ⟨v, hv, rfl⟩ := List.mem_map.mp hp'
          show L.indexOf v ≤ i
          by_contra hlt
          have hnd : (np ++ a.pre).Nodup := hpost1.grow.pre_eq ▸ hpost1.inv.pre_nodup
          have hva : v ∉ a.pre := fun hm => (List.nodup_append.mp hnd).2.2 hv hm
          have hv1 : v ∈ a1.pre := by
            rw [hpost1.grow.pre_eq]
            exact List.mem_append_left _ hv
          have hvL : v ∈ L := (hL.mem v).mpr (hpost1.inv.pre_lt v hv1)
          exact hva (h.done _ (by omega) v (getElem?_indexOf hvL))
        · exact hord p hp'
      obtain ⟨c', a', tr', hrun, hinv'⟩ := ih (Nat.le_of_lt hi) c1 a1 _ hstep hord1
      refine ⟨c', a', tr', ?_, hinv'⟩
      simp only [DFSLoop2.go, hread, if_neg hmem, hread2]
      simpa [hrun1] using hrun

/-- The run of both passes on a well-formed pair, with the state between the passes. -/
theorem kosaraju_full {g gr : Graph} (hp : WellFormedPair g gr) {fuel : Nat}
    (hfuel : g.n.toNat ≤ fuel) :
    ∃ s1 s L a tr, DFSLoop1 g gr fuel (initState g) = .ok s1 ∧
      DFSLoop2 g fuel (resetVisited g s1) = .ok s ∧ kosaraju g gr fuel = .ok s ∧
      Order g.n.toNat L s1 ∧ Kosaraju gr.Edge L ∧
      Inv2 g L (resetVisited g s1) 0 s a tr ∧ ∀ p ∈ tr, L.indexOf p.1 ≤ p.2 := by
  obtain ⟨s1, a1, hrun1, hrel1, hinv1, hq1, hall1⟩ := DFSLoop1_run hp hfuel
  obtain ⟨hL, hK⟩ := hrel1.order hinv1 hq1 hall1
  have hinit := inv2_init (g := g) hL (by rw [hrel1.count_eq]; rfl)
    (by rw [hrel1.sizes_eq]; rfl) (by rw [hrel1.calls_eq]; rfl)
  obtain ⟨s, a, tr, hrun2, hinv2, hord⟩ :=
    DFSLoop2_go_ord hp (hL.reset g) hK hfuel g.n.toNat (le_refl _) _ _ _ hinit
      (by intro p hp'; simp at hp')
  refine ⟨s1, s, a1.post, a, tr, hrun1, hrun2, ?_, hL, hK, hinv2, hord⟩
  simp only [kosaraju, hrun1]
  exact hrun2

theorem greatest_iff_index {g : Graph} (hwf : g.WellFormed) {L : List Nat} {s1 : State}
    (hL : Order g.n.toNat L s1) {r : Nat} (hr : r < g.n.toNat) :
    GreatestInSCC g s1 r ↔ ∀ v, g.SameSCC r v → L.indexOf v ≤ L.indexOf r := by
  constructor
  · intro h v hv
    obtain ⟨fv, fr, h1, h2, hle⟩ := h v hv
    rw [hL.ft_read (hwf.reach_lt hv.1 hr)] at h1
    rw [hL.ft_read hr] at h2
    have e1 : ((L.indexOf v : Nat) : Int) = fv := Except.ok.inj h1
    have e2 : ((L.indexOf r : Nat) : Int) = fr := Except.ok.inj h2
    omega
  · intro h v hv
    exact ⟨_, _, hL.ft_read (hwf.reach_lt hv.1 hr), hL.ft_read hr, by exact_mod_cast h v hv⟩

theorem Inv2.root_iff {g : Graph} (hwf : g.WellFormed) {L : List Nat} {c0 s : State}
    {a : AState} {tr : List (Nat × Nat)} (hL : Order g.n.toNat L c0)
    (h : Inv2 g L c0 0 s a tr) (hord : ∀ p ∈ tr, L.indexOf p.1 ≤ p.2) {r : Nat}
    (hr : r < g.n.toNat) :
    (r, L.indexOf r) ∈ tr ↔ ∀ v, g.SameSCC r v → L.indexOf v ≤ L.indexOf r := by
  constructor
  · intro hroot v hv
    obtain ⟨j, hj⟩ := h.vertex_slot hL (hwf.reach_lt hv.1 hr)
    have hij : L.indexOf r = j := h.inj _ hroot _ hj hv
    have := hord _ hj
    simp only at this
    omega
  · intro hmax
    obtain ⟨j, hj⟩ := h.vertex_slot hL hr
    obtain ⟨_, r2, hr2, hsame, _⟩ := h.slot _ hj
    have h1 := hord _ hj
    have h2 := hmax r2 hsame.symm
    have h3 : L.indexOf r2 = j := indexOf_of_getElem? hL.nodup hr2
    simp only at h1
    have : j = L.indexOf r := by omega
    exact this ▸ hj

theorem Inv2.slot_root {g : Graph} {L : List Nat} {c0 s : State}
    {a : AState} {tr : List (Nat × Nat)} {k : Nat} (hL : Order g.n.toNat L c0)
    (h : Inv2 g L c0 k s a tr) {r : Nat} (hr : r < g.n.toNat) {p : Nat × Nat} (hp : p ∈ tr)
    (hpi : p.2 = L.indexOf r) : g.SameSCC r p.1 ∧ (r, L.indexOf r) ∈ tr := by
  obtain ⟨_, r2, hr2, hsame, hm⟩ := h.slot p hp
  have h1 := getElem?_indexOf ((hL.mem r).mpr hr)
  rw [hpi, h1] at hr2
  have : r = r2 := Option.some.inj hr2
  subst this
  exact ⟨hsame, hpi ▸ hm⟩

theorem Inv2.mem_slot_iff {g : Graph} (hwf : g.WellFormed) {L : List Nat} {c0 s : State}
    {a : AState} {tr : List (Nat × Nat)} (hL : Order g.n.toNat L c0)
    (h : Inv2 g L c0 0 s a tr) {r : Nat} (hr : r < g.n.toNat)
    (hroot : (r, L.indexOf r) ∈ tr) (v : Nat) :
    (v, L.indexOf r) ∈ tr ↔ g.SameSCC r v := by
  constructor
  · intro hv
    exact (h.slot_root hL hr hv rfl).1
  · intro hv
    obtain ⟨j, hj⟩ := h.vertex_slot hL (hwf.reach_lt hv.1 hr)
    have hij : L.indexOf r = j := h.inj _ hroot _ hj hv
    exact hij ▸ hj

theorem count_snd_eq_filter (tr : List (Nat × Nat)) (i : Nat) :
    (tr.map Prod.snd).count i = ((tr.filter (fun p => decide (p.2 = i))).map Prod.fst).length := by
  induction tr with
  | nil => rfl
  | cons p rest ih =>
    by_cases hp : p.2 = i
    · simp [List.filter_cons, hp, ih]
    · simp [List.filter_cons, hp, ih, List.count_cons]

theorem Inv2.count_root {g : Graph} (hwf : g.WellFormed) {L : List Nat} {c0 s : State}
    {a : AState} {tr : List (Nat × Nat)} (hL : Order g.n.toNat L c0)
    (h : Inv2 g L c0 0 s a tr) {r : Nat} (hr : r < g.n.toNat)
    (hroot : (r, L.indexOf r) ∈ tr) :
    (tr.map Prod.snd).count (L.indexOf r) = Set.ncard {v | g.SameSCC r v} := by
  rw [count_snd_eq_filter]
  have hnd : ((tr.filter (fun p => decide (p.2 = L.indexOf r))).map Prod.fst).Nodup :=
    ((List.filter_sublist tr).map Prod.fst).nodup (h.pre_eq ▸ h.inv.pre_nodup)
  have hset : {v | g.SameSCC r v} =
      ((((tr.filter (fun p => decide (p.2 = L.indexOf r))).map Prod.fst).toFinset :
        Finset Nat) : Set Nat) := by
    ext v
    simp only [Set.mem_setOf_eq, Finset.mem_coe, List.mem_toFinset, List.mem_map,
      List.mem_filter, decide_eq_true_eq]
    rw [← h.mem_slot_iff hwf hL hr hroot v]
    constructor
    · intro hv
      exact ⟨(v, L.indexOf r), ⟨hv, rfl⟩, rfl⟩
    · rintro ⟨⟨v2, j⟩, ⟨hm, hj⟩, hv⟩
      simp only at hj hv
      rw [← hj, ← hv]
      exact hm
  rw [hset, Set.ncard_coe_Finset, List.toFinset_card_of_nodup hnd]

theorem Inv2.count_other {g : Graph} {L : List Nat} {c0 s : State}
    {a : AState} {tr : List (Nat × Nat)} {k : Nat} (hL : Order g.n.toNat L c0)
    (h : Inv2 g L c0 k s a tr) {r : Nat} (hr : r < g.n.toNat)
    (hroot : (r, L.indexOf r) ∉ tr) :
    (tr.map Prod.snd).count (L.indexOf r) = 0 := by
  rw [List.count_eq_zero]
  intro hm
  obtain ⟨p, hp, hpi⟩ := List.mem_map.mp hm
  exact hroot (h.slot_root hL hr hp hpi).2

/-- The size array at the end of a run: component sizes at the roots, 0 elsewhere. -/
theorem Inv2.sized {g : Graph} (hwf : g.WellFormed) {L : List Nat} {c0 s : State}
    {a : AState} {tr : List (Nat × Nat)} (hL : Order g.n.toNat L c0)
    (h : Inv2 g L c0 0 s a tr) :
    Sized g.n.toNat g.SameSCC s.sccComponentsCount (fun r => (r, L.indexOf r) ∈ tr) where
  len := h.rel.len_cnt
  root := by
    intro r hr hroot
    rw [h.sizes r hr, h.count_root hwf hL hr hroot]
  other := by
    intro r hr hroot
    rw [h.sizes r hr, h.count_other hL hr hroot]
    rfl
  ex := by
    intro v hv
    obtain ⟨j, hj⟩ := h.vertex_slot hL hv
    obtain ⟨_, r, hr, hsame, hm⟩ := h.slot _ hj
    have hrn : r < g.n.toNat := (hL.mem r).mp (List.getElem?_mem hr)
    refine ⟨r, hrn, ?_, hsame.symm⟩
    show (r, L.indexOf r) ∈ tr
    rw [indexOf_of_getElem? hL.nodup hr]
    exact hm
  uniq := by
    intro r hr r2 hr2 h1 h2 hsame
    have := h.inj _ h1 _ h2 hsame
    exact (List.indexOf_inj ((hL.mem r).mpr hr) ((hL.mem r2).mpr hr2)).mp this

theorem list_eq_map_getD (l : List Int) :
    l = (List.range l.length).map (fun r => l.getD r 0) := by
  apply List.ext_getElem
  · simp
  · intro i h1 h2
    simp [List.getD_eq_getElem?_getD, List.getElem?_eq_getElem h1]

/-- The non-zero entries of a size array are its entries at the roots. -/
theorem Sized.nonzero {n : Nat} {Same : Nat → Nat → Prop} {l : List Int} {R : Nat → Prop}
    (hs : Sized n Same l R) (hrefl : ∀ r < n, Same r r)
    (hlt : ∀ r < n, ∀ v, Same r v → v < n) :
    (∀ r, r ∈ (List.range n).filter (fun r => decide (l.getD r 0 ≠ 0)) ↔ r < n ∧ R r) ∧
    l.filter (fun x => decide (x ≠ 0))
      = ((List.range n).filter (fun r => decide (l.getD r 0 ≠ 0))).map
          (fun r => l.getD r 0) ∧
    ∀ r, r < n → R r → l.getD r 0 = (Set.ncard {v | Same r v} : Int) := by
  have hsize : ∀ r, r < n → R r → l.getD r 0 = (Set.ncard {v | Same r v} : Int) := by
    intro r hr hR
    rw [List.getD_eq_getElem?_getD, hs.root r hr hR]
    rfl
  have hpos : ∀ r, r < n → Set.ncard {v | Same r v} ≠ 0 := by
    intro r hr
    have hfin : {v | Same r v}.Finite :=
      (Set.finite_lt_nat n).subset (fun v hv => hlt r hr v hv)
    exact Set.ncard_ne_zero_of_mem (hrefl r hr) hfin
  refine ⟨?_, ?_, hsize⟩
  · intro r
    simp only [List.mem_filter, List.mem_range, decide_eq_true_eq]
    constructor
    · rintro ⟨hr, hne⟩
      refine ⟨hr, ?_⟩
      by_contra hR
      apply hne
      rw [List.getD_eq_getElem?_getD, hs.other r hr hR]
      rfl
    · rintro ⟨hr, hR⟩
      refine ⟨hr, ?_⟩
      rw [hsize r hr hR]
      exact_mod_cast hpos r hr
  · conv_lhs => rw [list_eq_map_getD l]
    rw [List.filter_map, hs.len]
    rfl

/-- Two size arrays for the same components hold the same sizes, whatever their roots. -/
theorem Sized.perm {n : Nat} {Same : Nat → Nat → Prop} {l1 l2 : List Int}
    {R1 R2 : Nat → Prop} (h1 : Sized n Same l1 R1) (h2 : Sized n Same l2 R2)
    (hrefl : ∀ r < n, Same r r) (hsymm : ∀ u v, Same u v → Same v u)
    (htrans : ∀ u v w, Same u v → Same v w → Same u w)
    (hlt : ∀ r < n, ∀ v, Same r v → v < n) :
    (l1.filter (fun x => decide (x ≠ 0))).Perm (l2.filter (fun x => decide (x ≠ 0))) := by
  obtain ⟨hA1, hf1, hz1⟩ := h1.nonzero hrefl hlt
  obtain ⟨hA2, hf2, hz2⟩ := h2.nonzero hrefl hlt
  have hex : ∀ r, ∃ r2, r < n → r2 < n ∧ R2 r2 ∧ Same r r2 := by
    intro r
    by_cases hr : r < n
    · obtain ⟨r2, h⟩ := h2.ex r hr
      exact ⟨r2, fun _ => h⟩
    · exact ⟨r, fun h => absurd h hr⟩
  choose φ hφ using hex
  have hnd1 : ((List.range n).filter (fun r => decide (l1.getD r 0 ≠ 0))).Nodup :=
    (List.nodup_range n).filter _
  have hnd2 : ((List.range n).filter (fun r => decide (l2.getD r 0 ≠ 0))).Nodup :=
    (List.nodup_range n).filter _
  have hperm : (((List.range n).filter (fun r => decide (l1.getD r 0 ≠ 0))).map φ).Perm
      ((List.range n).filter (fun r => decide (l2.getD r 0 ≠ 0))) := by
    refine (List.perm_ext_iff_of_nodup ?_ hnd2).mpr ?_
    · refine List.Nodup.map_on ?_ hnd1
      intro x hx y hy hxy
      obtain ⟨hxn, hxR⟩ := (hA1 x).mp hx
      obtain ⟨hyn, hyR⟩ := (hA1 y).mp hy
      have e1 := (hφ x hxn).2.2
      have e2 := (hφ y hyn).2.2
      rw [← hxy] at e2
      exact h1.uniq x hxn y hyn hxR hyR (htrans _ _ _ e1 (hsymm _ _ e2))
    · intro z
      rw [List.mem_map]
      constructor
      · rintro ⟨r, hr, rfl⟩
        obtain ⟨hrn, _⟩ := (hA1 r).mp hr
        exact (hA2 _).mpr ⟨(hφ r hrn).1, (hφ r hrn).2.1⟩
      · intro hz
        obtain ⟨hzn, hzR⟩ := (hA2 z).mp hz
        obtain ⟨r, hrn, hrR, hzr⟩ := h1.ex z hzn
        refine ⟨r, (hA1 r).mpr ⟨hrn, hrR⟩, ?_⟩
        obtain ⟨e1, e2, e3⟩ := hφ r hrn
        exact (h2.uniq z hzn _ e1 hzR e2 (htrans _ _ _ hzr e3)).symm
  rw [hf1, hf2]
  refine List.Perm.trans ?_ (hperm.map _)
  rw [List.map_map]
  refine List.Perm.of_eq (List.map_congr_left ?_)
  intro r hr
  obtain ⟨hrn, hrR⟩ := (hA1 r).mp hr
  obtain ⟨e1, e2, e3⟩ := hφ r hrn
  show l1.getD r 0 = l2.getD (φ r) 0
  rw [hz1 r hrn hrR, hz2 _ e1 e2]
  congr 2
  ext v
  exact ⟨fun hv => htrans _ _ _ (hsymm _ _ e3) hv, fun hv => htrans _ _ _ e3 hv⟩

/-- The number of non-zero entries of the size array is the number of components found. -/
theorem Inv2.nonzero_count {g : Graph} (hwf : g.WellFormed) {L : List Nat} {c0 s : State}
    {a : AState} {tr : List (Nat × Nat)} (hL : Order g.n.toNat L c0)
    (h : Inv2 g L c0 0 s a tr) :
    ((s.sccComponentsCount.filter (fun x => decide (x ≠ 0))).length : Int) = s.sccCount := by
  obtain ⟨hA, hf, _⟩ := (h.sized hwf hL).nonzero (fun r _ => Graph.SameSCC.refl g r)
    (fun r hr v hv => hwf.reach_lt hv.1 hr)
  rw [hf, h.count, List.length_map]
  have hnd : ((List.range g.n.toNat).filter
      (fun r => decide (s.sccComponentsCount.getD r 0 ≠ 0))).Nodup :=
    (List.nodup_range _).filter _
  have hperm : (((List.range g.n.toNat).filter
      (fun r => decide (s.sccComponentsCount.getD r 0 ≠ 0))).map (fun r => L.indexOf r)).Perm
      (tr.map Prod.snd).dedup := by
    refine (List.perm_ext_iff_of_nodup ?_ (List.nodup_dedup _)).mpr ?_
    · refine List.Nodup.map_on ?_ hnd
      intro x hx y hy hxy
      exact (List.indexOf_inj ((hL.mem x).mpr ((hA x).mp hx).1)
        ((hL.mem y).mpr ((hA y).mp hy).1)).mp hxy
    · intro i
      rw [List.mem_map, List.mem_dedup, List.mem_map]
      constructor
      · rintro ⟨r, hr, rfl⟩
        exact ⟨_, ((hA r).mp hr).2, rfl⟩
      · rintro ⟨p, hp, rfl⟩
        obtain ⟨_, r, hr, _, hm⟩ := h.slot p hp
        have hrn : r < g.n.toNat := (hL.mem r).mp (List.getElem?_mem hr)
        have hidx := indexOf_of_getElem? hL.nodup hr
        exact ⟨r, (hA r).mpr ⟨hrn, by show (r, L.indexOf r) ∈ tr; rw [hidx]; exact hm⟩, hidx⟩
  have := hperm.length_eq
  rw [List.length_map] at this
  rw [this]

theorem sameSCC_congr {g1 g2 : Graph} (h : ∀ u v, g1.Edge u v ↔ g2.Edge u v) :
    g1.SameSCC = g2.SameSCC := by
  have hE : g1.Edge = g2.Edge := by
    funext u v
    exact propext (h u v)
  unfold Graph.SameSCC Graph.Reach
  rw [hE]

/-- The sizes found by a run on a well-formed pair, for use with another run. -/
theorem kosaraju_sized {g gr : Graph} (hp : WellFormedPair g gr) {fuel : Nat}
    (hfuel : g.n.toNat ≤ fuel) :
    ∃ s R, kosaraju g gr fuel = .ok s ∧ Sized g.n.toNat g.SameSCC s.sccComponentsCount R ∧
      ((s.sccComponentsCount.filter (fun x => decide (x ≠ 0))).length : Int) = s.sccCount := by
  obtain ⟨s1, s, L, a, tr, _, _, hrun, hL, _, hinv, _⟩ := kosaraju_full hp hfuel
  exact ⟨s, _, hrun, hinv.sized hp.1 (hL.reset g), hinv.nonzero_count hp.1 (hL.reset g)⟩

/-! ### The run of `main` -/

/-- The two passes of the model succeed on every pair that `readGraphFromFile` builds, also
for a negative vertex count, where `DFSLoop1` and `DFSLoop2` run over no index. -/
theorem kosaraju_read (n : Int) (tokens : List Token) {fuel : Nat} (hfuel : n.toNat ≤ fuel) :
    ∃ s1 s,
      DFSLoop1 (readGraphFromFile n tokens).1 (readGraphFromFile n tokens).2 fuel
        (initState (readGraphFromFile n tokens).1) = .ok s1 ∧
      DFSLoop2 (readGraphFromFile n tokens).1 fuel
        (resetVisited (readGraphFromFile n tokens).1 s1) = .ok s ∧
      kosaraju (readGraphFromFile n tokens).1 (readGraphFromFile n tokens).2 fuel = .ok s := by
  by_cases hn : 0 ≤ n
  · have hfuel2 : (readGraphFromFile n tokens).1.n.toNat ≤ fuel := hfuel
    obtain ⟨s1, s, _, _, _, h1, h2, h3, _⟩ :=
      kosaraju_full (readGraphFromFile_wellFormed n tokens hn) hfuel2
    exact ⟨s1, s, h1, h2, h3⟩
  · have h0 : (readGraphFromFile n tokens).1.n.toNat = 0 := by
      show n.toNat = 0
      omega
    refine ⟨initState (readGraphFromFile n tokens).1,
      resetVisited (readGraphFromFile n tokens).1 (initState (readGraphFromFile n tokens).1),
      ?_, ?_, ?_⟩
    · simp only [DFSLoop1, h0, DFSLoop1.go]
    · simp only [DFSLoop2, h0, DFSLoop2.go]
    · simp only [kosaraju, DFSLoop1, DFSLoop2, h0, DFSLoop1.go, DFSLoop2.go]

/-! ## The claims -/

/-- C1: for every `n >= 0` and every input token list (so every edge list over `[0, n)`), on
the pair `(graph, graphRev)` that `readGraphFromFile` builds, the two passes run to
completion with any fuel `>= n` and end with `sccCount` equal to the number of equivalence
classes of mutual reachability on `[0, n)`. -/
theorem C1_sccCount_is_number_of_components (n : Int) (tokens : List Token) (fuel : Nat)
    (hn : 0 ≤ n) (hfuel : n.toNat ≤ fuel) :
    ∃ s, kosaraju (readGraphFromFile n tokens).1 (readGraphFromFile n tokens).2 fuel = .ok s ∧
      s.sccCount = (Nat.card (Quotient (sccSetoid (readGraphFromFile n tokens).1)) : Int) := by
  have hp := readGraphFromFile_wellFormed n tokens hn
  obtain ⟨s, c0, L, a, tr, hrun, hL, _, _, hinv⟩ :=
    kosaraju_run hp hfuel
  exact ⟨s, hrun, by rw [hinv.count, scc_card_eq hL hinv]⟩

theorem C1_sccCount_is_number_of_components_witness :
    (0 : Int) ≤ 3 ∧ (3 : Int).toNat ≤ 3 ∧
    ∃ s, kosaraju (readGraphFromFile 3 [.int 1, .int 2, .int 2, .int 1, .int 3, .int 1]).1
        (readGraphFromFile 3 [.int 1, .int 2, .int 2, .int 1, .int 3, .int 1]).2 3 = .ok s ∧
      s.sccCount = (Nat.card (Quotient (sccSetoid
        (readGraphFromFile 3 [.int 1, .int 2, .int 2, .int 1, .int 3, .int 1]).1)) : Int) :=
  ⟨by decide, by decide,
    C1_sccCount_is_number_of_components 3 [.int 1, .int 2, .int 2, .int 1, .int 3, .int 1] 3
      (by decide) (by decide)⟩

/-- C2: on a well-formed pair, two vertices are logged with the same `startVertex` (they are
visited by the same top-level exploration of `DFSLoop2`) if and only if each reaches the
other in `graph`; and the vertices logged with the slot `i` of a root
`r = finishingTimesOrdered[i]` are exactly the vertices of the component of `r`. -/
theorem C2_components_are_sccs (g gr : Graph) (fuel : Nat) (hp : WellFormedPair g gr)
    (hfuel : g.n.toNat ≤ fuel) :
    ∃ s, kosaraju g gr fuel = .ok s ∧
      (∀ u v : Nat, u < g.n.toNat → v < g.n.toNat →
        ((∃ i : Int, ((u : Int), i) ∈ s.calls ∧ ((v : Int), i) ∈ s.calls) ↔
          g.SameSCC u v)) ∧
      (∀ r i v : Nat, readAt s.finishingTimesOrdered (i : Int) = .ok (r : Int) →
        ((r : Int), (i : Int)) ∈ s.calls →
        (((v : Int), (i : Int)) ∈ s.calls ↔ g.SameSCC r v)) := by
  obtain ⟨s, c0, L, a, tr, hrun, hL, _, _, hinv⟩ := kosaraju_run hp hfuel
  refine ⟨s, hrun, ?_, ?_⟩
  · intro u v hu hv
    constructor
    · rintro ⟨j, hju, hjv⟩
      obtain ⟨i, rfl, hiu⟩ := hinv.mem_calls_int hju
      have hiv := (hinv.mem_calls v i).mp hjv
      obtain ⟨_, r, hr, hru, _⟩ := hinv.slot _ hiu
      obtain ⟨_, r2, hr2, hrv, _⟩ := hinv.slot _ hiv
      rw [hr] at hr2
      have : r = r2 := Option.some.inj hr2
      subst this
      exact hru.symm.trans hrv
    · intro huv
      obtain ⟨i, hi⟩ := hinv.vertex_slot hL hu
      obtain ⟨j, hj⟩ := hinv.vertex_slot hL hv
      have hij : i = j := hinv.inj _ hi _ hj huv
      subst hij
      exact ⟨(i : Int), (hinv.mem_calls u i).mpr hi, (hinv.mem_calls v i).mpr hj⟩
  · intro r i v hread hri
    have hri2 := (hinv.mem_calls r i).mp hri
    rw [hinv.mem_calls v i]
    constructor
    · intro hvi
      obtain ⟨_, r2, hr2, hrv, _⟩ := hinv.slot _ hvi
      have h2 := hinv.fto_read hL hr2
      rw [hread] at h2
      have : r = r2 := by
        have := Except.ok.inj h2
        exact_mod_cast this
      subst this
      exact hrv
    · intro hrv
      have hrn : r < g.n.toNat :=
        hinv.inv.pre_lt r (by rw [hinv.pre_eq]; exact List.mem_map_of_mem _ hri2)
      obtain ⟨j, hj⟩ := hinv.vertex_slot hL (hp.1.reach_lt hrv.1 hrn)
      have hij : i = j := hinv.inj _ hri2 _ hj hrv
      subst hij
      exact hj

theorem C2_components_are_sccs_witness :
    WellFormedPair exampleGraph exampleGraphRev ∧ exampleGraph.n.toNat ≤ 3 ∧
    ∃ s, kosaraju exampleGraph exampleGraphRev 3 = .ok s ∧
      (∀ u v : Nat, u < exampleGraph.n.toNat → v < exampleGraph.n.toNat →
        ((∃ i : Int, ((u : Int), i) ∈ s.calls ∧ ((v : Int), i) ∈ s.calls) ↔
          exampleGraph.SameSCC u v)) ∧
      (∀ r i v : Nat, readAt s.finishingTimesOrdered (i : Int) = .ok (r : Int) →
        ((r : Int), (i : Int)) ∈ s.calls →
        (((v : Int), (i : Int)) ∈ s.calls ↔ exampleGraph.SameSCC r v)) :=
  ⟨by decide, by decide,
    C2_components_are_sccs exampleGraph exampleGraphRev 3 (by decide) (by decide)⟩

/-- C3: on a well-formed pair, over the whole run `DFS2` is invoked exactly once on each
vertex of `[0, n)` and on nothing else. -/
theorem C3_DFS2_once_per_vertex (g gr : Graph) (fuel : Nat) (hp : WellFormedPair g gr)
    (hfuel : g.n.toNat ≤ fuel) :
    ∃ s, kosaraju g gr fuel = .ok s ∧
      (s.calls.map Prod.fst).Perm ((List.range g.n.toNat).map Int.ofNat) ∧
      ∀ v : Nat, v < g.n.toNat → (s.calls.map Prod.fst).count (v : Int) = 1 := by
  obtain ⟨s, c0, L, a, tr, hrun, hL, _, _, hinv⟩ := kosaraju_run hp hfuel
  have hperm : (s.calls.map Prod.fst).Perm ((List.range g.n.toNat).map Int.ofNat) := by
    rw [hinv.rel.calls_fst, hinv.pre_eq]
    exact (hinv.final_pre hL).map _
  refine ⟨s, hrun, hperm, ?_⟩
  intro v hv
  rw [hperm.count_eq]
  have hnd : ((List.range g.n.toNat).map Int.ofNat).Nodup :=
    (List.nodup_range _).map (fun x y h => Int.ofNat.inj h)
  exact List.count_eq_one_of_mem hnd (List.mem_map.mpr ⟨v, List.mem_range.mpr hv, rfl⟩)

theorem C3_DFS2_once_per_vertex_witness :
    WellFormedPair exampleGraph exampleGraphRev ∧ exampleGraph.n.toNat ≤ 3 ∧
    ∃ s, kosaraju exampleGraph exampleGraphRev 3 = .ok s ∧
      (s.calls.map Prod.fst).Perm ((List.range exampleGraph.n.toNat).map Int.ofNat) ∧
      ∀ v : Nat, v < exampleGraph.n.toNat → (s.calls.map Prod.fst).count (v : Int) = 1 :=
  ⟨by decide, by decide,
    C3_DFS2_once_per_vertex exampleGraph exampleGraphRev 3 (by decide) (by decide)⟩

/-- C4: on a well-formed pair with `n` vertices, after the run the `n` entries of
`sccComponentsCount` sum to `n`. -/
theorem C4_sizes_sum_to_n (g gr : Graph) (fuel : Nat) (hp : WellFormedPair g gr)
    (hfuel : g.n.toNat ≤ fuel) :
    ∃ s, kosaraju g gr fuel = .ok s ∧ s.sccComponentsCount.length = g.n.toNat ∧
      s.sccComponentsCount.sum = g.n := by
  obtain ⟨s, c0, L, a, tr, hrun, hL, _, _, hinv⟩ := kosaraju_run hp hfuel
  refine ⟨s, hrun, hinv.rel.len_cnt, ?_⟩
  have hlen : tr.length = g.n.toNat := by
    have := (hinv.final_pre hL).length_eq
    simpa using this
  rw [hinv.total, hlen]
  exact Int.toNat_of_nonneg hp.1.1

theorem C4_sizes_sum_to_n_witness :
    WellFormedPair exampleGraph exampleGraphRev ∧ exampleGraph.n.toNat ≤ 3 ∧
    ∃ s, kosaraju exampleGraph exampleGraphRev 3 = .ok s ∧
      s.sccComponentsCount.length = exampleGraph.n.toNat ∧
      s.sccComponentsCount.sum = exampleGraph.n :=
  ⟨by decide, by decide,
    C4_sizes_sum_to_n exampleGraph exampleGraphRev 3 (by decide) (by decide)⟩

/-- C5: on a well-formed pair, `DFSLoop1` started from the initial state ends with `t = n`,
`finishingTimes` a permutation of `[0, n)`, and `finishingTimesOrdered` its inverse. -/
theorem C5_finishing_times_permutation (g gr : Graph) (fuel : Nat) (hp : WellFormedPair g gr)
    (hfuel : g.n.toNat ≤ fuel) :
    ∃ s, DFSLoop1 g gr fuel (initState g) = .ok s ∧ s.t = g.n ∧
      s.finishingTimes.Perm ((List.range g.n.toNat).map Int.ofNat) ∧
      (∀ v : Nat, v < g.n.toNat → ∃ f, readAt s.finishingTimes (v : Int) = .ok f ∧
        readAt s.finishingTimesOrdered f = .ok (v : Int)) ∧
      (∀ k : Nat, k < g.n.toNat → ∃ w, readAt s.finishingTimesOrdered (k : Int) = .ok w ∧
        readAt s.finishingTimes w = .ok (k : Int)) := by
  obtain ⟨s, a, hrun, hrel, hinv, hq, hall⟩ := DFSLoop1_run hp hfuel
  obtain ⟨hL, _⟩ := hrel.order hinv hq hall
  have hft : s.finishingTimes = (List.range g.n.toNat).map (fun v => (a.post.indexOf v : Int)) := by
    apply List.ext_getElem?
    intro v
    by_cases hv : v < g.n.toNat
    · rw [hL.ft v hv]
      simp [hv]
    · rw [List.getElem?_eq_none (by rw [hrel.len_ft]; omega),
        List.getElem?_eq_none (by simp; omega)]
  refine ⟨s, hrun, ?_, ?_, ?_, ?_⟩
  · rw [hrel.t_eq, hL.length]
    exact Int.toNat_of_nonneg hp.1.1
  · rw [hft]
    have := (hL.indexOf_perm).map Int.ofNat
    simpa [List.map_map, Function.comp_def] using this
  · intro v hv
    have hvL : v ∈ a.post := (hL.mem v).mpr hv
    refine ⟨(a.post.indexOf v : Int), readAt_nat (hL.ft v hv), readAt_nat ?_⟩
    rw [hL.fto _ (hL.indexOf_lt hv), getElem?_indexOf hvL]
    rfl
  · intro k hk
    have hkL : k < a.post.length := hL.length.symm ▸ hk
    have hvn : a.post[k] < g.n.toNat := (hL.mem _).mp (List.getElem_mem hkL)
    refine ⟨(a.post[k] : Int), readAt_nat ?_, readAt_nat ?_⟩
    · rw [hL.fto k hk, List.getElem?_eq_getElem hkL]
      rfl
    · rw [hL.ft _ hvn, List.indexOf_getElem hL.nodup k hkL]

theorem C5_finishing_times_permutation_witness :
    WellFormedPair exampleGraph exampleGraphRev ∧ exampleGraph.n.toNat ≤ 3 ∧
    ∃ s, DFSLoop1 exampleGraph exampleGraphRev 3 (initState exampleGraph) = .ok s ∧
      s.t = exampleGraph.n ∧
      s.finishingTimes.Perm ((List.range exampleGraph.n.toNat).map Int.ofNat) ∧
      (∀ v : Nat, v < exampleGraph.n.toNat →
        ∃ f, readAt s.finishingTimes (v : Int) = .ok f ∧
        readAt s.finishingTimesOrdered f = .ok (v : Int)) ∧
      (∀ k : Nat, k < exampleGraph.n.toNat →
        ∃ w, readAt s.finishingTimesOrdered (k : Int) = .ok w ∧
          readAt s.finishingTimes w = .ok (k : Int)) :=
  ⟨by decide, by decide,
    C5_finishing_times_permutation exampleGraph exampleGraphRev 3 (by decide) (by decide)⟩

/-- C6 (as amended): on a well-formed pair, for every slot `i` at which `DFSLoop2` starts an
exploration, the entry of `sccComponentsCount` indexed by the root vertex
`finishingTimesOrdered[i]` equals the number of invocations of `DFS2` with
`startVertex = i`, the number of vertices assigned to that component. -/
theorem C6_size_keyed_by_root_vertex (g gr : Graph) (fuel : Nat) (hp : WellFormedPair g gr)
    (hfuel : g.n.toNat ≤ fuel) :
    ∃ s, kosaraju g gr fuel = .ok s ∧
      ∀ i : Nat, (∃ v, (v, (i : Int)) ∈ s.calls) →
        ∃ r : Nat, readAt s.finishingTimesOrdered (i : Int) = .ok (r : Int) ∧
          readAt s.sccComponentsCount (r : Int)
            = .ok (((s.calls.map Prod.snd).count (i : Int) : Nat) : Int) := by
  obtain ⟨s, c0, L, a, tr, hrun, hL, _, _, hinv⟩ := kosaraju_run hp hfuel
  refine ⟨s, hrun, ?_⟩
  rintro i ⟨v, hv⟩
  rw [hinv.calls_eq, List.mem_map] at hv
  obtain ⟨p, hp', heq⟩ := hv
  have hpi : p.2 = i := by
    have := (Prod.mk.inj heq).2
    exact_mod_cast this
  obtain ⟨_, r, hr, _, _⟩ := hinv.slot p hp'
  rw [hpi] at hr
  have hrn : r < g.n.toNat := (hL.mem r).mp (List.getElem?_mem hr)
  refine ⟨r, hinv.fto_read hL hr, readAt_nat ?_⟩
  rw [hinv.sizes r hrn, indexOf_of_getElem? hL.nodup hr, hinv.count_slot i]

/-- C6 (as stated) fails: on `exampleGraph` the exploration that `DFSLoop2` starts at slot 2
(root `finishingTimesOrdered[2] = 1`) has the two vertices 1 and 0, yet
`sccComponentsCount[2]` is 1; the size 2 is stored at index 1, the root vertex. -/
theorem C6_size_keyed_by_slot_counterexample :
    ¬ (∀ s, kosaraju exampleGraph exampleGraphRev 3 = .ok s →
        ∀ i : Nat, (∃ v, (v, (i : Int)) ∈ s.calls) →
          readAt s.sccComponentsCount (i : Int)
            = .ok (((s.calls.map Prod.snd).count (i : Int) : Nat) : Int)) := by
  intro h
  have hs : kosaraju exampleGraph exampleGraphRev 3 = .ok
      { visited := [1, 1, 1], finishingTimes := [1, 2, 0], finishingTimesOrdered := [2, 0, 1],
        sccComponentsCount := [0, 2, 1], sccCount := 2, t := 3,
        calls := [(2, 0), (0, 2), (1, 2)] } := by rfl
  have h2 := h _ hs 2 ⟨1, by decide⟩
  have h3 : (1 : Int) = ((2 : Nat) : Int) := Except.ok.inj h2
  exact absurd h3 (by decide)

theorem C6_size_keyed_by_root_vertex_witness :
    WellFormedPair exampleGraph exampleGraphRev ∧ exampleGraph.n.toNat ≤ 3 ∧
    ∃ s, kosaraju exampleGraph exampleGraphRev 3 = .ok s ∧
      ∀ i : Nat, (∃ v, (v, (i : Int)) ∈ s.calls) →
        ∃ r : Nat, readAt s.finishingTimesOrdered (i : Int) = .ok (r : Int) ∧
          readAt s.sccComponentsCount (r : Int)
            = .ok (((s.calls.map Prod.snd).count (i : Int) : Nat) : Int) :=
  ⟨by decide, by decide,
    C6_size_keyed_by_root_vertex exampleGraph exampleGraphRev 3 (by decide) (by decide)⟩

/-- C7: for every `n`, on the graph with `n` vertices and no edges the run ends with
`sccCount = n` and every entry of `sccComponentsCount` equal to 1. -/
theorem C7_no_edges_gives_n_singletons (n fuel : Nat) (hfuel : n ≤ fuel) :
    ∃ s, kosaraju (readGraphFromFile (n : Int) []).1 (readGraphFromFile (n : Int) []).2 fuel
        = .ok s ∧
      s.sccCount = (n : Int) ∧ s.sccComponentsCount = List.replicate n 1 := by
  have hp := readGraphFromFile_wellFormed (n : Int) [] (Int.ofNat_nonneg n)
  have hn : (readGraphFromFile (n : Int) []).1.n.toNat = n := by
    show ((n : Int)).toNat = n
    simp
  have hf : (readGraphFromFile (n : Int) []).1.n.toNat ≤ fuel := by rw [hn]; exact hfuel
  obtain ⟨s, c0, L, a, tr, hrun, hL, _, _, hinv⟩ := kosaraju_run hp hf
  have hE : ∀ u v, ¬ (readGraphFromFile (n : Int) []).1.Edge u v := by
    intro u v he
    have hc := (readEdges_built (n : Int) []).cnt u v
    have hpos := List.count_pos_iff.mpr he
    have hz : (acceptedPairs (n : Int) []).count ((u : Int) + 1, (v : Int) + 1) = 0 := by
      simp [acceptedPairs, completePairs]
    have : List.count (v : Int) ((readEdges (n : Int) [] (emptyBuilder n)).edges.getD u []) = 0 :=
      hc.trans hz
    exact absurd hpos (by rw [show (readGraphFromFile (n : Int) []).1.edges
      = (readEdges (n : Int) [] (emptyBuilder n)).edges from rfl, this]; decide)
  have hres := singletons_result hL hinv (fun u v huv => reach_eq_of_no_edge hE huv.1)
  rw [hn] at hres
  exact ⟨s, hrun, hres⟩

theorem C7_no_edges_gives_n_singletons_witness :
    4 ≤ 4 ∧
    ∃ s, kosaraju (readGraphFromFile ((4 : Nat) : Int) []).1
        (readGraphFromFile ((4 : Nat) : Int) []).2 4 = .ok s ∧
      s.sccCount = ((4 : Nat) : Int) ∧ s.sccComponentsCount = List.replicate 4 1 :=
  ⟨by decide, C7_no_edges_gives_n_singletons 4 4 (by decide)⟩

/-- C8: for every `n >= 1`, every cyclic arrangement `cyc` of the vertices and every input
order `pairs` of the edges `cyc[k] -> cyc[k + 1 mod n]`, the run ends with `sccCount = 1`, one
entry of `sccComponentsCount` equal to `n` and every other entry equal to 0. -/
theorem C8_single_cycle_is_one_component (n fuel : Nat) (cyc : List Nat)
    (pairs : List (Nat × Nat)) (hn : 1 ≤ n) (hc : cyc.Perm (List.range n))
    (hpairs : pairs.Perm (cyc.zip (cyc.rotate 1))) (hfuel : n ≤ fuel) :
    ∃ s, kosaraju (readGraphFromFile (n : Int) (edgeTokens pairs)).1
        (readGraphFromFile (n : Int) (edgeTokens pairs)).2 fuel = .ok s ∧
      s.sccCount = 1 ∧
      ∃ r, r < n ∧ s.sccComponentsCount = (List.replicate n 0).set r (n : Int) := by
  have hp := readGraphFromFile_wellFormed (n : Int) (edgeTokens pairs) (Int.ofNat_nonneg n)
  have hgn : (readGraphFromFile (n : Int) (edgeTokens pairs)).1.n.toNat = n := by
    show ((n : Int)).toNat = n
    simp
  have hf : (readGraphFromFile (n : Int) (edgeTokens pairs)).1.n.toNat ≤ fuel := by
    rw [hgn]; exact hfuel
  obtain ⟨s, c0, L, a, tr, hrun, hL, _, _, hinv⟩ := kosaraju_run hp hf
  have hrange : ∀ p ∈ pairs, p.1 < n ∧ p.2 < n := by
    intro p hp'
    have hz := hpairs.mem_iff.mp hp'
    obtain ⟨a, b⟩ := p
    have h1 := (List.of_mem_zip hz).1
    have h2 := (List.of_mem_zip hz).2
    rw [List.mem_rotate] at h2
    exact ⟨List.mem_range.mp (hc.mem_iff.mp h1), List.mem_range.mp (hc.mem_iff.mp h2)⟩
  have hE : ∀ p ∈ cyc.zip (cyc.rotate 1),
      (readGraphFromFile (n : Int) (edgeTokens pairs)).1.Edge p.1 p.2 :=
    fun p hp' => (edge_edgeTokens n pairs hrange p.1 p.2).mpr (hpairs.mem_iff.mpr hp')
  have hres := strongly_connected_result hL hinv (by rw [hgn]; exact hn)
    (fun u v hu hv => ⟨cycle_reach hc hE u v (hgn ▸ hu) (hgn ▸ hv),
      cycle_reach hc hE v u (hgn ▸ hv) (hgn ▸ hu)⟩)
  rw [hgn] at hres
  exact ⟨s, hrun, hres⟩

theorem C8_single_cycle_is_one_component_witness :
    1 ≤ 3 ∧ [1, 0, 2].Perm (List.range 3) ∧
    [(2, 1), (1, 0), (0, 2)].Perm ([1, 0, 2].zip ([1, 0, 2].rotate 1)) ∧ 3 ≤ 3 ∧
    ∃ s, kosaraju (readGraphFromFile ((3 : Nat) : Int) (edgeTokens [(2, 1), (1, 0), (0, 2)])).1
        (readGraphFromFile ((3 : Nat) : Int) (edgeTokens [(2, 1), (1, 0), (0, 2)])).2 3 = .ok s ∧
      s.sccCount = 1 ∧
      ∃ r, r < 3 ∧ s.sccComponentsCount = (List.replicate 3 0).set r ((3 : Nat) : Int) :=
  ⟨by decide, by decide, by decide, by decide,
    C8_single_cycle_is_one_component 3 3 [1, 0, 2] [(2, 1), (1, 0), (0, 2)]
      (by decide) (by decide) (by decide) (by decide)⟩

/-- C11: for two edge lists over `[0, n)` that are permutations of each other, the runs on
the graphs read from them both succeed, with the same `sccCount` and the same non-zero
entries of `sccComponentsCount` up to their order. -/
theorem C11_edge_order_does_not_change_result (n fuel : Nat) (pairs1 pairs2 : List (Nat × Nat))
    (h1 : ∀ p ∈ pairs1, p.1 < n ∧ p.2 < n) (hperm : pairs1.Perm pairs2) (hfuel : n ≤ fuel) :
    ∃ s1 s2,
      kosaraju (readGraphFromFile (n : Int) (edgeTokens pairs1)).1
        (readGraphFromFile (n : Int) (edgeTokens pairs1)).2 fuel = .ok s1 ∧
      kosaraju (readGraphFromFile (n : Int) (edgeTokens pairs2)).1
        (readGraphFromFile (n : Int) (edgeTokens pairs2)).2 fuel = .ok s2 ∧
      s1.sccCount = s2.sccCount ∧
      (s1.sccComponentsCount.filter (fun x => decide (x ≠ 0))).Perm
        (s2.sccComponentsCount.filter (fun x => decide (x ≠ 0))) := by
  have h2 : ∀ p ∈ pairs2, p.1 < n ∧ p.2 < n := fun p hp => h1 p (hperm.mem_iff.mpr hp)
  have hp1 := readGraphFromFile_wellFormed (n : Int) (edgeTokens pairs1) (Int.ofNat_nonneg n)
  have hp2 := readGraphFromFile_wellFormed (n : Int) (edgeTokens pairs2) (Int.ofNat_nonneg n)
  have hn1 : (readGraphFromFile (n : Int) (edgeTokens pairs1)).1.n.toNat = n := by
    show ((n : Int)).toNat = n
    simp
  have hn2 : (readGraphFromFile (n : Int) (edgeTokens pairs2)).1.n.toNat = n := by
    show ((n : Int)).toNat = n
    simp
  obtain ⟨s1, R1, hrun1, hs1, hc1⟩ := kosaraju_sized hp1 (hn1.symm ▸ hfuel)
  obtain ⟨s2, R2, hrun2, hs2, hc2⟩ := kosaraju_sized hp2 (hn2.symm ▸ hfuel)
  have hsame : (readGraphFromFile (n : Int) (edgeTokens pairs2)).1.SameSCC
      = (readGraphFromFile (n : Int) (edgeTokens pairs1)).1.SameSCC := by
    apply sameSCC_congr
    intro u v
    rw [edge_edgeTokens n pairs1 h1, edge_edgeTokens n pairs2 h2]
    exact hperm.mem_iff.symm
  rw [hsame, hn2] at hs2
  rw [hn1] at hs1
  have hP := Sized.perm hs1 hs2 (fun r _ => Graph.SameSCC.refl _ r)
    (fun u v h => h.symm) (fun u v w h h' => h.trans h')
    (fun r hr v hv => hn1 ▸ hp1.1.reach_lt hv.1 (hn1.symm ▸ hr))
  refine ⟨s1, s2, hrun1, hrun2, ?_, hP⟩
  rw [← hc1, ← hc2, hP.length_eq]

theorem C11_edge_order_does_not_change_result_witness :
    (∀ p ∈ [(0, 1), (1, 0), (2, 0)], p.1 < 3 ∧ p.2 < 3) ∧
    [(0, 1), (1, 0), (2, 0)].Perm [(2, 0), (0, 1), (1, 0)] ∧ 3 ≤ 3 ∧
    ∃ s1 s2,
      kosaraju (readGraphFromFile ((3 : Nat) : Int) (edgeTokens [(0, 1), (1, 0), (2, 0)])).1
        (readGraphFromFile ((3 : Nat) : Int) (edgeTokens [(0, 1), (1, 0), (2, 0)])).2 3
          = .ok s1 ∧
      kosaraju (readGraphFromFile ((3 : Nat) : Int) (edgeTokens [(2, 0), (0, 1), (1, 0)])).1
        (readGraphFromFile ((3 : Nat) : Int) (edgeTokens [(2, 0), (0, 1), (1, 0)])).2 3
          = .ok s2 ∧
      s1.sccCount = s2.sccCount ∧
      (s1.sccComponentsCount.filter (fun x => decide (x ≠ 0))).Perm
        (s2.sccComponentsCount.filter (fun x => decide (x ≠ 0))) :=
  ⟨by decide, by decide, by decide,
    C11_edge_order_does_not_change_result 3 3 [(0, 1), (1, 0), (2, 0)]
      [(2, 0), (0, 1), (1, 0)] (by decide) (by decide) (by decide)⟩

/-- C12: on a well-formed Graph Store, with fuel `n`, `DFSLoop1`, the reset of `visited` and
`DFSLoop2` run to their end without any access outside an array (an access is in bounds
exactly when the model returns a value).  Every call of `DFS1` is on an unmarked slot of
`visited` and writes `finishingTimesOrdered` at a time in `[0, n)`; after the first pass
`t = n` and every entry of `finishingTimes` and `finishingTimesOrdered` lies in `[0, n)`;
the second pass leaves both arrays as they are, and calls `DFS2` on distinct vertices of
`[0, n)`. -/
theorem C12_run_terminates_in_bounds (g gr : Graph) (fuel : Nat) (hs : GraphStore g gr)
    (hfuel : g.n.toNat ≤ fuel) :
    ∃ s1 s log, DFSLoop1Traced g gr fuel (initState g) = .ok (s1, log) ∧
      DFSLoop1 g gr fuel (initState g) = .ok s1 ∧
      DFSLoop2 g fuel (resetVisited g s1) = .ok s ∧ kosaraju g gr fuel = .ok s ∧
      (∀ r ∈ log, ∃ u : Nat, u < g.n.toNat ∧ r.vertex = (u : Int) ∧
        readAt r.entry.visited (u : Int) = .ok 0 ∧ 0 ≤ r.exit.t - 1 ∧ r.exit.t - 1 < g.n) ∧
      s1.t = g.n ∧
      (∀ x ∈ s1.finishingTimes, 0 ≤ x ∧ x < g.n) ∧
      (∀ x ∈ s1.finishingTimesOrdered, 0 ≤ x ∧ x < g.n) ∧
      s.finishingTimes = s1.finishingTimes ∧
      s.finishingTimesOrdered = s1.finishingTimesOrdered ∧
      (s.calls.map Prod.fst).Nodup ∧ (∀ x ∈ s.calls.map Prod.fst, 0 ≤ x ∧ x < g.n) ∧
      (∀ (l : List Int) (i : Int), (∃ x, readAt l i = .ok x) ↔ (0 ≤ i ∧ i < (l.length : Int))) ∧
      (∀ (l : List Int) (i x : Int),
        (∃ m, writeAt l i x = .ok m) ↔ (0 ≤ i ∧ i < (l.length : Int))) := by
  have hn : gr.n.toNat = g.n.toNat := by rw [hs.2.2]
  have hgn : ((g.n.toNat : Nat) : Int) = g.n := Int.toNat_of_nonneg hs.1.1
  obtain ⟨s1, s, a1, a, log, hrunT, hrun1, hrun2, hrun, hrel1, hL, hrel2, hinv2, hgood⟩ :=
    kosaraju_store hs hfuel
  refine ⟨s1, s, log, hrunT, hrun1, hrun2, hrun, ?_, ?_, ?_, ?_, hrel2.ft_eq, hrel2.fto_eq,
    ?_, ?_, readAt_ok_iff, writeAt_ok_iff⟩
  · intro r hr
    obtain ⟨u, hu, hvert, h1, _, _, h4, h5, h6, _, _⟩ := (hgood r hr).facts hs.2.1
    rw [hn] at hu h6
    exact ⟨u, hu, hvert, readAt_nat h1, by omega, by omega⟩
  · rw [hrel1.t_eq, hL.length]
    exact hgn
  · intro x hx
    obtain ⟨v, hv⟩ := List.mem_iff_getElem?.mp hx
    have hvn : v < g.n.toNat := hrel1.len_ft ▸ (List.getElem?_eq_some_iff.mp hv).1
    rw [hL.ft v hvn] at hv
    have := hL.indexOf_lt hvn
    have hx2 := Option.some.inj hv
    omega
  · intro x hx
    obtain ⟨k, hk⟩ := List.mem_iff_getElem?.mp hx
    have hkn : k < g.n.toNat := hrel1.len_fto ▸ (List.getElem?_eq_some_iff.mp hk).1
    have hkL : k < a1.post.length := hL.length.symm ▸ hkn
    rw [hL.fto k hkn, List.getElem?_eq_getElem hkL] at hk
    have := (hL.mem _).mp (List.getElem_mem hkL)
    have hx2 : ((a1.post[k] : Nat) : Int) = x := Option.some.inj hk
    omega
  · rw [hrel2.calls_fst]
    exact hinv2.pre_nodup.map (fun x y h => Int.ofNat.inj h)
  · intro x hx
    rw [hrel2.calls_fst] at hx
    obtain ⟨v, hv, rfl⟩ := List.mem_map.mp hx
    have := hinv2.pre_lt v hv
    show 0 ≤ ((v : Nat) : Int) ∧ ((v : Nat) : Int) < g.n
    omega

theorem C12_run_terminates_in_bounds_witness :
    GraphStore exampleGraph exampleGraphRev ∧ exampleGraph.n.toNat ≤ 3 ∧
    ∃ s1 s log, DFSLoop1Traced exampleGraph exampleGraphRev 3 (initState exampleGraph)
        = .ok (s1, log) ∧
      DFSLoop1 exampleGraph exampleGraphRev 3 (initState exampleGraph) = .ok s1 ∧
      DFSLoop2 exampleGraph 3 (resetVisited exampleGraph s1) = .ok s ∧
      kosaraju exampleGraph exampleGraphRev 3 = .ok s ∧
      (∀ r ∈ log, ∃ u : Nat, u < exampleGraph.n.toNat ∧ r.vertex = (u : Int) ∧
        readAt r.entry.visited (u : Int) = .ok 0 ∧ 0 ≤ r.exit.t - 1 ∧
        r.exit.t - 1 < exampleGraph.n) ∧
      s1.t = exampleGraph.n ∧
      (∀ x ∈ s1.finishingTimes, 0 ≤ x ∧ x < exampleGraph.n) ∧
      (∀ x ∈ s1.finishingTimesOrdered, 0 ≤ x ∧ x < exampleGraph.n) ∧
      s.finishingTimes = s1.finishingTimes ∧
      s.finishingTimesOrdered = s1.finishingTimesOrdered ∧
      (s.calls.map Prod.fst).Nodup ∧
      (∀ x ∈ s.calls.map Prod.fst, 0 ≤ x ∧ x < exampleGraph.n) ∧
      (∀ (l : List Int) (i : Int), (∃ x, readAt l i = .ok x) ↔ (0 ≤ i ∧ i < (l.length : Int))) ∧
      (∀ (l : List Int) (i x : Int),
        (∃ m, writeAt l i x = .ok m) ↔ (0 ≤ i ∧ i < (l.length : Int))) :=
  ⟨by decide, by decide,
    C12_run_terminates_in_bounds exampleGraph exampleGraphRev 3 (by decide) (by decide)⟩

/-- C13, as the code has it: `main` ends, given fuel for the vertex count of the file.  If
`argc == 1`, or the file cannot be opened, or its first line is absent or does not start
with an integer, then `main` ends through `err` with the failure status: the two passes have
not run and the output is the begin banner, the error message and the end banner, with no
`Found ... SCC(s)` line.  In every other case the file has a vertex count `n`, and when `n`
is greater than `INT_MIN` both passes run on the graphs read, the output has the `Found`
line with the final `sccCount`, and the status is success. -/
theorem C13_main_fails_before_passes_or_succeeds (fuel argc : Nat) (file : Option InputFile)
    (hcount : ∀ f n, argc ≠ 1 → file = some f → f.firstLine = .count n →
      INT_MIN < n ∧ n.toNat ≤ fuel) :
    ∃ o, main fuel argc file = .ok o ∧
      ((argc = 1 ∨ file = none ∨
          ∃ f, file = some f ∧ (f.firstLine = .absent ∨ f.firstLine = .unparseable)) →
        o.status = .failure ∧ o.final = none ∧ (∀ k, Line.found k ∉ o.output) ∧
          ∃ msg, o = err [Line.beginBanner] msg) ∧
      (¬ (argc = 1 ∨ file = none ∨
          ∃ f, file = some f ∧ (f.firstLine = .absent ∨ f.firstLine = .unparseable)) →
        o.status = .success ∧
          ∃ f n s1 s, file = some f ∧ f.firstLine = .count n ∧
            DFSLoop1 (readGraphFromFile n f.tokens).1 (readGraphFromFile n f.tokens).2 fuel
              (initState (readGraphFromFile n f.tokens).1) = .ok s1 ∧
            DFSLoop2 (readGraphFromFile n f.tokens).1 fuel
              (resetVisited (readGraphFromFile n f.tokens).1 s1) = .ok s ∧
            o.final = some s ∧ Line.found s.sccCount ∈ o.output) := by
  have hfail : ∀ msg, (err [Line.beginBanner] msg).status = .failure ∧
      (err [Line.beginBanner] msg).final = none ∧
      (∀ k, Line.found k ∉ (err [Line.beginBanner] msg).output) ∧
      ∃ msg2, err [Line.beginBanner] msg = err [Line.beginBanner] msg2 := by
    intro msg
    refine ⟨rfl, rfl, ?_, msg, rfl⟩
    intro k hk
    simp [err] at hk
  by_cases hargc : argc = 1
  · refine ⟨err [Line.beginBanner] "Err. The input file must be given as an argument.\n",
      by simp only [main, if_pos hargc], fun _ => hfail _, fun h => ?_⟩
    exact absurd (Or.inl hargc) h
  · cases file with
    | none =>
      refine ⟨err [Line.beginBanner] "Err. Could not open file.\n",
        by simp only [main, if_neg hargc, readGraphFromFile.whole],
        fun _ => hfail _, fun h => ?_⟩
      exact absurd (Or.inr (Or.inl rfl)) h
    | some f =>
      cases hfl : f.firstLine with
      | absent =>
        refine ⟨err [Line.beginBanner] "Err. Could not read number of vertices.\n",
          by simp only [main, if_neg hargc, readGraphFromFile.whole, hfl],
          fun _ => hfail _, fun h => ?_⟩
        exact absurd (Or.inr (Or.inr ⟨f, rfl, Or.inl hfl⟩)) h
      | unparseable =>
        refine ⟨err [Line.beginBanner] "Err. Could not read number of vertices.\n",
          by simp only [main, if_neg hargc, readGraphFromFile.whole, hfl],
          fun _ => hfail _, fun h => ?_⟩
        exact absurd (Or.inr (Or.inr ⟨f, rfl, Or.inr hfl⟩)) h
      | count n =>
        obtain ⟨hn, hfuel⟩ := hcount f n hargc rfl hfl
        obtain ⟨s1, s, h1, h2, h3⟩ := kosaraju_read n f.tokens hfuel
        have hg : ¬ ((readGraphFromFile n f.tokens).1.n - 1 < INT_MIN) := by
          show ¬ (n - 1 < INT_MIN)
          omega
        refine ⟨{ output := [Line.beginBanner, Line.elapsedRead, Line.found s.sccCount,
              Line.elapsedSearch, Line.endBanner]
                  status := Status.success
                  final := some s },
          by simp only [main, if_neg hargc, readGraphFromFile.whole, hfl, if_neg hg, h3],
          fun h => ?_, fun _ => ?_⟩
        · rcases h with h | h | ⟨f2, hf2, h⟩
          · exact absurd h hargc
          · cases h
          · cases hf2
            rw [hfl] at h
            rcases h with h | h <;> cases h
        · exact ⟨rfl, f, n, s1, s, rfl, hfl, h1, h2, rfl, by simp⟩

/-- C13, the claim as worded fails: with `argc = 2` and the file `leastCountFile`, whose
first line is the integer `-2147483648`, none of the three failure conditions of the claim
holds and `readGraphFromFile` returns 1, yet `main` does not end with the success status:
the loop start `graph.n - 1` of `DFSLoop1` is below `INT_MIN`, an overflow of `int`. -/
theorem C13_least_int_count_counterexample :
    ¬ ((2 : Nat) = 1 ∨ some leastCountFile = none ∨
        ∃ f, some leastCountFile = some f ∧
          (f.firstLine = .absent ∨ f.firstLine = .unparseable)) ∧
    (∃ graph graphRev, readGraphFromFile.whole (some leastCountFile) = .ok (graph, graphRev) ∧
      graph.n = INT_MIN ∧ graph.n - 1 < INT_MIN) ∧
    main 0 2 (some leastCountFile) = .error Err.intOverflow ∧
    ¬ ∃ o, main 0 2 (some leastCountFile) = .ok o ∧ o.status = .success := by
  have hrun : main 0 2 (some leastCountFile) = .error Err.intOverflow := rfl
  refine ⟨?_, ⟨_, _, rfl, rfl, by decide⟩, hrun, ?_⟩
  · rintro (h | h | ⟨f, hf, h⟩)
    · exact absurd h (by decide)
    · cases h
    · cases hf
      rcases h with h | h <;> cases h
  · rintro ⟨o, h, _⟩
    rw [hrun] at h
    cases h

theorem C13_main_fails_before_passes_or_succeeds_witness :
    (∀ f n, (2 : Nat) ≠ 1 → some exampleFile = some f → f.firstLine = .count n →
      INT_MIN < n ∧ n.toNat ≤ 3) ∧
    ∃ o, main 3 2 (some exampleFile) = .ok o ∧
      (((2 : Nat) = 1 ∨ some exampleFile = none ∨
          ∃ f, some exampleFile = some f ∧
            (f.firstLine = .absent ∨ f.firstLine = .unparseable)) →
        o.status = .failure ∧ o.final = none ∧ (∀ k, Line.found k ∉ o.output) ∧
          ∃ msg, o = err [Line.beginBanner] msg) ∧
      (¬ ((2 : Nat) = 1 ∨ some exampleFile = none ∨
          ∃ f, some exampleFile = some f ∧
            (f.firstLine = .absent ∨ f.firstLine = .unparseable)) →
        o.status = .success ∧
          ∃ f n s1 s, some exampleFile = some f ∧ f.firstLine = .count n ∧
            DFSLoop1 (readGraphFromFile n f.tokens).1 (readGraphFromFile n f.tokens).2 3
              (initState (readGraphFromFile n f.tokens).1) = .ok s1 ∧
            DFSLoop2 (readGraphFromFile n f.tokens).1 3
              (resetVisited (readGraphFromFile n f.tokens).1 s1) = .ok s ∧
            o.final = some s ∧ Line.found s.sccCount ∈ o.output) :=
  have hcount : ∀ f n, (2 : Nat) ≠ 1 → some exampleFile = some f → f.firstLine = .count n →
      INT_MIN < n ∧ n.toNat ≤ 3 := by
    intro f n _ hf hn
    cases hf
    cases hn
    decide
  ⟨hcount, C13_main_fails_before_passes_or_succeeds 3 2 (some exampleFile) hcount⟩

/-- C14, as the code has it: when `argc` is not 1 and the file has a vertex count `n`
greater than `INT_MIN`, the run of `main` succeeds and its output is the begin banner, the
first elapsed line, the line `Found sccCount SCC(s).` with the final value of `sccCount`,
the second elapsed line and the end banner.  Every successful run of `main`, whatever its
input, has an output of this form.  The number of edges `graph.m` is not printed. -/
theorem C14_report_is_the_scc_count (fuel argc : Nat) (n : Int) (tokens : List Token)
    (hargc : argc ≠ 1) (hn : INT_MIN < n) (hfuel : n.toNat ≤ fuel) :
    (∃ o s, main fuel argc (some ⟨.count n, tokens⟩) = .ok o ∧
      kosaraju (readGraphFromFile n tokens).1 (readGraphFromFile n tokens).2 fuel = .ok s ∧
      o.status = .success ∧ o.final = some s ∧
      o.output = [Line.beginBanner, Line.elapsedRead, Line.found s.sccCount,
        Line.elapsedSearch, Line.endBanner]) ∧
    ∀ (k a : Nat) (file : Option InputFile) (o : Outcome),
      main k a file = .ok o → o.status = .success →
      ∃ s, o.final = some s ∧
        o.output = [Line.beginBanner, Line.elapsedRead, Line.found s.sccCount,
          Line.elapsedSearch, Line.endBanner] := by
  constructor
  · obtain ⟨s1, s, _, _, h3⟩ := kosaraju_read n tokens hfuel
    have hg : ¬ ((readGraphFromFile n tokens).1.n - 1 < INT_MIN) := by
      show ¬ (n - 1 < INT_MIN)
      omega
    exact ⟨{ output := [Line.beginBanner, Line.elapsedRead, Line.found s.sccCount,
        Line.elapsedSearch, Line.endBanner]
             status := Status.success
             final := some s }, s,
      by simp only [main, if_neg hargc, readGraphFromFile.whole, if_neg hg, h3], h3, rfl, rfl,
      rfl⟩
  · intro k a file o h hs
    unfold main at h
    split at h
    · cases h
      cases hs
    · split at h
      · cases h
        cases hs
      · split at h
        · cases h
        · split at h
          · cases h
          · cases h
            exact ⟨_, rfl, rfl⟩

/-- C14, the claim as worded fails: the run of `main` on `exampleFile` succeeds and reads
`graph.m = 3` edges, and its output is the two banners, the two elapsed lines and
`Found 2 SCC(s).`, with no line for the number of edges; the run on `exampleFileDup`, which
reads `graph.m = 4` edges, gives the very same output. -/
theorem C14_report_has_no_edge_count_counterexample :
    (readGraphFromFile 3 exampleFile.tokens).1.m = 3 ∧
    (readGraphFromFile 3 exampleFileDup.tokens).1.m = 4 ∧
    ∃ o o2, main 3 2 (some exampleFile) = .ok o ∧ main 3 2 (some exampleFileDup) = .ok o2 ∧
      o.status = .success ∧ o2.status = .success ∧
      o.output = [Line.beginBanner, Line.elapsedRead, Line.found 2, Line.elapsedSearch,
        Line.endBanner] ∧
      o2.output = o.output ∧
      Line.found (readGraphFromFile 3 exampleFile.tokens).1.m ∉ o.output :=
  ⟨by decide, by decide, _, _, rfl, rfl, rfl, rfl, rfl, rfl, by decide⟩

theorem C14_report_is_the_scc_count_witness :
    (2 : Nat) ≠ 1 ∧ INT_MIN < 3 ∧ (3 : Int).toNat ≤ 3 ∧
    ((∃ o s, main 3 2 (some ⟨.count 3, [.int 1, .int 2, .int 2, .int 1, .int 3, .int 1]⟩)
        = .ok o ∧
      kosaraju (readGraphFromFile 3 [.int 1, .int 2, .int 2, .int 1, .int 3, .int 1]).1
        (readGraphFromFile 3 [.int 1, .int 2, .int 2, .int 1, .int 3, .int 1]).2 3 = .ok s ∧
      o.status = .success ∧ o.final = some s ∧
      o.output = [Line.beginBanner, Line.elapsedRead, Line.found s.sccCount,
        Line.elapsedSearch, Line.endBanner]) ∧
    ∀ (k a : Nat) (file : Option InputFile) (o : Outcome),
      main k a file = .ok o → o.status = .success →
      ∃ s, o.final = some s ∧
        o.output = [Line.beginBanner, Line.elapsedRead, Line.found s.sccCount,
          Line.elapsedSearch, Line.endBanner]) :=
  ⟨by decide, by decide, by decide,
    C14_report_is_the_scc_count 3 2 3 [.int 1, .int 2, .int 2, .int 1, .int 3, .int 1]
      (by decide) (by decide) (by decide)⟩

/-- C15, as the code has it: on a well-formed pair, after `DFSLoop1`, whenever `graphRev` has
a path from `u` to `v`, some vertex `z` of the component of `u` finishes no earlier than
`v`; so a vertex `v` that finishes later than every vertex of the component of `u` is not
reachable from `u` in `graphRev`.  The comparison is with the greatest finishing time of the
component of `u`, not with the finishing time of `u` itself. -/
theorem C15_later_than_component_means_no_path (g gr : Graph) (fuel : Nat)
    (hp : WellFormedPair g gr) (hfuel : g.n.toNat ≤ fuel) :
    ∃ s, DFSLoop1 g gr fuel (initState g) = .ok s ∧
      (∀ v : Nat, v < g.n.toNat → ∃ fv, readAt s.finishingTimes (v : Int) = .ok fv) ∧
      (∀ u v : Nat, u < g.n.toNat → gr.Reach u v →
        ∃ (z : Nat) (fz fv : Int), g.SameSCC u z ∧
          readAt s.finishingTimes (z : Int) = .ok fz ∧
          readAt s.finishingTimes (v : Int) = .ok fv ∧ fv ≤ fz) ∧
      (∀ (u v : Nat) (fv : Int), u < g.n.toNat → v < g.n.toNat →
        readAt s.finishingTimes (v : Int) = .ok fv →
        (∀ (w : Nat) (fw : Int), g.SameSCC u w →
          readAt s.finishingTimes (w : Int) = .ok fw → fw < fv) →
        ¬ gr.Reach u v) := by
  obtain ⟨s, L, hrun, hL, hK⟩ := first_pass_order hp hfuel
  have hn : gr.n.toNat = g.n.toNat := by rw [hp.2.2.1]
  have key : ∀ u v : Nat, u < g.n.toNat → gr.Reach u v →
      ∃ z : Nat, g.SameSCC u z ∧ z < g.n.toNat ∧ v < g.n.toNat ∧
        L.indexOf v ≤ L.indexOf z := by
    intro u v hu huv
    have hv : v < g.n.toNat := hn ▸ hp.2.1.reach_lt huv (hn.symm ▸ hu)
    obtain ⟨z, hz, hle⟩ := Kosaraju.graph_form hp hL hK hu ((hp.reach_iff v u).mpr huv)
    exact ⟨z, hz, hp.1.reach_lt hz.1 hu, hv, hle⟩
  refine ⟨s, hrun, fun v hv => ⟨_, hL.ft_read hv⟩, ?_, ?_⟩
  · intro u v hu huv
    obtain ⟨z, hz, hzn, hvn, hle⟩ := key u v hu huv
    exact ⟨z, _, _, hz, hL.ft_read hzn, hL.ft_read hvn, by exact_mod_cast hle⟩
  · intro u v fv hu hv hread hall huv
    obtain ⟨z, hz, hzn, _, hle⟩ := key u v hu huv
    have h1 := hall z _ hz (hL.ft_read hzn)
    rw [hL.ft_read hv] at hread
    have h2 : ((L.indexOf v : Nat) : Int) = fv := Except.ok.inj hread
    omega

/-- C15, the claim as worded fails: on the well-formed pair `crossGraph`, `crossGraphRev`
(the file `3`, `1 3`, `2 3`, `3 2`) the first pass ends with `finishingTimes = [1, 0, 2]`,
so vertex 0 finishes later than vertex 1; they lie in different components, since vertex 1
does not reach vertex 0 in `graph`; yet `graphRev` has the path `1 -> 2 -> 0`. -/
theorem C15_later_finish_pairwise_counterexample :
    WellFormedPair crossGraph crossGraphRev ∧
    (readGraphFromFile 3 [.int 1, .int 3, .int 2, .int 3, .int 3, .int 2]
      = (crossGraph, crossGraphRev)) ∧
    ∃ s, DFSLoop1 crossGraph crossGraphRev 3 (initState crossGraph) = .ok s ∧
      s.finishingTimes = [1, 0, 2] ∧
      readAt s.finishingTimes 0 = .ok 1 ∧ readAt s.finishingTimes 1 = .ok 0 ∧
      ¬ crossGraph.SameSCC 1 0 ∧ crossGraphRev.Reach 1 0 := by
  refine ⟨by decide, by decide, _, rfl, rfl, rfl, rfl, ?_, ?_⟩
  · intro h
    have hS : ∀ u, (u = 1 ∨ u = 2) → ∀ w, crossGraph.Edge u w → (w = 1 ∨ w = 2) := by
      intro u hu w he
      rcases hu with rfl | rfl
      · have : (w : Int) ∈ [(2 : Int)] := he
        simp at this
        omega
      · have : (w : Int) ∈ [(1 : Int)] := he
        simp at this
        omega
    have := reach_closed (S := fun u => u = 1 ∨ u = 2) hS (Or.inl rfl) h.1
    omega
  · have h12 : crossGraphRev.Edge 1 2 := by decide
    have h20 : crossGraphRev.Edge 2 0 := by decide
    exact (ReflTransGen.single h12).trans (ReflTransGen.single h20)

theorem C15_later_than_component_means_no_path_witness :
    WellFormedPair crossGraph crossGraphRev ∧ crossGraph.n.toNat ≤ 3 ∧
    ∃ s, DFSLoop1 crossGraph crossGraphRev 3 (initState crossGraph) = .ok s ∧
      (∀ v : Nat, v < crossGraph.n.toNat →
        ∃ fv, readAt s.finishingTimes (v : Int) = .ok fv) ∧
      (∀ u v : Nat, u < crossGraph.n.toNat → crossGraphRev.Reach u v →
        ∃ (z : Nat) (fz fv : Int), crossGraph.SameSCC u z ∧
          readAt s.finishingTimes (z : Int) = .ok fz ∧
          readAt s.finishingTimes (v : Int) = .ok fv ∧ fv ≤ fz) ∧
      (∀ (u v : Nat) (fv : Int), u < crossGraph.n.toNat → v < crossGraph.n.toNat →
        readAt s.finishingTimes (v : Int) = .ok fv →
        (∀ (w : Nat) (fw : Int), crossGraph.SameSCC u w →
          readAt s.finishingTimes (w : Int) = .ok fw → fw < fv) →
        ¬ crossGraphRev.Reach u v) :=
  ⟨by decide, by decide,
    C15_later_than_component_means_no_path crossGraph crossGraphRev 3 (by decide)
      (by decide)⟩

/-- C16: on a well-formed Graph Store, `DFS1` is called during `DFSLoop1` exactly once on
each vertex `u`, always with `u` unvisited and without a finishing time; at its return `u`
has the finishing time `t - 1`, the last one assigned; every other vertex `w` first visited
between the entry and the return has a finishing time below that of `u`, at the return and
at the end of the pass; and every successor of `u` in `graphRev` is marked visited. -/
theorem C16_DFS1_finishes_in_post_order (g gr : Graph) (fuel : Nat) (hs : GraphStore g gr)
    (hfuel : g.n.toNat ≤ fuel) :
    ∃ s log, DFSLoop1Traced g gr fuel (initState g) = .ok (s, log) ∧
      DFSLoop1 g gr fuel (initState g) = .ok s ∧
      (log.map CallRec.vertex).Perm ((List.range g.n.toNat).map Int.ofNat) ∧
      ∀ r ∈ log, ∃ u : Nat, u < g.n.toNat ∧ r.vertex = (u : Int) ∧
        readAt r.entry.visited (u : Int) = .ok 0 ∧
        readAt r.entry.finishingTimes (u : Int) = .ok (-1) ∧
        readAt r.exit.finishingTimes (u : Int) = .ok (r.exit.t - 1) ∧
        readAt s.finishingTimes (u : Int) = .ok (r.exit.t - 1) ∧
        (∀ w : Nat, w < g.n.toNat → w ≠ u →
          readAt r.entry.visited (w : Int) = .ok 0 →
          readAt r.exit.visited (w : Int) = .ok 1 →
          ∃ fw, readAt r.exit.finishingTimes (w : Int) = .ok fw ∧
            readAt s.finishingTimes (w : Int) = .ok fw ∧ 0 ≤ fw ∧ fw < r.exit.t - 1) ∧
        (∀ v : Nat, gr.Edge u v → readAt r.exit.visited (v : Int) = .ok 1) := by
  have hn : gr.n.toNat = g.n.toNat := by rw [hs.2.2]
  obtain ⟨s, a, l, hrunT, hrun, hrel, _, _, _, hperm, hgood⟩ := DFSLoop1Traced_run hs hfuel
  refine ⟨s, l, hrunT, hrun, hperm, ?_⟩
  intro r hr
  obtain ⟨hg, hext⟩ := hgood r hr
  obtain ⟨u, hu, hvert, h1, h2, h3, h4, h5, _, h7, h8⟩ := hg.facts hs.2.1
  rw [hn] at hu h7
  have hread : ∀ {l : List Int} {k : Nat} {x : Int}, readAt l (k : Int) = .ok x →
      l[k]? = some x := by
    intro l k x h
    unfold readAt at h
    rw [if_neg (by omega)] at h
    simp only [Int.toNat_ofNat] at h
    cases hk : l[k]? with
    | none => rw [hk] at h; cases h
    | some y => rw [hk] at h; rw [Except.ok.inj h]
  refine ⟨u, hu, hvert, readAt_nat h1, readAt_nat h2, readAt_nat h3,
    readAt_nat (hext.2 u _ h3 (by omega)), ?_, fun v huv => readAt_nat (h8 v huv)⟩
  intro w hw hwu hv0 hv1
  obtain ⟨fw, hf1, hf2, hf3⟩ := h7 w hw hwu (hread hv0) (hread hv1)
  exact ⟨fw, readAt_nat hf1, readAt_nat (hext.2 w fw hf1 (by omega)), by omega, hf3⟩

theorem C16_DFS1_finishes_in_post_order_witness :
    GraphStore exampleGraph exampleGraphRev ∧ exampleGraph.n.toNat ≤ 3 ∧
    ∃ s log, DFSLoop1Traced exampleGraph exampleGraphRev 3 (initState exampleGraph)
        = .ok (s, log) ∧
      DFSLoop1 exampleGraph exampleGraphRev 3 (initState exampleGraph) = .ok s ∧
      (log.map CallRec.vertex).Perm ((List.range exampleGraph.n.toNat).map Int.ofNat) ∧
      ∀ r ∈ log, ∃ u : Nat, u < exampleGraph.n.toNat ∧ r.vertex = (u : Int) ∧
        readAt r.entry.visited (u : Int) = .ok 0 ∧
        readAt r.entry.finishingTimes (u : Int) = .ok (-1) ∧
        readAt r.exit.finishingTimes (u : Int) = .ok (r.exit.t - 1) ∧
        readAt s.finishingTimes (u : Int) = .ok (r.exit.t - 1) ∧
        (∀ w : Nat, w < exampleGraph.n.toNat → w ≠ u →
          readAt r.entry.visited (w : Int) = .ok 0 →
          readAt r.exit.visited (w : Int) = .ok 1 →
          ∃ fw, readAt r.exit.finishingTimes (w : Int) = .ok fw ∧
            readAt s.finishingTimes (w : Int) = .ok fw ∧ 0 ≤ fw ∧ fw < r.exit.t - 1) ∧
        (∀ v : Nat, exampleGraphRev.Edge u v → readAt r.exit.visited (v : Int) = .ok 1) :=
  ⟨by decide, by decide,
    C16_DFS1_finishes_in_post_order exampleGraph exampleGraphRev 3 (by decide) (by decide)⟩

/-- C17: on a well-formed Graph Store with `n >= 1`, `DFSLoop1` starts with the call of
`DFS1` on vertex `n - 1` at time 0 and goes on with the loop below `n - 1`.  With `R` the
set of vertices that `n - 1` reaches in `graphRev`, that first call returns at time `|R|`,
and at the end `finishingTimes[n - 1] = |R| - 1` and a vertex has a finishing time of at
most `|R| - 1` exactly when it lies in `R`.  On a graph without edges
`finishingTimes[v] = n - 1 - v` for every vertex `v`. -/
theorem C17_first_exploration_from_last_vertex (g gr : Graph) (fuel : Nat)
    (hs : GraphStore g gr) (hn : 1 ≤ g.n) (hfuel : g.n.toNat ≤ fuel) :
    ∃ s1 s, (initState g).t = 0 ∧ readAt (initState g).visited (g.n - 1) = .ok 0 ∧
      DFS1 gr fuel (g.n - 1) (initState g) = .ok s1 ∧
      DFSLoop1.go gr fuel (g.n.toNat - 1) s1 = .ok s ∧
      DFSLoop1 g gr fuel (initState g) = .ok s ∧
      s1.t = (Set.ncard {v | gr.Reach (g.n.toNat - 1) v} : Int) ∧
      readAt s.finishingTimes (g.n - 1)
        = .ok ((Set.ncard {v | gr.Reach (g.n.toNat - 1) v} : Int) - 1) ∧
      (∀ v : Nat, v < g.n.toNat → ∃ fv, readAt s.finishingTimes (v : Int) = .ok fv ∧
        0 ≤ fv ∧
        (fv ≤ (Set.ncard {v | gr.Reach (g.n.toNat - 1) v} : Int) - 1 ↔
          gr.Reach (g.n.toNat - 1) v)) ∧
      ((∀ u v, ¬ gr.Edge u v) →
        ∀ v : Nat, v < g.n.toNat → readAt s.finishingTimes (v : Int) = .ok (g.n - 1 - v)) := by
  obtain ⟨m, hm⟩ : ∃ m, g.n.toNat = m + 1 := ⟨g.n.toNat - 1, by omega⟩
  have hgn : g.n = (m : Int) + 1 := by omega
  have hm1 : g.n.toNat - 1 = m := by omega
  have hnm : g.n - 1 = (m : Int) := by omega
  have hngr : gr.n.toNat = g.n.toNat := by rw [hs.2.2]
  rw [hm1, hnm]
  obtain ⟨s1, a1, hrun1, hrel1, hinv1, hq1, hreach, hmpre, hidx⟩ := DFS1_first_call hs hm hfuel
  have hgo := DFSLoop1_go_spec hs.2.1 (initState g) (hngr ▸ hfuel) m (by omega) s1 a1
    (hngr ▸ hrel1) (hngr ▸ hinv1) hq1 (by
      intro v hv hmv
      have : v = m := by omega
      exact this ▸ hmpre)
  rw [hngr] at hgo
  obtain ⟨s, a, hrun, hrel, hinv, hq, hall, np, nw, hgrow⟩ := hgo
  obtain ⟨hL, _⟩ := hrel.order hinv hq hall
  have hread0 : readAt (initState g).visited (m : Int) = .ok 0 :=
    readAt_nat (by
      show (List.replicate g.n.toNat (0 : Int))[m]? = some 0
      rw [hm]
      simp [List.getElem?_replicate])
  have hcard : Set.ncard {v | gr.Reach m v} = a1.post.length := by
    have hset : {v | gr.Reach m v} = ((a1.post.toFinset : Finset Nat) : Set Nat) := by
      ext v
      simp [hreach v]
    rw [hset, Set.ncard_coe_Finset, List.toFinset_card_of_nodup hinv1.post_nodup]
  have hmpost : m ∈ a1.post := hq1 m hmpre
  refine ⟨s1, s, rfl, hread0, hrun1, hrun, ?_, ?_, ?_, ?_, ?_⟩
  · simp only [DFSLoop1, hm, DFSLoop1.go, hread0]
    simpa [hrun1] using hrun
  · rw [hrel1.t_eq, hcard]
  · rw [hL.ft_read (by omega), hgrow.post_eq, List.indexOf_append_of_mem hmpost, hcard]
    congr 1
    omega
  · intro v hv
    refine ⟨_, hL.ft_read hv, Int.ofNat_nonneg _, ?_⟩
    rw [hcard, ← hreach v, hgrow.post_eq]
    have hpos : 0 < a1.post.length := List.length_pos_of_mem hmpost
    constructor
    · intro hle
      by_contra hv1
      rw [List.indexOf_append_of_not_mem hv1] at hle
      omega
    · intro hv1
      rw [List.indexOf_append_of_mem hv1]
      have := List.indexOf_lt_length.mpr hv1
      omega
  · intro hE v hv
    obtain ⟨c', a', hrun', hrel', hpost'⟩ :=
      DFSLoop1_go_no_edges hs.2.1 hE (initState g) (hngr ▸ hfuel) gr.n.toNat (le_refl _)
        (initState g) ⟨[], []⟩ (hngr ▸ rel1_init g) (ainv_init _ _) (by
          intro v
          simp only [List.not_mem_nil, false_iff]
          omega)
    rw [hngr] at hrun' hrel' hpost'
    have hfull : DFSLoop1 g gr fuel (initState g) = .ok s := by
      simp only [DFSLoop1, hm, DFSLoop1.go, hread0]
      simpa [hrun1] using hrun
    have hcs : c' = s := by
      have h1 : DFSLoop1 g gr fuel (initState g) = .ok c' := hrun'
      rw [hfull] at h1
      exact (Except.ok.inj h1).symm
    subst hcs
    have hvpost : v ∈ a'.post := by
      rw [hpost']
      simp [hv]
    have := hrel'.ft_in v hvpost
    rw [hpost', List.nil_append, indexOf_reverse_range hv] at this
    rw [readAt_nat this]
    congr 1
    omega

theorem C17_first_exploration_from_last_vertex_witness :
    GraphStore exampleGraph exampleGraphRev ∧ 1 ≤ exampleGraph.n ∧
    exampleGraph.n.toNat ≤ 3 ∧
    ∃ s1 s, (initState exampleGraph).t = 0 ∧
      readAt (initState exampleGraph).visited (exampleGraph.n - 1) = .ok 0 ∧
      DFS1 exampleGraphRev 3 (exampleGraph.n - 1) (initState exampleGraph) = .ok s1 ∧
      DFSLoop1.go exampleGraphRev 3 (exampleGraph.n.toNat - 1) s1 = .ok s ∧
      DFSLoop1 exampleGraph exampleGraphRev 3 (initState exampleGraph) = .ok s ∧
      s1.t = (Set.ncard {v | exampleGraphRev.Reach (exampleGraph.n.toNat - 1) v} : Int) ∧
      readAt s.finishingTimes (exampleGraph.n - 1)
        = .ok ((Set.ncard {v | exampleGraphRev.Reach (exampleGraph.n.toNat - 1) v} : Int)
            - 1) ∧
      (∀ v : Nat, v < exampleGraph.n.toNat →
        ∃ fv, readAt s.finishingTimes (v : Int) = .ok fv ∧ 0 ≤ fv ∧
        (fv ≤ (Set.ncard {v | exampleGraphRev.Reach (exampleGraph.n.toNat - 1) v} : Int) - 1
          ↔ exampleGraphRev.Reach (exampleGraph.n.toNat - 1) v)) ∧
      ((∀ u v, ¬ exampleGraphRev.Edge u v) →
        ∀ v : Nat, v < exampleGraph.n.toNat →
          readAt s.finishingTimes (v : Int) = .ok (exampleGraph.n - 1 - v)) :=
  ⟨by decide, by decide, by decide,
    C17_first_exploration_from_last_vertex exampleGraph exampleGraphRev 3 (by decide)
      (by decide) (by decide)⟩

/-- C18: for every vertex `u`, `graph.edges[u]` read from its head is the sequence of the
0-based heads of the accepted pairs with tail `u`, in the reverse of their input order, and
`graphRev.edges[v]` is the sequence of the tails of the accepted pairs with head `v`, in the
reverse of their input order; every accepted pair, duplicate or self-loop, has its own
node. -/
theorem C18_successor_lists_in_reverse_input_order (n : Int) (tokens : List Token)
    (u : Nat) :
    (readGraphFromFile n tokens).1.edges.getD u [] =
      (((acceptedPairs n tokens).filter (fun p => decide (p.1 - 1 = (u : Int)))).map
        (fun p => p.2 - 1)).reverse ∧
    (readGraphFromFile n tokens).2.edges.getD u [] =
      (((acceptedPairs n tokens).filter (fun p => decide (p.2 - 1 = (u : Int)))).map
        (fun p => p.1 - 1)).reverse := by
  have hv := acceptedPairs_valid n tokens
  have hempty : ∀ k : Nat, (List.replicate n.toNat ([] : List Int)).getD k [] = [] := by
    intro k
    simp only [List.getD_eq_getElem?_getD, List.getElem?_replicate]
    split <;> rfl
  constructor
  · show (readEdges n tokens (emptyBuilder n)).edges.getD u [] = _
    rw [readEdges_eq_buildFrom, buildFrom_edges_order _ hv u _ (by simp [emptyBuilder])]
    simp [emptyBuilder, hempty]
  · show (readEdges n tokens (emptyBuilder n)).edgesRev.getD u [] = _
    rw [readEdges_eq_buildFrom, buildFrom_edgesRev_order _ hv u _ (by simp [emptyBuilder])]
    simp [emptyBuilder, hempty]

/-- C19: on a well-formed pair, after `DFSLoop2`, for every vertex `r`: if `r` has the
greatest finishing time of its component then `sccComponentsCount[r]` is the number of
vertices of that component, and otherwise it is 0; `r` has the greatest finishing time of
its component exactly when `DFSLoop2` called `DFS2` on `r` as a root, with the slot
`finishingTimes[r]`; and the number of non-zero entries of `sccComponentsCount` is
`sccCount`. -/
theorem C19_sizes_at_greatest_finishing_time (g gr : Graph) (fuel : Nat)
    (hp : WellFormedPair g gr) (hfuel : g.n.toNat ≤ fuel) :
    ∃ s1 s, DFSLoop1 g gr fuel (initState g) = .ok s1 ∧
      DFSLoop2 g fuel (resetVisited g s1) = .ok s ∧ kosaraju g gr fuel = .ok s ∧
      (∀ r : Nat, r < g.n.toNat →
        (GreatestInSCC g s1 r →
          readAt s.sccComponentsCount (r : Int)
            = .ok (Set.ncard {v | g.SameSCC r v} : Int)) ∧
        (¬ GreatestInSCC g s1 r → readAt s.sccComponentsCount (r : Int) = .ok 0) ∧
        (GreatestInSCC g s1 r ↔
          ∃ i : Int, readAt s1.finishingTimes (r : Int) = .ok i ∧
            readAt s.finishingTimesOrdered i = .ok (r : Int) ∧ ((r : Int), i) ∈ s.calls)) ∧
      ((s.sccComponentsCount.filter (fun x => decide (x ≠ 0))).length : Int) = s.sccCount := by
  obtain ⟨s1, s, L, a, tr, hrun1, hrun2, hrun, hL, _, hinv, hord⟩ := kosaraju_full hp hfuel
  have hL2 := hL.reset g
  have hsized := hinv.sized hp.1 hL2
  refine ⟨s1, s, hrun1, hrun2, hrun, ?_, hinv.nonzero_count hp.1 hL2⟩
  intro r hr
  have hiff : GreatestInSCC g s1 r ↔ (r, L.indexOf r) ∈ tr :=
    (greatest_iff_index hp.1 hL hr).trans (hinv.root_iff hp.1 hL2 hord hr).symm
  refine ⟨?_, ?_, ?_⟩
  · intro hgr
    exact readAt_nat (hsized.root r hr (hiff.mp hgr))
  · intro hgr
    exact readAt_nat (hsized.other r hr (fun h => hgr (hiff.mpr h)))
  · rw [hiff]
    constructor
    · intro hroot
      refine ⟨_, hL.ft_read hr, ?_, (hinv.mem_calls r _).mpr hroot⟩
      exact hinv.fto_read hL2 (getElem?_indexOf ((hL.mem r).mpr hr))
    · rintro ⟨i, hread, _, hcall⟩
      rw [hL.ft_read hr] at hread
      have hi : ((L.indexOf r : Nat) : Int) = i := Except.ok.inj hread
      rw [← hi] at hcall
      exact (hinv.mem_calls r _).mp hcall

theorem C19_sizes_at_greatest_finishing_time_witness :
    WellFormedPair exampleGraph exampleGraphRev ∧ exampleGraph.n.toNat ≤ 3 ∧
    ∃ s1 s, DFSLoop1 exampleGraph exampleGraphRev 3 (initState exampleGraph) = .ok s1 ∧
      DFSLoop2 exampleGraph 3 (resetVisited exampleGraph s1) = .ok s ∧
      kosaraju exampleGraph exampleGraphRev 3 = .ok s ∧
      (∀ r : Nat, r < exampleGraph.n.toNat →
        (GreatestInSCC exampleGraph s1 r →
          readAt s.sccComponentsCount (r : Int)
            = .ok (Set.ncard {v | exampleGraph.SameSCC r v} : Int)) ∧
        (¬ GreatestInSCC exampleGraph s1 r →
          readAt s.sccComponentsCount (r : Int) = .ok 0) ∧
        (GreatestInSCC exampleGraph s1 r ↔
          ∃ i : Int, readAt s1.finishingTimes (r : Int) = .ok i ∧
            readAt s.finishingTimesOrdered i = .ok (r : Int) ∧ ((r : Int), i) ∈ s.calls)) ∧
      ((s.sccComponentsCount.filter (fun x => decide (x ≠ 0))).length : Int) = s.sccCount :=
  ⟨by decide, by decide,
    C19_sizes_at_greatest_finishing_time exampleGraph exampleGraphRev 3 (by decide)
      (by decide)⟩

/-- C20: on a well-formed pair, after `DFSLoop1`, if `graph` has an edge from a vertex `c'`
of the component of `c` to a vertex `d'` of a different component, that of `d`, then some
vertex `z` of the component of `d` has the greatest finishing time of that component, and
this time is strictly greater than the finishing time of every vertex of the component of
`c`.  So the component of the vertex with finishing time `n - 1` has no edge of `graph`
leaving it. -/
theorem C20_edge_raises_greatest_finishing_time (g gr : Graph) (fuel : Nat)
    (hp : WellFormedPair g gr) (hfuel : g.n.toNat ≤ fuel) :
    ∃ s, DFSLoop1 g gr fuel (initState g) = .ok s ∧
      (∀ c d c' d' : Nat, g.SameSCC c c' → g.SameSCC d d' → ¬ g.SameSCC c d →
        g.Edge c' d' →
        ∃ (z : Nat) (fz : Int), g.SameSCC d z ∧ readAt s.finishingTimes (z : Int) = .ok fz ∧
          (∀ w : Nat, g.SameSCC d w →
            ∃ fw, readAt s.finishingTimes (w : Int) = .ok fw ∧ fw ≤ fz) ∧
          (∀ w : Nat, g.SameSCC c w →
            ∃ fw, readAt s.finishingTimes (w : Int) = .ok fw ∧ fw < fz)) ∧
      (∀ z : Nat, z < g.n.toNat → readAt s.finishingTimes (z : Int) = .ok (g.n - 1) →
        ∀ z' w : Nat, g.SameSCC z z' → g.Edge z' w → g.SameSCC z w) := by
  obtain ⟨s, L, hrun, hL, hK⟩ := first_pass_order hp hfuel
  have hgn : ((g.n.toNat : Nat) : Int) = g.n := Int.toNat_of_nonneg hp.1.1
  have key : ∀ c d c' d' : Nat, g.SameSCC c c' → g.SameSCC d d' → ¬ g.SameSCC c d →
      g.Edge c' d' → ∃ z : Nat, g.SameSCC d z ∧ z < g.n.toNat ∧
        (∀ w : Nat, g.SameSCC d w → w < g.n.toNat ∧ L.indexOf w ≤ L.indexOf z) ∧
        (∀ w : Nat, g.SameSCC c w → w < g.n.toNat ∧ L.indexOf w < L.indexOf z) := by
    intro c d c' d' hc hd hcd he
    obtain ⟨hc'n, hd'n⟩ := hp.1.edge_lt he
    have hdn : d < g.n.toNat := hp.1.reach_lt hd.2 hd'n
    have hcn : c < g.n.toNat := hp.1.reach_lt hc.2 hc'n
    obtain ⟨z, hz, hmax⟩ := exists_max_in_scc hp.1 L hdn
    have hzn : z < g.n.toNat := hp.1.reach_lt hz.1 hdn
    refine ⟨z, hz, hzn, fun w hw => ⟨hp.1.reach_lt hw.1 hdn, hmax w hw⟩, ?_⟩
    intro w hw
    have hwn : w < g.n.toNat := hp.1.reach_lt hw.1 hcn
    have hwd : g.Reach w d :=
      (hw.2.trans hc.1).trans ((ReflTransGen.single he).trans hd.2)
    obtain ⟨y, hy, hle⟩ := Kosaraju.graph_form hp hL hK hdn hwd
    have hyn : y < g.n.toNat := hp.1.reach_lt hy.1 hdn
    have hne : L.indexOf w ≠ L.indexOf y := by
      intro heq
      have hwy : w = y := (List.indexOf_inj ((hL.mem w).mpr hwn) ((hL.mem y).mpr hyn)).mp heq
      exact hcd (hw.trans (hwy ▸ hy.symm))
    have := hmax y hy
    exact ⟨hwn, by omega⟩
  refine ⟨s, hrun, ?_, ?_⟩
  · intro c d c' d' hc hd hcd he
    obtain ⟨z, hz, hzn, hD, hC⟩ := key c d c' d' hc hd hcd he
    refine ⟨z, _, hz, hL.ft_read hzn, ?_, ?_⟩
    · intro w hw
      exact ⟨_, hL.ft_read (hD w hw).1, by exact_mod_cast (hD w hw).2⟩
    · intro w hw
      exact ⟨_, hL.ft_read (hC w hw).1, by exact_mod_cast (hC w hw).2⟩
  · intro z hzn hread z' w hzz' he
    by_contra hzw
    obtain ⟨y, _, hyn, _, hC⟩ := key z w z' w hzz' (Graph.SameSCC.refl g w) hzw he
    have h1 := (hC z (Graph.SameSCC.refl g z)).2
    have h2 := hL.indexOf_lt hyn
    rw [hL.ft_read hzn] at hread
    have h3 : ((L.indexOf z : Nat) : Int) = g.n - 1 := Except.ok.inj hread
    omega

theorem C20_edge_raises_greatest_finishing_time_witness :
    WellFormedPair exampleGraph exampleGraphRev ∧ exampleGraph.n.toNat ≤ 3 ∧
    ∃ s, DFSLoop1 exampleGraph exampleGraphRev 3 (initState exampleGraph) = .ok s ∧
      (∀ c d c' d' : Nat, exampleGraph.SameSCC c c' → exampleGraph.SameSCC d d' →
        ¬ exampleGraph.SameSCC c d → exampleGraph.Edge c' d' →
        ∃ (z : Nat) (fz : Int), exampleGraph.SameSCC d z ∧
          readAt s.finishingTimes (z : Int) = .ok fz ∧
          (∀ w : Nat, exampleGraph.SameSCC d w →
            ∃ fw, readAt s.finishingTimes (w : Int) = .ok fw ∧ fw ≤ fz) ∧
          (∀ w : Nat, exampleGraph.SameSCC c w →
            ∃ fw, readAt s.finishingTimes (w : Int) = .ok fw ∧ fw < fz)) ∧
      (∀ z : Nat, z < exampleGraph.n.toNat →
        readAt s.finishingTimes (z : Int) = .ok (exampleGraph.n - 1) →
        ∀ z' w : Nat, exampleGraph.SameSCC z z' → exampleGraph.Edge z' w →
          exampleGraph.SameSCC z w) :=
  ⟨by decide, by decide,
    C20_edge_raises_greatest_finishing_time exampleGraph exampleGraphRev 3 (by decide)
      (by decide)⟩

end GraphSCC
